import Mathlib

/-!
Verification development for the mazeworld maze generator.

The Rust source is shallowly embedded: `usize` node handles become `Nat`,
`HashSet<NodeId>` becomes `Finset Nat` (content semantics; where the code
iterates a hash set we iterate its elements in ascending order, which models
the "deterministic neighbor ordering" the design assumes), `Vec<T>` becomes
`List T`, and every point where the Rust code can `panic!`/`assert!` is made
explicit with `Option`/a panic flag.  Randomness (`ThreadRng` draws) is
modelled by an explicit stream `Nat → Nat` of drawn values together with a
cursor; `gen_range(0..len)` applied to the k-th draw is `draws k % len`,
which realises every sequence of in-range outcomes.
-/

namespace Mazeworld

/-- Positional update of a list entry, mirroring `vec[i] = f(vec[i])`
(out-of-range indices leave the list unchanged; all uses in this
development are in range). -/
def updateNth {α : Type _} : List α → Nat → (α → α) → List α
  | [], _, _ => []
  | a :: l, 0, f => f a :: l
  | a :: l, Nat.succ i, f => a :: updateNth l i f

/-- Result of running a fuelled loop whose body can panic. -/
inductive RunResult (σ : Type _) where
  | done (s : σ)
  | fuelOut
  | panicked
deriving DecidableEq, Repr

/-- Fuelled `while cond { step }` loop for a body that can panic
(`step s = none` models a `panic!`). -/
def whileFuel {σ : Type _} (cond : σ → Bool) (step : σ → Option σ) :
    Nat → σ → RunResult σ
  | 0, s => if cond s then .fuelOut else .done s
  | Nat.succ n, s =>
    if cond s then
      match step s with
      | some s' => whileFuel cond step n s'
      | none => .panicked
    else .done s

/-- Fuelled `while cond { step }` loop for a total body; returns the state
when the condition first fails (or when fuel runs out). -/
def loopFuel {σ : Type _} (cond : σ → Bool) (step : σ → σ) : Nat → σ → σ
  | 0, s => s
  | Nat.succ n, s => if cond s then loopFuel cond step n (step s) else s

/-- Rust `Iterator::max_by_key`: returns the last element attaining the
maximal key, `none` on an empty list. -/
def listMaxByKey {α : Type _} (l : List α) (key : α → Nat) : Option α :=
  l.foldl (fun acc x =>
    match acc with
    | none => some x
    | some m => if key m ≤ key x then some x else some m) none

/-! ## The graph pool (src/pool.rs) -/

/-- `Node<T>` from src/pool.rs: identity, link set, adjacency set, payload. -/
structure Node (T : Type _) where
  id : Nat
  links : Finset Nat
  adjacencies : Finset Nat
  payload : T
deriving DecidableEq

/-- `Pool<T>` from src/pool.rs: the owning sequence of nodes.  Indexing
(`pool[id]`) is positional: `self.nodes[index.0]`. -/
structure Pool (T : Type _) where
  nodes : List (Node T)
deriving DecidableEq

namespace Pool

variable {T U : Type _}

/-- Number of nodes in the pool (`self.nodes.len()`). -/
def size (p : Pool T) : Nat := p.nodes.length

/-- `&self.nodes[id]`, made total with `Option` (`none` = index panic). -/
def node? (p : Pool T) (id : Nat) : Option (Node T) := p.nodes[id]?

/-- Positional in-place node update, mirroring `&mut self.nodes[id]`. -/
def updateNode (p : Pool T) (id : Nat) (f : Node T → Node T) : Pool T :=
  ⟨updateNth p.nodes id f⟩

/-- `Pool::neighborhood_of`: the adjacency set of `id` (`∅` on an
out-of-range id, which in Rust would be an index panic; every use in this
development is in range). -/
def neighborhoodOf (p : Pool T) (id : Nat) : Finset Nat :=
  ((p.node? id).map (·.adjacencies)).getD ∅

/-- `Pool::passages_of`: the link set of `id`. -/
def passagesOf (p : Pool T) (id : Nat) : Finset Nat :=
  ((p.node? id).map (·.links)).getD ∅

/-- `Pool::walls_of`: adjacency set minus link set. -/
def wallsOf (p : Pool T) (id : Nat) : Finset Nat :=
  p.neighborhoodOf id \ p.passagesOf id

/-- `Pool::is_linked`. -/
def isLinked (p : Pool T) (here there : Nat) : Bool :=
  there ∈ p.passagesOf here

/-- `Pool::unvisited_neighborhood_of`. -/
def unvisitedNeighborhoodOf (p : Pool T) (visited : Finset Nat) (id : Nat) :
    Finset Nat :=
  p.neighborhoodOf id \ visited

/-- `Pool::new_node`: appends a node whose id is the current length; the
payload constructor receives the fresh id.  Returns the updated pool and
the new id. -/
def newNode (p : Pool T) (construct : Nat → T) : Pool T × Nat :=
  let newId := p.nodes.length
  (⟨p.nodes ++ [⟨newId, ∅, ∅, construct newId⟩]⟩, newId)

/-- `Pool::make_adjacent`: inserts `there` into `here`'s adjacency set and,
when bidirectional, vice versa. -/
def makeAdjacent (p : Pool T) (here there : Nat) (bidi : Bool) : Pool T :=
  let p1 := p.updateNode here (fun n => { n with adjacencies := insert there n.adjacencies })
  if bidi then
    p1.updateNode there (fun n => { n with adjacencies := insert here n.adjacencies })
  else p1

/-- `Pool::link_cells` with its two `assert!`s made explicit: returns the
pool state reached together with a panic flag.  The first assert fires
before any link is inserted; the second (bidirectional) assert fires after
the `here → there` link was already inserted. -/
def linkCellsRaw (p : Pool T) (here there : Nat) (bidi : Bool) : Pool T × Bool :=
  if there ∈ p.neighborhoodOf here then
    let p1 := p.updateNode here (fun n => { n with links := insert there n.links })
    if bidi then
      if here ∈ p1.neighborhoodOf there then
        (p1.updateNode there (fun n => { n with links := insert here n.links }), false)
      else (p1, true)
    else (p1, false)
  else (p, true)

/-- `Pool::link_cells` as a partial function: `none` models the panic. -/
def linkCells (p : Pool T) (here there : Nat) (bidi : Bool) : Option (Pool T) :=
  let r := p.linkCellsRaw here there bidi
  if r.2 then none else some r.1

/-- `Pool::unlink_cells`. -/
def unlinkCells (p : Pool T) (here there : Nat) (bidi : Bool) : Pool T :=
  let p1 := p.updateNode here (fun n => { n with links := n.links.erase there })
  if bidi then
    p1.updateNode there (fun n => { n with links := n.links.erase here })
  else p1

/-- `Pool::map_nodes`: same ids, adjacency sets and link sets, payload
replaced by `f` applied to the original node. -/
def mapNodes (p : Pool T) (f : Node T → U) : Pool U :=
  ⟨p.nodes.map (fun n => ⟨n.id, n.links, n.adjacencies, f n⟩)⟩

/-- `Pool::get_arbitrary_node_id`: `self.nodes[0].id`; `none` models the
index panic on an empty pool. -/
def getArbitraryNodeId (p : Pool T) : Option Nat :=
  (p.nodes.head?).map (·.id)

/-- Well-formedness established by building a pool through `new_node` /
`make_adjacent` / `link_cells`: each node's `id` field equals its position,
and adjacency and link members are valid indices. -/
def WF (p : Pool T) : Prop :=
  (∀ i (h : i < p.nodes.length), (p.nodes.get ⟨i, h⟩).id = i) ∧
  (∀ n ∈ p.nodes, (∀ a ∈ n.adjacencies, a < p.nodes.length) ∧
    (∀ l ∈ n.links, l < p.nodes.length))

/-- One merging step of `is_adjacently_connected`'s union-find: an index
`j < size` joins the set `s` as soon as it shares a declared adjacency, in
either direction, with a member of `s` (the crate's `union(node.id,
neighbor)` merges along every declared adjacency). -/
def adjStep (p : Pool T) (s : Finset Nat) : Finset Nat :=
  s ∪ (Finset.range p.size).filter
    (fun j => ∃ i ∈ s, j ∈ p.neighborhoodOf i ∨ i ∈ p.neighborhoodOf j)

/-- `k`-fold iteration of `adjStep`. -/
def adjClosureN (p : Pool T) : Nat → Finset Nat → Finset Nat
  | 0, s => s
  | Nat.succ k, s => adjClosureN p k (p.adjStep s)

/-- `Pool::is_adjacently_connected` (src/pool.rs): builds a
`PartitionVec` of `nodes.len()` singletons, unions `node.id` with every
member of its adjacency set, and returns `amount_of_sets() == 1`.  The
external `partitions` crate is modelled semantically: the union-find ends
with exactly one set iff the vector is nonempty and every index lies in
the merged class of index `0`; that class is saturated after `size`
expansion steps.  In particular an empty pool yields `0` sets, not `1`. -/
def isAdjacentlyConnected (p : Pool T) : Bool :=
  decide (p.size ≠ 0) && decide (adjClosureN p p.size {0} = Finset.range p.size)

/-- The symmetrized adjacency (union-find) edge relation. -/
def AdjEdge (p : Pool T) (a b : Nat) : Prop :=
  b ∈ p.neighborhoodOf a ∨ a ∈ p.neighborhoodOf b

/-- Connectivity of two indices through declared adjacencies. -/
def AdjReach (p : Pool T) (i j : Nat) : Prop :=
  Relation.ReflTransGen (p.AdjEdge) i j

end Pool

/-! ## Distance engine (src/dijkstra.rs) -/

/-- `Distance` from src/dijkstra.rs. -/
inductive Distance where
  | finite (d : Nat)
  | infinite
deriving DecidableEq, Repr

namespace Distance

/-- `impl Add<usize> for Distance`. -/
def addNat : Distance → Nat → Distance
  | finite d, rhs => finite (d + rhs)
  | infinite, _ => infinite

/-- `Distance::as_finite`. -/
def asFinite : Distance → Option Nat
  | infinite => none
  | finite d => some d

end Distance

/-- `DijkstraPad`: a working pool whose payloads are the
partially-assigned distances. -/
structure DijkstraPad where
  pool : Pool (Option Distance)
  startNode : Nat

/-- `Distances`: the finished read-only snapshot. -/
structure Distances where
  pool : Pool Distance
  startNode : Nat

/-- The payload stored at index `id` of a dijkstra working pool (`none`
also for an out-of-range id, which in Rust would be an index panic; all
uses are in range). -/
def payloadD (p : Pool (Option Distance)) (id : Nat) : Option Distance :=
  ((p.node? id).map (·.payload)).getD none

/-- `DijkstraPad::new`: distance 0 at the start node, unknown elsewhere. -/
def DijkstraPad.new {T : Type _} (source : Pool T) (startNode : Nat) : DijkstraPad :=
  ⟨source.mapNodes (fun n => if n.id = startNode then some (.finite 0) else none),
   startNode⟩

/-- Body of the `for cell in &frontier` loop of `DijkstraPad::perform`:
read the cell's distance, collect its unassigned link-neighbors, assign
them `curr + 1` and add them to the next frontier.  Frontier cells are
always assigned, so the `.unwrap()` default is unreachable. -/
def dijkstraBody (st : Pool (Option Distance) × Finset Nat) (cell : Nat) :
    Pool (Option Distance) × Finset Nat :=
  let curr : Distance := (payloadD st.1 cell).getD (.finite 0)
  let neighbors := (st.1.passagesOf cell).filter (fun c => payloadD st.1 c = none)
  ((neighbors.sort (· ≤ ·)).foldl
      (fun p nb => p.updateNode nb (fun n => { n with payload := some (curr.addNat 1) }))
      st.1,
   st.2 ∪ neighbors)

/-- One iteration of the `while !frontier.is_empty()` loop: expand every
frontier cell (hash-set iteration modelled in ascending order) and replace
the frontier with the union of newly assigned nodes. -/
def dijkstraRound (s : Pool (Option Distance) × Finset Nat) :
    Pool (Option Distance) × Finset Nat :=
  (s.2.sort (· ≤ ·)).foldl dijkstraBody (s.1, ∅)

/-- `DijkstraPad::perform`.  The Rust loop always terminates; here it is
run with fuel `2 * size + 2`, which is proved sufficient
(`dijkstra_loop_exits`): every round either assigns at least one new node
or empties the frontier. -/
def DijkstraPad.perform (pad : DijkstraPad) : Distances :=
  let st := loopFuel (fun s => decide (s.2 ≠ ∅)) dijkstraRound
    (2 * pad.pool.size + 2) (pad.pool, ({pad.startNode} : Finset Nat))
  ⟨st.1.mapNodes (fun n => n.payload.getD .infinite), pad.startNode⟩

/-- The distance recorded for node `v` in a `Distances` snapshot. -/
def Distances.distAt (d : Distances) (v : Nat) : Distance :=
  ((d.pool.node? v).map (·.payload)).getD .infinite

/-- Nodes reachable from `s` through at most `k` links: the specification
of BFS layers ("examine every unknown neighbor reachable via a link"). -/
def Pool.linkBall {T : Type _} (p : Pool T) (s : Nat) : Nat → Finset Nat
  | 0 => {s}
  | Nat.succ k => (p.linkBall s k) ∪ (p.linkBall s k).biUnion (fun i => p.passagesOf i)

/-- The unweighted shortest-path distance from `s` to `v` over links:
the least `k` with `v ∈ linkBall s k` (`none` when unreachable; any
reachable node is reached within `size` steps). -/
def Pool.linkDist {T : Type _} (p : Pool T) (s v : Nat) : Option Nat :=
  (List.range (p.size + 1)).find? (fun k => decide (v ∈ p.linkBall s k))

/-- Reachability from `a` to `b` by following links. -/
def Pool.LinkReach {T : Type _} (p : Pool T) (a b : Nat) : Prop :=
  Relation.ReflTransGen (fun i j => j ∈ p.passagesOf i) a b

/-- The symmetrized (undirected) link relation. -/
def Pool.linkAdj {T : Type _} (p : Pool T) (i j : Nat) : Prop :=
  j ∈ p.passagesOf i ∨ i ∈ p.passagesOf j

/-- The undirected link edges, as normalized (`i < j`) index pairs. -/
def Pool.linkEdges {T : Type _} (p : Pool T) : Finset (Nat × Nat) :=
  (Finset.range p.size ×ˢ Finset.range p.size).filter
    (fun ij => ij.1 < ij.2 ∧ (ij.2 ∈ p.passagesOf ij.1 ∨ ij.1 ∈ p.passagesOf ij.2))

/-- Every node is reachable from every other node via links. -/
def Pool.LinkConnected {T : Type _} (p : Pool T) : Prop :=
  ∀ i, i < p.size → ∀ j, j < p.size → p.LinkReach i j

/-- The adjacency relation is symmetric (grids register adjacency with
`bidirectional = true`). -/
def Pool.AdjSym {T : Type _} (p : Pool T) : Prop :=
  ∀ i j, j ∈ p.neighborhoodOf i → i ∈ p.neighborhoodOf j

/-- No node is declared adjacent to itself (true of every grid builder). -/
def Pool.NoSelfAdj {T : Type _} (p : Pool T) : Prop :=
  ∀ i, i ∉ p.neighborhoodOf i

/-- A cycle in the undirected link graph: at least three pairwise distinct
nodes, consecutive ones linked, and the last linked back to the first. -/
def Pool.IsLinkCycle {T : Type _} (p : Pool T) : List Nat → Prop
  | [] => False
  | a :: rest =>
    3 ≤ (a :: rest).length ∧ (a :: rest).Nodup ∧
    List.Chain p.linkAdj a rest ∧
    p.linkAdj ((a :: rest).getLast (List.cons_ne_nil a rest)) a

/-- The undirected link graph has no cycle. -/
def Pool.LinkAcyclic {T : Type _} (p : Pool T) : Prop :=
  ∀ l, ¬ p.IsLinkCycle l

/-- Induction invariant shared by the four spanning-tree algorithms: the
links form a spanning tree of the node set `S` (no links touch nodes
outside `S`, links are symmetric, irreflexive and acyclic, all of `S` is
link-connected, and there are exactly `|S| - 1` undirected links). -/
def SpanningTreeOn {T : Type _} (p : Pool T) (S : Finset Nat) : Prop :=
  (∀ i, i ∉ S → p.passagesOf i = ∅) ∧
  (∀ i j, j ∈ p.passagesOf i → i ∈ p.passagesOf j) ∧
  (∀ i ∈ S, ∀ j ∈ S, p.LinkReach i j) ∧
  (p.linkEdges.card + 1 = S.card) ∧
  (∀ i ∈ S, i < p.size) ∧
  (∀ i, i ∉ p.passagesOf i) ∧
  p.LinkAcyclic

/-- `Pool::furthest_pair` (src/pool.rs): double BFS.  The outer `Option`
models the `nodes[0]` index panic of `get_arbitrary_node_id` on an empty
pool; the inner `Option` is the function's own return type, whose `None`
would arise from `max_by_key` on an empty node list (`?`).
`max_by_key` returns the last element attaining the maximum. -/
def Pool.furthestPair {T : Type _} (p : Pool T) : Option (Option (Nat × Nat)) :=
  match p.getArbitraryNodeId with
  | none => none
  | some arbitraryId =>
    let distancesFromArbitrary := (DijkstraPad.new p arbitraryId).perform
    some (do
      let f1 ← listMaxByKey distancesFromArbitrary.pool.nodes
        (fun n => (n.payload.asFinite).getD 0)
      let distancesFromFurthest := (DijkstraPad.new p f1.id).perform
      let f2 ← listMaxByKey distancesFromFurthest.pool.nodes
        (fun n => (n.payload.asFinite).getD 0)
      return (f1.id, f2.id))

/-! ## Loop-erased walker (src/grid/walker.rs) -/

/-- Result of `Walker::steps_on`. -/
inductive RepeatedDirection where
  | start
  | middle (i : Nat)
  | never
deriving DecidableEq, Repr

/-- `Walker` from src/grid/walker.rs: a start node plus the subsequent
path. -/
structure Walker where
  startNode : Nat
  path : List Nat
deriving DecidableEq, Repr

namespace Walker

/-- `Walker::new`. -/
def new (startNode : Nat) : Walker := ⟨startNode, []⟩

/-- `Walker::steps_on`: does the path (or the start) already step on
`node`?  Scans positions `0, 1, …` and reports the first hit. -/
def stepsOn (w : Walker) (node : Nat) : RepeatedDirection :=
  if w.startNode = node then .start
  else
    match w.path.findIdx? (fun x => x = node) with
    | some i => .middle i
    | none => .never

/-- `Walker::loop_erased_step`. -/
def loopErasedStep (w : Walker) (nextCell : Nat) : Walker :=
  match w.stepsOn nextCell with
  | .start => { w with path := [] }
  | .middle i => { w with path := w.path.take i }
  | .never => { w with path := w.path ++ [nextCell] }

/-- `Walker::total_path`: the start node followed by the path. -/
def totalPath (w : Walker) : List Nat := w.startNode :: w.path

/-- `Walker::final_node`: the last path element, or the start. -/
def finalNode (w : Walker) : Nat := w.path.getLast?.getD w.startNode

end Walker

/-! ## Pool-level generation algorithms (src/pool.rs, src/grid/mod.rs,
src/grid/walker.rs)

Each algorithm is a fuelled state machine over the pool; drawn random
values are an explicit stream with a cursor. -/

/-- Map the pool out of a finished run. -/
def RunResult.mapState {σ τ : Type _} (f : σ → τ) : RunResult σ → RunResult τ
  | .done s => .done (f s)
  | .fuelOut => .fuelOut
  | .panicked => .panicked

/-- Loop state of `Pool::aldous_broder`. -/
structure ABState (T : Type _) where
  pool : Pool T
  cell : Nat
  unvisitedCount : Nat
  k : Nat
deriving DecidableEq

/-- One iteration of `Pool::aldous_broder`'s walk: move to a uniformly
random adjacent node (`none` when the neighborhood is empty –
`gen_range(0..0)` panics) and link to it when it has no links yet. -/
def abStep {T : Type _} (draws : Nat → Nat) (st : ABState T) : Option (ABState T) :=
  let neighbors := (st.pool.neighborhoodOf st.cell).sort (· ≤ ·)
  if neighbors.length = 0 then none
  else
    let randomNeighbor := neighbors.getD (draws st.k % neighbors.length) 0
    if st.pool.passagesOf randomNeighbor = ∅ then
      match st.pool.linkCells st.cell randomNeighbor true with
      | none => none
      | some p' => some ⟨p', randomNeighbor, st.unvisitedCount - 1, st.k + 1⟩
    else some ⟨st.pool, randomNeighbor, st.unvisitedCount, st.k + 1⟩

/-- `Pool::aldous_broder`: random walk from a random start until the
unvisited count reaches zero.  The loop is not fuel-bounded in Rust; the
fuel argument exposes the possibility of a never-terminating outcome
sequence.  An empty pool panics (`get_random_node_id` samples an empty
slice, and `nodes.len() - 1` underflows). -/
def abRun {T : Type _} (p : Pool T) (draws : Nat → Nat) (fuel : Nat) :
    RunResult (Pool T) :=
  if p.size = 0 then .panicked
  else
    match p.nodes[draws 0 % p.size]? with
    | none => .panicked
    | some startNode =>
      (whileFuel (fun st => decide (0 < st.unvisitedCount)) (abStep draws) fuel
        ⟨p, startNode.id, p.size - 1, 1⟩).mapState (·.pool)

/-- `FrontierSearchResult` from src/pool.rs. -/
inductive FrontierSearchResult where
  | found (unvisited visited : Nat)
  | noFrontier
deriving DecidableEq, Repr

/-- `Pool::scan_frontier`: first unvisited node (in node order) having a
wall into the visited set, together with that wall. -/
def Pool.scanFrontier {T : Type _} (p : Pool T) (visited : Finset Nat) :
    FrontierSearchResult :=
  match p.nodes.findSome? (fun nd =>
    if nd.id ∈ visited then none
    else ((p.wallsOf nd.id).sort (· ≤ ·)).find? (fun w => w ∈ visited)
      |>.map (fun w => (nd.id, w))) with
  | some (u, v) => .found u v
  | none => .noFrontier

/-- Loop state of `Pool::hunt_and_kill`: `mode = some c` while the inner
random walk is at cell `c`, `mode = none` between walks (the hunt
phase). -/
structure HKState (T : Type _) where
  pool : Pool T
  visited : Finset Nat
  mode : Option Nat
  k : Nat

/-- Loop condition of the flattened `Pool::hunt_and_kill` state machine:
keep going while walking, or while the frontier scan still finds a node. -/
def hkCond {T : Type _} (st : HKState T) : Bool :=
  match st.mode with
  | some _ => true
  | none => decide (st.pool.scanFrontier st.visited ≠ .noFrontier)

/-- One step of `Pool::hunt_and_kill`, with the inner
`while !walls.is_empty()` walk flattened into the state machine: in hunt
mode, link the found frontier node to its visited wall and start walking
from it; in walk mode, either step to a uniformly random unvisited wall
neighbor or fall back to hunt mode when stuck. -/
def hkStep {T : Type _} (draws : Nat → Nat) (st : HKState T) : Option (HKState T) :=
  match st.mode with
  | none =>
    match st.pool.scanFrontier st.visited with
    | .noFrontier => none
    | .found currentCell visitedRoot =>
      match st.pool.linkCells currentCell visitedRoot true with
      | none => none
      | some p' => some ⟨p', insert currentCell st.visited, some currentCell, st.k⟩
  | some currentCell =>
    let walls := ((st.pool.wallsOf currentCell).sort (· ≤ ·)).filter
      (fun nb => nb ∉ st.visited)
    if walls.length = 0 then some ⟨st.pool, st.visited, none, st.k⟩
    else
      let nextCell := walls.getD (draws st.k % walls.length) 0
      match st.pool.linkCells currentCell nextCell true with
      | none => none
      | some p' => some ⟨p', insert nextCell st.visited, some nextCell, st.k + 1⟩

/-- `Pool::hunt_and_kill`: visit the first node, then alternate frontier
hunts and linking random walks.  On an empty pool it returns at once.
Fuel `2 * size + 2` is sufficient: every step either visits a new node or
switches walk → hunt mode. -/
def hkRun {T : Type _} (p : Pool T) (draws : Nat → Nat) : RunResult (Pool T) :=
  match p.nodes.head? with
  | none => .done p
  | some first =>
    (whileFuel hkCond (hkStep draws) (2 * p.size + 2)
      ⟨p, {first.id}, none, 0⟩).mapState (·.pool)

/-- Loop state of `FlatSquareGrid::recursive_backtracker` (its body uses
only `node_pool` operations, so it is modelled over the pool); the head of
`stack` is the top of the Rust `Vec` stack. -/
structure RBState (T : Type _) where
  pool : Pool T
  visited : Finset Nat
  stack : List Nat
  k : Nat

/-- One iteration of the recursive backtracker: look at the unvisited
neighborhood of the top of the stack; pop when empty, otherwise link to a
uniformly random member, push it and mark it visited. -/
def rbStep {T : Type _} (draws : Nat → Nat) (st : RBState T) : Option (RBState T) :=
  match st.stack with
  | [] => none
  | topOfStack :: _ =>
    let viableCells := (st.pool.unvisitedNeighborhoodOf st.visited topOfStack).sort (· ≤ ·)
    if viableCells.length = 0 then some ⟨st.pool, st.visited, st.stack.tail, st.k⟩
    else
      let nextCell := viableCells.getD (draws st.k % viableCells.length) 0
      match st.pool.linkCells topOfStack nextCell true with
      | none => none
      | some p' => some ⟨p', insert nextCell st.visited, nextCell :: st.stack, st.k + 1⟩

/-- `FlatSquareGrid::recursive_backtracker`: depth-first search with an
explicit stack seeded with `get_arbitrary_node_id` (panics on an empty
pool).  Fuel `3 * size + 3` is sufficient: each step pushes a newly
visited node or pops. -/
def rbRun {T : Type _} (p : Pool T) (draws : Nat → Nat) : RunResult (Pool T) :=
  match p.getArbitraryNodeId with
  | none => .panicked
  | some start =>
    (whileFuel (fun st => decide (st.stack ≠ [])) (rbStep draws) (3 * p.size + 3)
      ⟨p, {start}, [start], 0⟩).mapState (·.pool)

/-- `Walker::random_loop_erased_step`: choose a uniformly random
adjacency-neighbor of the final node (`none` models the explicit panic on
an empty neighborhood) and take a loop-erased step to it. -/
def walkerRandomStep {T : Type _} (p : Pool T) (draws : Nat → Nat) (k : Nat)
    (w : Walker) : Option Walker :=
  let nbrs := (p.neighborhoodOf w.finalNode).sort (· ≤ ·)
  if nbrs.length = 0 then none
  else some (w.loopErasedStep (nbrs.getD (draws k % nbrs.length) 0))

/-- `Walker::loop_erased_walk_into_haystack`: random loop-erased steps
until the final node lies in `targets`; fuelled, since an adversarial
outcome sequence can walk forever. -/
def walkUntilIn {T : Type _} (p : Pool T) (targets : Finset Nat) (draws : Nat → Nat)
    (fuel : Nat) (w : Walker) (k : Nat) : RunResult (Walker × Nat) :=
  whileFuel (fun s => decide (s.1.finalNode ∉ targets))
    (fun s => (walkerRandomStep p draws s.2 s.1).map (fun w' => (w', s.2 + 1)))
    fuel (w, k)

/-- `Walker::carve_path`: link every consecutive pair of the total path
(`none` models the `link_cells` panic on a non-adjacent pair). -/
def carveFold {T : Type _} : Pool T → List Nat → Option (Pool T)
  | p, a :: b :: rest =>
    match p.linkCells a b true with
    | none => none
    | some p' => carveFold p' (b :: rest)
  | p, _ => some p

/-- The neighbors of `i` along the consecutive pairs of a path list (the
set of links `carve_path` contributes at `i`). -/
def pathNeighbors : List Nat → Nat → Finset Nat
  | a :: b :: rest, i =>
    pathNeighbors (b :: rest) i ∪
    (if i = a then {b} else ∅) ∪ (if i = b then {a} else ∅)
  | _, _ => ∅

/-- A payload-free pool with prescribed link sets (used to state the
path-attachment argument for `carve_path` independently of insertion
order). -/
def mkPassPool (n : Nat) (f : Nat → Finset Nat) : Pool Unit :=
  ⟨(List.range n).map (fun i => ⟨i, f i, ∅, ()⟩)⟩

/-- Outer loop of `FlatSquareGrid::wilson` (its body uses only pool
operations): pop walk starts, loop-erased-walk each into the visited set,
carve the path and mark it visited. -/
def wilsonGo {T : Type _} (draws : Nat → Nat) (fuel : Nat) :
    List Nat → Pool T → Finset Nat → Nat → RunResult (Pool T)
  | [], p, _, _ => .done p
  | start :: rest, p, visitedSet, k =>
    match walkUntilIn p visitedSet draws fuel (Walker.new start) k with
    | .fuelOut => .fuelOut
    | .panicked => .panicked
    | .done (w, k') =>
      match carveFold p w.totalPath with
      | none => .panicked
      | some p' =>
        wilsonGo draws fuel rest p' (visitedSet ∪ w.totalPath.toFinset) k'

/-- `FlatSquareGrid::wilson`: the starts list is `iter_node_ids`
collected and popped from the end, so ids are processed in descending
order; the first popped id seeds the visited set. -/
def wilsonRun {T : Type _} (p : Pool T) (draws : Nat → Nat) (fuel : Nat) :
    RunResult (Pool T) :=
  match (List.range p.size).reverse with
  | [] => .done p
  | needle :: rest => wilsonGo draws fuel rest p {needle} 0

/-! ## Flat square grid (src/grid/mod.rs) -/

/-- `FlatSquareCell`. -/
structure FlatSquareCell where
  id : Nat
  row : Nat
  col : Nat
  north : Option Nat
  south : Option Nat
  east : Option Nat
  west : Option Nat
deriving DecidableEq, Repr

/-- `FlatSquareGrid`. -/
structure FlatSquareGrid where
  nodePool : Pool FlatSquareCell
  nodeGrid : List (List Nat)
  width : Nat
  height : Nat
deriving DecidableEq

namespace FlatSquareGrid

/-- `FlatSquareGrid::get_by_id` (`none` = index panic). -/
def getById (g : FlatSquareGrid) (id : Nat) : Option FlatSquareCell :=
  (g.nodePool.node? id).map (·.payload)

/-- `FlatSquareGrid::get_by_position` with its explicit bounds panic and
the `node_grid[row][col]` lookup. -/
def getByPosition (g : FlatSquareGrid) (row col : Nat) : Option FlatSquareCell :=
  if g.height ≤ row ∨ g.width ≤ col then none
  else
    match g.nodeGrid[row]? >>= (fun r => r[col]?) with
    | none => none
    | some id => g.getById id

/-- `FlatSquareGrid::link_cells_at`, including its swapped bounds asserts:
the code asserts `here.0 < width && there.0 < width` and
`here.1 < height && there.1 < height` although `here.0` is a row index
(it is passed to `get_by_position` as the row) and `here.1` a column
index, so on non-square grids in-range positions can fail the asserts.
`none` models the assert/bounds panics. -/
def linkCellsAt (g : FlatSquareGrid) (here there : Nat × Nat) :
    Option FlatSquareGrid :=
  if here.1 < g.width ∧ there.1 < g.width then
    if here.2 < g.height ∧ there.2 < g.height then
      match g.getByPosition here.1 here.2, g.getByPosition there.1 there.2 with
      | some cell1, some cell2 =>
        (g.nodePool.linkCells cell1.id cell2.id true).map
          (fun p => { g with nodePool := p })
      | _, _ => none
    else none
  else none

/-- One cell of `FlatSquareGrid::binary_tree`: collect the north and east
neighbors (in that order); with one candidate link to it, with two link to
the one picked by the coin.  `coins k` models the k-th ambient draw
`random::<f64>() < settings.get_probability(row, col)` — `binary_tree`
takes no random-source parameter and samples the thread-local generator —
with `true` selecting index 0 (north).  `none` models index/link panics. -/
def btCell (coins : Nat → Bool) (st : Pool FlatSquareCell × Nat) (cellId : Nat) :
    Option (Pool FlatSquareCell × Nat) :=
  match (st.1.node? cellId).map (·.payload) with
  | none => none
  | some cell =>
    let nebs := cell.north.toList ++ cell.east.toList
    match nebs with
    | [] => some st
    | [n0] => (st.1.linkCells cellId n0 true).map (fun p => (p, st.2))
    | n0 :: n1 :: _ =>
      (st.1.linkCells cellId (if coins st.2 then n0 else n1) true).map
        (fun p => (p, st.2 + 1))

/-- `FlatSquareGrid::binary_tree`: one pass over `iter_node_ids`. -/
def binaryTree (g : FlatSquareGrid) (coins : Nat → Bool) : Option FlatSquareGrid :=
  ((List.range g.nodePool.size).foldlM (btCell coins) (g.nodePool, 0)).map
    (fun st => { g with nodePool := st.1 })

/-- `FlatSquareGrid::take_out_of`'s `while rng.gen() && taken < max` loop:
every condition check draws one coin (`draws k % 2 = 1` models
`rng.gen::<bool>()` from the internally created `thread_rng`).  The
result carries the loop invariant `taken ≤ result` needed for the
termination of the hallway loop. -/
def takeOutOfGo (max : Nat) (draws : Nat → Nat) (taken k : Nat) :
    { r : Nat × Nat // taken ≤ r.1 } :=
  if h : draws k % 2 = 1 ∧ taken < max then
    let r := takeOutOfGo max draws (taken + 1) (k + 1)
    ⟨r.1, Nat.le_of_succ_le r.2⟩
  else ⟨(taken, k + 1), Nat.le_refl _⟩
termination_by max - taken
decreasing_by simp_wf; omega

/-- `FlatSquareGrid::take_out_of`: `assert_ne!(max, 0)` (`none`), then the
coin-flip loop starting from `taken = 1`. -/
def takeOutOf (max : Nat) (draws : Nat → Nat) (k : Nat) :
    Option { r : Nat × Nat // 1 ≤ r.1 } :=
  if max = 0 then none else some (takeOutOfGo max draws 1 k)

/-- The horizontal run of a sidewinder hallway:
`for dcol in 0..taken - 1 { link (row, hs+dcol) with (row, hs+dcol+1) }`. -/
def swLinkRun (g : FlatSquareGrid) (row hs taken : Nat) : Option FlatSquareGrid :=
  (List.range (taken - 1)).foldlM
    (fun g' dcol => g'.linkCellsAt (row, hs + dcol) (row, hs + dcol + 1)) g

/-- The `while hallway_start < width - 1` loop of
`FlatSquareGrid::sidewinder` for one row: group a run of `taken` cells,
link them horizontally, draw a uniformly random door index into the run
and link that cell to the previous row.  `w` is the grid width (immutable
throughout).  Returns the grid, the draw cursor and the final
`hallway_start`. -/
def swHallways (w : Nat) (draws : Nat → Nat) (row : Nat)
    (g : FlatSquareGrid) (hs k : Nat) : Option (FlatSquareGrid × Nat × Nat) :=
  if hlt : hs < w - 1 then
    match takeOutOf (w - hs) draws k with
    | none => none
    | some r =>
      let taken := r.1.1
      let k1 := r.1.2
      match swLinkRun g row hs taken with
      | none => none
      | some g1 =>
        let hallwayDoor := draws k1 % taken
        let afterDoor : Option FlatSquareGrid :=
          if row ≠ 0 then
            g1.linkCellsAt (row, hs + hallwayDoor) (row - 1, hs + hallwayDoor)
          else some g1
        match afterDoor with
        | none => none
        | some g2 =>
          have htaken : 1 ≤ taken := r.2
          swHallways w draws row g2 (hs + taken) (k1 + 1)
  else some (g, k, hs)
termination_by w - hs
decreasing_by simp_wf; omega

/-- `FlatSquareGrid::sidewinder`: it creates its own `thread_rng`
internally (no random source is passed in); `draws` models that ambient
stream.  Rows `1..height` are processed by `swHallways` (with a direct
door link when the final hallway start lands on the last column), then
row 0 is linked into one long hallway.  A zero `width` makes
`self.width - 1` underflow and the loop panic in `link_cells_at`
(`none`). -/
def sidewinder (g : FlatSquareGrid) (draws : Nat → Nat) : Option FlatSquareGrid :=
  if g.width = 0 then none
  else
    match (List.range' 1 (g.height - 1)).foldlM
      (fun (st : FlatSquareGrid × Nat) row =>
        match swHallways st.1.width draws row st.1 0 st.2 with
        | none => none
        | some (g', k', hsFinal) =>
          if hsFinal = g'.width - 1 then
            (g'.linkCellsAt (row, g'.width - 1) (row - 1, g'.width - 1)).map
              (fun g'' => (g'', k' + 1))
          else some (g', k')) (g, 0) with
    | none => none
    | some (g1, _) =>
      (List.range (g1.width - 1)).foldlM
        (fun g2 col => g2.linkCellsAt (0, col) (0, col + 1)) g1

/-- The shape invariant established by `FlatSquareGrid::new` and
`stitch` for a `width × height` grid: ids are assigned row-major, every
cell's payload records its position and the ids of its four neighbors,
`node_grid` is the row-major id table, and the adjacency set of each node
is exactly its set of grid neighbors (links are unconstrained: `new`
leaves them empty and generation only adds links). -/
def WF (g : FlatSquareGrid) : Prop :=
  g.nodePool.nodes.length = g.width * g.height ∧
  g.nodeGrid = (List.range g.height).map
    (fun r => (List.range g.width).map (fun c => r * g.width + c)) ∧
  (∀ i (h : i < g.nodePool.nodes.length),
    let nd := g.nodePool.nodes.get ⟨i, h⟩
    nd.id = i ∧
    nd.payload.id = i ∧
    nd.payload.row = i / g.width ∧
    nd.payload.col = i % g.width ∧
    nd.payload.north = (if i / g.width > 0 then some (i - g.width) else none) ∧
    nd.payload.south = (if i / g.width < g.height - 1 then some (i + g.width) else none) ∧
    nd.payload.west = (if i % g.width > 0 then some (i - 1) else none) ∧
    nd.payload.east = (if i % g.width < g.width - 1 then some (i + 1) else none) ∧
    nd.adjacencies =
      ((nd.payload.north.toList ++ nd.payload.south.toList ++
        nd.payload.east.toList ++ nd.payload.west.toList).toFinset))

end FlatSquareGrid

/-! ## Pool operation sequences (for the link ⊆ adjacency invariant) -/

/-- The mutating `Pool` operations a collaborator can invoke. -/
inductive PoolOp (T : Type _) where
  | newNode (construct : Nat → T)
  | makeAdjacent (a b : Nat) (bidi : Bool)
  | linkCells (a b : Nat) (bidi : Bool)
  | unlinkCells (a b : Nat) (bidi : Bool)

/-- Apply one operation; the flag records whether it panicked, and the
pool component is the state at return or at panic. -/
def PoolOp.apply {T : Type _} : PoolOp T → Pool T → Pool T × Bool
  | .newNode construct, p => ((p.newNode construct).1, false)
  | .makeAdjacent a b bidi, p => (p.makeAdjacent a b bidi, false)
  | .linkCells a b bidi, p => p.linkCellsRaw a b bidi
  | .unlinkCells a b bidi, p => (p.unlinkCells a b bidi, false)

/-- Apply a sequence of operations, stopping at the first panic. -/
def applyOps {T : Type _} : List (PoolOp T) → Pool T → Pool T × Bool
  | [], p => (p, false)
  | op :: ops, p =>
    let r := op.apply p
    if r.2 then (r.1, true) else applyOps ops r.1

/-- The invariant: each node's link set is a subset of its adjacency
set. -/
def LinksSubAdj {T : Type _} (p : Pool T) : Prop :=
  ∀ n ∈ p.nodes, n.links ⊆ n.adjacencies

/-! ## Masked grid and the maze byte codec (src/masked_grid.rs)

`MaskedGrid` owns a pool whose payloads are `(row, col)` coordinates and a
`cell_grid` map that is a bijection between node ids and masked
coordinates (ids are assigned row-major by `MaskedGrid::new`).  The
structure is therefore modelled directly in coordinate space: `mask` is
the set of in-grid coordinates the mask accepts, and `links` is the
pool's (directed) link relation transported along the bijection.  The
pool's adjacency relation is exactly grid-neighborhood within the mask
(established by `new`'s stitching and never mutated). -/

/-- `Direction` from src/grid/mod.rs. -/
inductive Direction where
  | north
  | south
  | east
  | west
deriving DecidableEq, Repr

/-- Two coordinates are grid neighbors (directly above/below/left/right). -/
def coordAdjacent (a b : Nat × Nat) : Prop :=
  (a.1 = b.1 ∧ (a.2 + 1 = b.2 ∨ b.2 + 1 = a.2)) ∨
  (a.2 = b.2 ∧ (a.1 + 1 = b.1 ∨ b.1 + 1 = a.1))

instance : DecidablePred (fun ab : (Nat × Nat) × (Nat × Nat) => coordAdjacent ab.1 ab.2) :=
  fun _ => by unfold coordAdjacent; infer_instance

instance (a b : Nat × Nat) : Decidable (coordAdjacent a b) := by
  unfold coordAdjacent; infer_instance

/-- One expansion step of the union-find `is_adjacently_connected` runs
over a masked pool: a cell joins `s` when it is grid-adjacent to a member
of `s`. -/
def maskClosureStep (cells s : Finset (Nat × Nat)) : Finset (Nat × Nat) :=
  s ∪ cells.filter (fun c => ∃ d ∈ s, coordAdjacent c d)

/-- Iterated `maskClosureStep`. -/
def maskClosureN (cells : Finset (Nat × Nat)) : Nat → Finset (Nat × Nat) → Finset (Nat × Nat)
  | 0, s => s
  | Nat.succ k, s => maskClosureN cells k (maskClosureStep cells s)

/-- `pool.is_adjacently_connected()` for the pool `MaskedGrid::new` builds
over `cells`: one union-find set remains iff the cell set is nonempty and
every cell reaches every other through grid adjacencies (the class of any
cell saturates within `card` steps).  Empty ⇒ `0 == 1` ⇒ `false`. -/
def maskConnectedB (cells : Finset (Nat × Nat)) : Bool :=
  decide (cells ≠ ∅) &&
  decide (∀ c ∈ cells, ∀ d ∈ cells, d ∈ maskClosureN cells cells.card {c})

/-- `MaskedGrid` in coordinate space (see the section comment). -/
structure MaskedGrid where
  width : Nat
  height : Nat
  mask : Finset (Nat × Nat)
  links : Finset ((Nat × Nat) × (Nat × Nat))
deriving DecidableEq

namespace MaskedGrid

/-- `MaskedGrid::new`: collect the in-grid coordinates accepted by the
mask closure, stitch grid adjacencies, and `assert!` connectivity —
`none` models that panic ("Given mask comprises of disjoint parts!").
Links start empty. -/
def new (width height : Nat) (maskF : Nat → Nat → Bool) : Option MaskedGrid :=
  let cells := (Finset.range height ×ˢ Finset.range width).filter
    (fun rc => maskF rc.1 rc.2)
  if maskConnectedB cells then some ⟨width, height, cells, ∅⟩ else none

/-- Adjacency of two cells in the grid's pool: both masked and grid
neighbors. -/
def AdjacentAt (g : MaskedGrid) (a b : Nat × Nat) : Prop :=
  a ∈ g.mask ∧ b ∈ g.mask ∧ coordAdjacent a b

instance (g : MaskedGrid) (a b : Nat × Nat) : Decidable (g.AdjacentAt a b) := by
  unfold AdjacentAt; infer_instance

/-- `pool.link_cells(cell_grid[a], cell_grid[b], true)` in coordinate
space; `none` models both the `get_id_at(..).unwrap()` panic on a
coordinate outside the mask and the non-adjacency assert. -/
def linkCellsCoord (g : MaskedGrid) (a b : Nat × Nat) : Option MaskedGrid :=
  if g.AdjacentAt a b then
    some { g with links := insert (b, a) (insert (a, b) g.links) }
  else none

/-- `MaskedGrid::is_linked_at`. -/
def IsLinkedAt (g : MaskedGrid) (rowHere colHere rowThere colThere : Nat) : Prop :=
  (rowHere, colHere) ∈ g.mask ∧ (rowThere, colThere) ∈ g.mask ∧
  ((rowHere, colHere), (rowThere, colThere)) ∈ g.links

instance (g : MaskedGrid) (r1 c1 r2 c2 : Nat) : Decidable (g.IsLinkedAt r1 c1 r2 c2) := by
  unfold IsLinkedAt; infer_instance

/-- `MaskedGrid::cell_to_byte`: the 4-bit mask `north|east|west|south`
(disjoint bits, hence a sum), `0` for an unmasked cell. -/
def cellToByte (g : MaskedGrid) (row col : Nat) : Nat :=
  if (row, col) ∈ g.mask then
    (if 0 < row ∧ g.IsLinkedAt row col (row - 1) col then 8 else 0) +
    (if col < g.width - 1 ∧ g.IsLinkedAt row col row (col + 1) then 4 else 0) +
    (if 0 < col ∧ g.IsLinkedAt row col row (col - 1) then 2 else 0) +
    (if row < g.height - 1 ∧ g.IsLinkedAt row col (row + 1) col then 1 else 0)
  else 0

end MaskedGrid

/-- The row-major traversal order of the encode and decode loops
(`for row in 0..height { for col in 0..width { … } }`). -/
def rowMajorCoords (w h : Nat) : List (Nat × Nat) :=
  (List.range h).flatMap (fun row => (List.range w).map (fun col => (row, col)))

/-- `(x as u32).to_be_bytes()`. -/
def be32 (x : Nat) : List Nat :=
  [x / 2 ^ 24 % 256, x / 2 ^ 16 % 256, x / 2 ^ 8 % 256, x % 256]

/-- `read_exact` of four bytes followed by `u32::from_be_bytes`; `none`
models the I/O error on a short read. -/
def parse32 : List Nat → Option (Nat × List Nat)
  | b0 :: b1 :: b2 :: b3 :: rest =>
    some (b0 * 2 ^ 24 + b1 * 2 ^ 16 + b2 * 2 ^ 8 + b3, rest)
  | _ => none

/-- `MaskedGrid::write_maze`: width, height, the `furthest_pair` start and
end coordinates (parameters here: `read_maze` discards those 16 bytes),
then one `cell_to_byte` per position in row-major order. -/
def MaskedGrid.writeMaze (g : MaskedGrid) (start finish : Nat × Nat) : List Nat :=
  be32 g.width ++ be32 g.height ++
  be32 start.1 ++ be32 start.2 ++ be32 finish.1 ++ be32 finish.2 ++
  (List.range g.height).flatMap
    (fun row => (List.range g.width).map (fun col => g.cellToByte row col))

/-- `NewsGridError` from src/masked_grid.rs. -/
inductive NewsGridError where
  | unrequitedConnection (linked unlinked : Nat × Nat) (direction : Direction)
  | connectedOutOfBounds (cell : Nat × Nat) (direction : Direction)
  | connectedOutOfMask (linked missing : Nat × Nat) (direction : Direction)
deriving DecidableEq, Repr

/-- `GridReadError` from src/masked_grid.rs (the `io::Error` payload is
irrelevant to the claims and dropped). -/
inductive GridReadError where
  | ioError
  | notEnoughBytes
  | tooManyBytes
  | invalidNewsGrid (e : NewsGridError)
deriving DecidableEq, Repr

/-- The decoded `news_grid`: an association list from coordinates to their
nonzero direction byte, in row-major insertion order. -/
abbrev NewsGrid := List ((Nat × Nat) × Nat)

/-- `news_grid.get(&coord)`. -/
def newsLookup (ng : NewsGrid) (c : Nat × Nat) : Option Nat :=
  (ng.find? (fun e => e.1 = c)).map (·.2)

/-- Bit 3 (`0b1000`, north) of a direction byte. -/
def northBit (b : Nat) : Bool := b / 8 % 2 = 1

/-- Bit 2 (`0b0100`, east). -/
def eastBit (b : Nat) : Bool := b / 4 % 2 = 1

/-- Bit 1 (`0b0010`, west). -/
def westBit (b : Nat) : Bool := b / 2 % 2 = 1

/-- Bit 0 (`0b0001`, south). -/
def southBit (b : Nat) : Bool := b % 2 = 1

/-- The four direction checks of `MaskedGrid::validate_news_grid` for one
entry, in source order (north, east, west, south); `none` = this entry is
fine. -/
def validateEntry (ng : NewsGrid) (e : (Nat × Nat) × Nat) : Option NewsGridError :=
  let row := e.1.1
  let col := e.1.2
  let b := e.2
  (if northBit b then
    if row = 0 then some (.connectedOutOfBounds (row, col) .north)
    else
      match newsLookup ng (row - 1, col) with
      | some northCell =>
        if ¬ southBit northCell then
          some (.unrequitedConnection (row, col) (row - 1, col) .north)
        else none
      | none => some (.connectedOutOfMask (row, col) (row - 1, col) .north)
  else none) <|>
  (if eastBit b then
    match newsLookup ng (row, col + 1) with
    | some eastCell =>
      if ¬ westBit eastCell then
        some (.unrequitedConnection (row, col) (row, col + 1) .east)
      else none
    | none => some (.connectedOutOfMask (row, col) (row, col + 1) .east)
  else none) <|>
  (if westBit b then
    if col = 0 then some (.connectedOutOfBounds (row, col) .west)
    else
      match newsLookup ng (row, col - 1) with
      | some westCell =>
        if ¬ eastBit westCell then
          some (.unrequitedConnection (row, col) (row, col - 1) .west)
        else none
      | none => some (.connectedOutOfMask (row, col) (row, col - 1) .west)
  else none) <|>
  (if southBit b then
    match newsLookup ng (row + 1, col) with
    | some southCell =>
      if ¬ northBit southCell then
        some (.unrequitedConnection (row, col) (row + 1, col) .south)
      else none
    | none => some (.connectedOutOfMask (row, col) (row + 1, col) .south)
  else none)

/-- `MaskedGrid::validate_news_grid`: the first failing check over the
entries (hash-map iteration modelled in insertion order; which error
surfaces is order-dependent in Rust, but whether some error surfaces is
not). -/
def validateNewsGrid (ng : NewsGrid) : Option NewsGridError :=
  ng.findSome? (validateEntry ng)

/-- The `for row / for col { node_bytes.next() }` decode loop: one byte
per position in row-major order (`NotEnoughBytes` when the stream runs
dry, `TooManyBytes` when bytes remain), zero bytes skipped. -/
def decodeBody (w h : Nat) (body : List Nat) : Except GridReadError NewsGrid :=
  if body.length < w * h then .error .notEnoughBytes
  else if w * h < body.length then .error .tooManyBytes
  else .ok (((rowMajorCoords w h).zip body).filterMap
    (fun pb => if pb.2 = 0 then none else some pb))

/-- The news grid `read_maze` decodes from a `write_maze` stream: one
entry per in-grid coordinate with a nonzero direction byte, in row-major
order. -/
def MaskedGrid.encodedNews (g : MaskedGrid) : NewsGrid :=
  (rowMajorCoords g.width g.height).filterMap
    (fun rc => if g.cellToByte rc.1 rc.2 = 0 then none
      else some (rc, g.cellToByte rc.1 rc.2))

/-- The directed link pairs one news-grid entry contributes during the
relink loop of `read_maze` (each set bit links bidirectionally). -/
def entryLinkPairs (e : (Nat × Nat) × Nat) : Finset ((Nat × Nat) × (Nat × Nat)) :=
  (if northBit e.2 then
    {(e.1, (e.1.1 - 1, e.1.2)), ((e.1.1 - 1, e.1.2), e.1)} else ∅) ∪
  (if eastBit e.2 then
    {(e.1, (e.1.1, e.1.2 + 1)), ((e.1.1, e.1.2 + 1), e.1)} else ∅) ∪
  (if westBit e.2 then
    {(e.1, (e.1.1, e.1.2 - 1)), ((e.1.1, e.1.2 - 1), e.1)} else ∅) ∪
  (if southBit e.2 then
    {(e.1, (e.1.1 + 1, e.1.2)), ((e.1.1 + 1, e.1.2), e.1)} else ∅)

/-- Success conditions for relinking one news-grid entry: every set bit
points at a grid-adjacent masked cell (and north/west do not underflow).
AdjacentAt depends only on the mask, so these conditions are stable under
link insertions. -/
def EntryOK (g : MaskedGrid) (e : (Nat × Nat) × Nat) : Prop :=
  (northBit e.2 = true → e.1.1 ≠ 0 ∧ g.AdjacentAt e.1 (e.1.1 - 1, e.1.2)) ∧
  (eastBit e.2 = true → g.AdjacentAt e.1 (e.1.1, e.1.2 + 1)) ∧
  (westBit e.2 = true → e.1.2 ≠ 0 ∧ g.AdjacentAt e.1 (e.1.1, e.1.2 - 1)) ∧
  (southBit e.2 = true → g.AdjacentAt e.1 (e.1.1 + 1, e.1.2))

/-- The relink loop body of `MaskedGrid::read_maze` for one news-grid
entry: `link_cells(get_id_at(row,col), get_id_at(row±1,col±1), true)` for
each set bit.  The `row - 1`/`col - 1` guards model the usize underflow
panic (unreachable after validation). -/
def applyEntryLinks (g : MaskedGrid) (e : (Nat × Nat) × Nat) : Option MaskedGrid :=
  (if northBit e.2 then
      if e.1.1 = 0 then none
      else g.linkCellsCoord (e.1.1, e.1.2) (e.1.1 - 1, e.1.2)
    else some g).bind fun g1 =>
  (if eastBit e.2 then g1.linkCellsCoord (e.1.1, e.1.2) (e.1.1, e.1.2 + 1)
    else some g1).bind fun g2 =>
  (if westBit e.2 then
      if e.1.2 = 0 then none
      else g2.linkCellsCoord (e.1.1, e.1.2) (e.1.1, e.1.2 - 1)
    else some g2).bind fun g3 =>
  if southBit e.2 then g3.linkCellsCoord (e.1.1, e.1.2) (e.1.1 + 1, e.1.2)
  else some g3

/-- The header reads of `MaskedGrid::read_maze`: width, height and the
four discarded start/end coordinates; returns width, height and the
remaining body bytes. -/
def readHeader (bytes : List Nat) : Option (Nat × Nat × List Nat) := do
  let (width, r1) ← parse32 bytes
  let (height, r2) ← parse32 r1
  let (_startRow, r3) ← parse32 r2
  let (_startCol, r4) ← parse32 r3
  let (_endRow, r5) ← parse32 r4
  let (_endCol, r6) ← parse32 r5
  return (width, height, r6)

/-- `MaskedGrid::read_maze`.  The outer `Option` is panic (`none`): after
a successful parse and validation the code calls `MaskedGrid::new`, whose
connectivity `assert!` panics on an empty or disconnected decoded mask;
the relink loop's `link_cells` panics are unreachable after validation. -/
def readMaze (bytes : List Nat) : Option (Except GridReadError MaskedGrid) :=
  match readHeader bytes with
  | none => some (.error .ioError)
  | some (width, height, body) =>
    match decodeBody width height body with
    | .error e => some (.error e)
    | .ok ng =>
      match validateNewsGrid ng with
      | some e => some (.error (.invalidNewsGrid e))
      | none =>
        let mask : Finset (Nat × Nat) := (ng.map (·.1)).toFinset
        match MaskedGrid.new width height (fun r c => decide ((r, c) ∈ mask)) with
        | none => none
        | some g0 =>
          match ng.foldlM applyEntryLinks g0 with
          | none => none
          | some g => some (.ok g)

/-! ## Concrete example structures used by several claims -/

/-- The `2 × 2` grid `FlatSquareGrid::new(2, 2)` builds: ids row-major,
payload fields and adjacencies stitched to the four grid neighbors, no
links. -/
def exampleGrid22 : FlatSquareGrid :=
  ⟨⟨[⟨0, ∅, {1, 2}, ⟨0, 0, 0, none, some 2, some 1, none⟩⟩,
     ⟨1, ∅, {0, 3}, ⟨1, 0, 1, none, some 3, none, some 0⟩⟩,
     ⟨2, ∅, {0, 3}, ⟨2, 1, 0, some 0, none, some 3, none⟩⟩,
     ⟨3, ∅, {1, 2}, ⟨3, 1, 1, some 1, none, none, some 2⟩⟩]⟩,
   [[0, 1], [2, 3]], 2, 2⟩

/-- The `1 × 2` grid (`width = 1`, `height = 2`) `FlatSquareGrid::new(1, 2)`
builds. -/
def exampleGrid12 : FlatSquareGrid :=
  ⟨⟨[⟨0, ∅, {1}, ⟨0, 0, 0, none, some 1, none, none⟩⟩,
     ⟨1, ∅, {0}, ⟨1, 1, 0, some 0, none, none, none⟩⟩]⟩,
   [[0], [1]], 1, 2⟩

/-- A three-node path pool (`0 – 1 – 2` adjacencies, no links). -/
def examplePoolPath3 : Pool Unit :=
  ⟨[⟨0, ∅, {1}, ()⟩, ⟨1, ∅, {0, 2}, ()⟩, ⟨2, ∅, {1}, ()⟩]⟩

/-- A two-node pool with a mutual adjacency and no links. -/
def examplePool2 : Pool Unit :=
  ⟨[⟨0, ∅, {1}, ()⟩, ⟨1, ∅, {0}, ()⟩]⟩

/-! # Lemmas -/

section BasicLemmas

variable {T U : Type _}

theorem updateNth_length (l : List T) (i : Nat) (f : T → T) :
    (updateNth l i f).length = l.length := by
  induction l generalizing i with
  | nil => rfl
  | cons a l ih => cases i <;> simp [updateNth, ih]

theorem updateNth_getElem? (l : List T) (i j : Nat) (f : T → T) :
    (updateNth l i f)[j]? = if j = i then (l[j]?).map f else l[j]? := by
  induction l generalizing i j with
  | nil => simp [updateNth]
  | cons a l ih =>
    cases i with
    | zero => cases j <;> simp [updateNth]
    | succ i => cases j <;> simp [updateNth, ih]

theorem mem_updateNth {l : List T} {i : Nat} {f : T → T} {x : T}
    (hx : x ∈ updateNth l i f) : x ∈ l ∨ ∃ h : i < l.length, x = f (l.get ⟨i, h⟩) := by
  induction l generalizing i with
  | nil => simp [updateNth] at hx
  | cons a l ih =>
    cases i with
    | zero =>
      simp only [updateNth] at hx
      rcases List.mem_cons.mp hx with h | h
      · exact Or.inr ⟨by simp, by simpa using h⟩
      · exact Or.inl (List.mem_cons_of_mem _ h)
    | succ i =>
      simp only [updateNth] at hx
      rcases List.mem_cons.mp hx with h | h
      · exact Or.inl (by simp [h])
      · rcases ih h with h' | ⟨hlen, heq⟩
        · exact Or.inl (List.mem_cons_of_mem _ h')
        · exact Or.inr ⟨by simpa using Nat.succ_lt_succ hlen, by simpa using heq⟩

namespace Pool

@[simp] theorem size_updateNode (p : Pool T) (i : Nat) (f : Node T → Node T) :
    (p.updateNode i f).size = p.size := by
  simp [updateNode, size, updateNth_length]

theorem node?_updateNode (p : Pool T) (i j : Nat) (f : Node T → Node T) :
    (p.updateNode i f).node? j = if j = i then (p.node? j).map f else p.node? j := by
  simp [updateNode, node?, updateNth_getElem?]

@[simp] theorem size_mapNodes (p : Pool T) (f : Node T → U) :
    (p.mapNodes f).size = p.size := by
  simp [mapNodes, size]

theorem node?_mapNodes (p : Pool T) (f : Node T → U) (j : Nat) :
    (p.mapNodes f).node? j =
      (p.node? j).map (fun n => ⟨n.id, n.links, n.adjacencies, f n⟩) := by
  simp [mapNodes, node?]

theorem node?_eq_some_of_lt {p : Pool T} {j : Nat} (h : j < p.size) :
    ∃ nd, p.node? j = some nd ∧ nd ∈ p.nodes := by
  rcases List.getElem?_eq_getElem (l := p.nodes) (n := j) h with heq
  exact ⟨p.nodes.get ⟨j, h⟩, heq, List.get_mem _ _ _⟩

theorem node?_eq_none_of_ge {p : Pool T} {j : Nat} (h : p.size ≤ j) :
    p.node? j = none :=
  List.getElem?_eq_none h

end Pool

end BasicLemmas

/-! # Claim C6: the loop-erased step -/

/-- C6: for every walker and node `next`, `loop_erased_step(next)` resets
the path to `[]` when `next` is the start node; truncates the path to
length `i` when `next` first occurs at 0-based position `i` of the path;
appends `next` otherwise; and stepping `S=0` through `[1, 2, 3, 2]`
leaves the stored path `[1]`. -/
theorem C6_loop_erased_step :
    (∀ w : Walker, (w.loopErasedStep w.startNode).path = []) ∧
    (∀ (w : Walker) (next i : Nat), w.startNode ≠ next →
      w.path.findIdx? (fun x => x = next) = some i →
      (w.loopErasedStep next).path = w.path.take i) ∧
    (∀ (w : Walker) (next : Nat), w.startNode ≠ next → next ∉ w.path →
      (w.loopErasedStep next).path = w.path ++ [next]) ∧
    ((((Walker.new 0).loopErasedStep 1).loopErasedStep 2).loopErasedStep
        3).loopErasedStep 2 = ⟨0, [1]⟩ := by
  refine ⟨?_, ?_, ?_, by decide⟩
  · intro w
    have hs : w.stepsOn w.startNode = .start := by
      unfold Walker.stepsOn
      rw [if_pos rfl]
    unfold Walker.loopErasedStep
    rw [hs]
  · intro w next i hne hidx
    have hs : w.stepsOn next = .middle i := by
      unfold Walker.stepsOn
      rw [if_neg hne, hidx]
    unfold Walker.loopErasedStep
    rw [hs]
  · intro w next hne hmem
    have hidx : w.path.findIdx? (fun x => x = next) = none := by
      rw [List.findIdx?_eq_none_iff]
      intro x hx
      exact decide_eq_false (fun hxe => hmem (hxe ▸ hx))
    have hs : w.stepsOn next = .never := by
      unfold Walker.stepsOn
      rw [if_neg hne, hidx]
    unfold Walker.loopErasedStep
    rw [hs]

/-- Witness for C6 at concrete inputs. -/
theorem C6_loop_erased_step_witness :
    ((Walker.mk 5 [7]).loopErasedStep 5).path = [] ∧
    ((Walker.mk 5 [7, 8, 9]).loopErasedStep 8).path = [7] ∧
    ((Walker.mk 5 [7, 8]).loopErasedStep 9).path = [7, 8, 9] :=
  ⟨C6_loop_erased_step.1 _,
   by rw [C6_loop_erased_step.2.1 (Walker.mk 5 [7, 8, 9]) 8 1
      (by decide) (by decide)]; rfl,
   by rw [C6_loop_erased_step.2.2.1 (Walker.mk 5 [7, 8]) 9
      (by decide) (by decide)]; rfl⟩

/-! # Claim C8: the link ⊆ adjacency invariant -/

section C8Lemmas

variable {T : Type _}

theorem Pool.mem_neighborhoodOf_iff {p : Pool T} {a b : Nat} :
    b ∈ p.neighborhoodOf a ↔ ∃ nd, p.node? a = some nd ∧ b ∈ nd.adjacencies := by
  unfold Pool.neighborhoodOf
  cases h : p.node? a <;> simp [h]

theorem Pool.mem_passagesOf_iff {p : Pool T} {a b : Nat} :
    b ∈ p.passagesOf a ↔ ∃ nd, p.node? a = some nd ∧ b ∈ nd.links := by
  unfold Pool.passagesOf
  cases h : p.node? a <;> simp [h]

theorem Pool.passagesOf_eq_of_node? {p : Pool T} {a : Nat} {nd : Node T}
    (h : p.node? a = some nd) : p.passagesOf a = nd.links := by
  simp [Pool.passagesOf, h]

theorem Pool.neighborhoodOf_eq_of_node? {p : Pool T} {a : Nat} {nd : Node T}
    (h : p.node? a = some nd) : p.neighborhoodOf a = nd.adjacencies := by
  simp [Pool.neighborhoodOf, h]

theorem linksSubAdj_insertLink {p : Pool T} {a b : Nat} (h : LinksSubAdj p)
    (hb : b ∈ p.neighborhoodOf a) :
    LinksSubAdj (p.updateNode a (fun n => { n with links := insert b n.links })) := by
  rcases Pool.mem_neighborhoodOf_iff.mp hb with ⟨nd, hnd, hbadj⟩
  intro x hx
  rcases mem_updateNth hx with hmem | ⟨hlt, heq⟩
  · exact h x hmem
  · have hnd' : nd = p.nodes.get ⟨a, hlt⟩ := by
      have : p.nodes[a]? = some (p.nodes.get ⟨a, hlt⟩) := List.getElem?_eq_getElem hlt
      rw [Pool.node?] at hnd
      rw [this] at hnd
      exact (Option.some.injEq _ _ ▸ hnd).symm
    subst heq
    intro y hy
    simp only [Finset.mem_insert] at hy
    rcases hy with rfl | hy
    · exact hnd' ▸ hbadj
    · exact h _ (List.getElem_mem _) hy

theorem linksSubAdj_insertAdj {p : Pool T} {a b : Nat} (h : LinksSubAdj p) :
    LinksSubAdj (p.updateNode a (fun n => { n with adjacencies := insert b n.adjacencies })) := by
  intro x hx
  rcases mem_updateNth hx with hmem | ⟨hlt, heq⟩
  · exact h x hmem
  · subst heq
    intro y hy
    exact Finset.mem_insert_of_mem (h _ (List.getElem_mem _) hy)

theorem linksSubAdj_eraseLink {p : Pool T} {a b : Nat} (h : LinksSubAdj p) :
    LinksSubAdj (p.updateNode a (fun n => { n with links := n.links.erase b })) := by
  intro x hx
  rcases mem_updateNth hx with hmem | ⟨hlt, heq⟩
  · exact h x hmem
  · subst heq
    intro y hy
    exact h _ (List.getElem_mem _) (Finset.mem_of_mem_erase hy)

theorem linksSubAdj_linkCellsRaw (p : Pool T) (a b : Nat) (bidi : Bool)
    (h : LinksSubAdj p) : LinksSubAdj (p.linkCellsRaw a b bidi).1 := by
  unfold Pool.linkCellsRaw
  by_cases hb : b ∈ p.neighborhoodOf a
  · rw [if_pos hb]
    have h1 := linksSubAdj_insertLink h hb
    cases bidi with
    | false => simpa using h1
    | true =>
      by_cases ha : a ∈ (p.updateNode a
          (fun n => { n with links := insert b n.links })).neighborhoodOf b
      · simpa [ha] using linksSubAdj_insertLink h1 ha
      · simpa [ha] using h1
  · rw [if_neg hb]
    exact h

theorem linksSubAdj_apply (op : PoolOp T) (p : Pool T) (h : LinksSubAdj p) :
    LinksSubAdj (op.apply p).1 := by
  cases op with
  | newNode construct =>
    intro x hx
    simp only [PoolOp.apply, Pool.newNode, List.mem_append] at hx
    rcases hx with hx | hx
    · exact h x hx
    · simp only [List.mem_singleton] at hx
      subst hx
      intro y hy
      simp at hy
  | makeAdjacent a b bidi =>
    simp only [PoolOp.apply, Pool.makeAdjacent]
    cases bidi with
    | false => simpa using linksSubAdj_insertAdj h
    | true => simpa using linksSubAdj_insertAdj (linksSubAdj_insertAdj h)
  | linkCells a b bidi => exact linksSubAdj_linkCellsRaw p a b bidi h
  | unlinkCells a b bidi =>
    simp only [PoolOp.apply, Pool.unlinkCells]
    cases bidi with
    | false => simpa using linksSubAdj_eraseLink h
    | true => simpa using linksSubAdj_eraseLink (linksSubAdj_eraseLink h)

end C8Lemmas

/-- C8: every sequence of pool operations preserves the invariant that
each node's link set is a subset of its adjacency set (the sequence stops
at the first panic, and the state at panic also satisfies the invariant);
and `link_cells(a, b, _)` panics without having added any link whenever
`b` is not in `a`'s adjacency set. -/
theorem C8_links_subset_adjacencies {T : Type _} :
    (∀ (ops : List (PoolOp T)) (p : Pool T), LinksSubAdj p →
      LinksSubAdj (applyOps ops p).1) ∧
    (∀ (p : Pool T) (a b : Nat) (bidi : Bool), b ∉ p.neighborhoodOf a →
      p.linkCellsRaw a b bidi = (p, true)) := by
  constructor
  · intro ops
    induction ops with
    | nil => intro p h; exact h
    | cons op ops ih =>
      intro p h
      simp only [applyOps]
      by_cases hpanic : (op.apply p).2
      · simpa [hpanic] using linksSubAdj_apply op p h
      · simpa [hpanic] using ih _ (linksSubAdj_apply op p h)
  · intro p a b bidi hb
    unfold Pool.linkCellsRaw
    rw [if_neg hb]

/-- Witness for C8 at a concrete operation sequence and pool. -/
theorem C8_links_subset_adjacencies_witness :
    LinksSubAdj (applyOps
      [PoolOp.makeAdjacent 0 1 true, PoolOp.linkCells 0 1 true,
       PoolOp.linkCells 0 2 true]
      (Pool.mk [⟨0, ∅, ∅, ()⟩, ⟨1, ∅, ∅, ()⟩])).1 ∧
    (Pool.mk [⟨0, ∅, ∅, ()⟩, ⟨1, ∅, ∅, ()⟩]).linkCellsRaw 0 1 true
      = (Pool.mk [⟨0, ∅, ∅, ()⟩, ⟨1, ∅, ∅, ()⟩], true) :=
  ⟨C8_links_subset_adjacencies.1 _ _ (by intro n hn y hy; fin_cases hn <;> simp_all),
   C8_links_subset_adjacencies.2 _ 0 1 true (by decide)⟩

/-! # Claim C9: `map_nodes` -/

/-- C9: `map_nodes(f)` returns a pool with the same node ids in the same
order, identical adjacency and link sets, payloads replaced by `f` of the
corresponding original node (the original pool is a value and `mapNodes`
is a pure function of it, so the original is unchanged). -/
theorem C9_map_nodes {T U : Type _} (p : Pool T) (f : Node T → U) :
    (p.mapNodes f).size = p.size ∧
    (∀ i, i < p.size →
      ∃ nd nd', p.node? i = some nd ∧ (p.mapNodes f).node? i = some nd' ∧
        nd'.id = nd.id ∧ nd'.adjacencies = nd.adjacencies ∧
        nd'.links = nd.links ∧ nd'.payload = f nd) := by
  refine ⟨p.size_mapNodes f, ?_⟩
  intro i hi
  rcases Pool.node?_eq_some_of_lt hi with ⟨nd, hnd, -⟩
  exact ⟨nd, _, hnd, by rw [Pool.node?_mapNodes, hnd]; rfl, rfl, rfl, rfl, rfl⟩

/-- Witness for C9 at a concrete pool and function. -/
theorem C9_map_nodes_witness :
    (Pool.mk [⟨0, {1}, {1}, 10⟩, ⟨1, {0}, {0}, 20⟩]).mapNodes
        (fun n => n.payload + 1) = ⟨[⟨0, {1}, {1}, 11⟩, ⟨1, {0}, {0}, 21⟩]⟩ ∧
    ((Pool.mk [⟨0, {1}, {1}, 10⟩, ⟨1, {0}, {0}, 20⟩]).mapNodes
        (fun n => n.payload + 1)).size = 2 := by
  have h := C9_map_nodes (Pool.mk [⟨0, {1}, {1}, 10⟩, ⟨1, {0}, {0}, 20⟩])
    (fun n => n.payload + 1)
  exact ⟨by decide, h.1⟩

/-! # Claim C4: `is_adjacently_connected` -/

section C4Lemmas

variable {T : Type _}

theorem Pool.subset_adjStep (p : Pool T) (s : Finset Nat) : s ⊆ p.adjStep s :=
  Finset.subset_union_left

theorem Pool.adjStep_subset_union (p : Pool T) (s : Finset Nat) :
    p.adjStep s ⊆ s ∪ Finset.range p.size := by
  unfold Pool.adjStep
  exact Finset.union_subset_union (le_refl s) (Finset.filter_subset _ _)

theorem Pool.adjStep_mono (p : Pool T) {s t : Finset Nat} (h : s ⊆ t) :
    p.adjStep s ⊆ p.adjStep t := by
  unfold Pool.adjStep
  intro j hj
  rcases Finset.mem_union.mp hj with hj | hj
  · exact Finset.mem_union_left _ (h hj)
  · refine Finset.mem_union_right _ ?_
    rcases Finset.mem_filter.mp hj with ⟨hjr, i, his, hedge⟩
    exact Finset.mem_filter.mpr ⟨hjr, i, h his, hedge⟩

theorem Pool.adjClosureN_mono (p : Pool T) (k : Nat) {s t : Finset Nat}
    (h : s ⊆ t) : adjClosureN p k s ⊆ adjClosureN p k t := by
  induction k generalizing s t with
  | zero => exact h
  | succ k ih => exact ih (p.adjStep_mono h)

theorem Pool.subset_adjClosureN (p : Pool T) (k : Nat) (s : Finset Nat) :
    s ⊆ adjClosureN p k s := by
  induction k generalizing s with
  | zero => exact le_refl s
  | succ k ih => exact (p.subset_adjStep s).trans (ih (p.adjStep s))

theorem Pool.adjClosureN_subset_union (p : Pool T) (k : Nat) (s : Finset Nat) :
    adjClosureN p k s ⊆ s ∪ Finset.range p.size := by
  induction k generalizing s with
  | zero => exact Finset.subset_union_left
  | succ k ih =>
    refine (ih (p.adjStep s)).trans ?_
    exact Finset.union_subset
      ((p.adjStep_subset_union s).trans (le_refl _)) Finset.subset_union_right

theorem Pool.adjStep_of_no_adjacencies (p : Pool T)
    (h : ∀ i, p.neighborhoodOf i = ∅) (s : Finset Nat) : p.adjStep s = s := by
  unfold Pool.adjStep
  refine Finset.union_eq_left.mpr ?_
  intro j hj
  rcases Finset.mem_filter.mp hj with ⟨-, i, -, hedge⟩
  rcases hedge with hedge | hedge <;> simp [h] at hedge

theorem Pool.adjClosureN_of_no_adjacencies (p : Pool T)
    (h : ∀ i, p.neighborhoodOf i = ∅) (k : Nat) (s : Finset Nat) :
    adjClosureN p k s = s := by
  induction k generalizing s with
  | zero => rfl
  | succ k ih => simp [adjClosureN, p.adjStep_of_no_adjacencies h, ih]

end C4Lemmas

/-- C4 counterexample: on the empty pool `is_adjacently_connected` is
`amount_of_sets() == 1` over an empty partition vector, i.e. `0 == 1`,
i.e. `false` — not `true` as the claim states for pools with 0 nodes. -/
theorem C4_counterexample :
    (Pool.mk ([] : List (Node Unit))).isAdjacentlyConnected = false := by
  decide

/-- `make_adjacent` leaves the node count unchanged. -/
theorem Pool.length_makeAdjacent {T : Type _} (p : Pool T) (a b : Nat) (bidi : Bool) :
    (p.makeAdjacent a b bidi).nodes.length = p.nodes.length := by
  unfold Pool.makeAdjacent
  cases bidi <;> simp [Pool.updateNode, updateNth_length]

/-- `make_adjacent(a, b, _)` records `b` in `a`'s adjacency set. -/
theorem Pool.node?_makeAdjacent_here {T : Type _} (p : Pool T) {a b : Nat}
    (bidi : Bool) (hab : a ≠ b) {nd : Node T} (hnd : p.node? a = some nd) :
    (p.makeAdjacent a b bidi).node? a =
      some { nd with adjacencies := insert b nd.adjacencies } := by
  unfold Pool.makeAdjacent
  cases bidi with
  | false => simp [Pool.node?_updateNode, hnd]
  | true => simp [Pool.node?_updateNode, hab, hnd]

/-- C4 (amended): `is_adjacently_connected` returns `false` for the empty
pool, `true` for every well-formed pool with exactly one node, `false`
for a pool of exactly two nodes with no adjacency declared, and `true`
for any well-formed two-node pool after `make_adjacent(a, b, _)` on its
two node ids. -/
theorem C4_is_adjacently_connected {T : Type _} :
    (∀ p : Pool T, p.nodes = [] → p.isAdjacentlyConnected = false) ∧
    (∀ p : Pool T, p.WF → p.nodes.length = 1 → p.isAdjacentlyConnected = true) ∧
    (∀ p : Pool T, p.nodes.length = 2 → (∀ n ∈ p.nodes, n.adjacencies = ∅) →
      p.isAdjacentlyConnected = false) ∧
    (∀ (p : Pool T) (a b : Nat) (bidi : Bool), p.WF → p.nodes.length = 2 →
      a < 2 → b < 2 → a ≠ b →
      (p.makeAdjacent a b bidi).isAdjacentlyConnected = true) := by
  refine ⟨?_, ?_, ?_, ?_⟩
  · intro p hnil
    have hsz : p.size = 0 := by simp [Pool.size, hnil]
    simp [Pool.isAdjacentlyConnected, hsz]
  · intro p _ hlen
    have hsz : p.size = 1 := hlen
    have hsub : p.adjClosureN 1 {0} ⊆ Finset.range 1 := by
      have hu := p.adjClosureN_subset_union 1 {0}
      rw [hsz] at hu
      refine hu.trans (Finset.union_subset ?_ (le_refl _))
      intro x hx
      rw [Finset.mem_singleton] at hx
      subst hx
      exact Finset.mem_range.mpr Nat.one_pos
    have hclosure : p.adjClosureN 1 {0} = Finset.range 1 := by
      refine Finset.Subset.antisymm hsub ?_
      intro x hx
      rw [Finset.mem_range, Nat.lt_one_iff] at hx
      subst hx
      exact p.subset_adjClosureN 1 {0} (Finset.mem_singleton_self 0)
    simp [Pool.isAdjacentlyConnected, hsz, hclosure]
  · intro p hlen hadj
    have hsz : p.size = 2 := hlen
    have hno : ∀ i, p.neighborhoodOf i = ∅ := by
      intro i
      unfold Pool.neighborhoodOf
      cases h : p.node? i with
      | none => rfl
      | some nd =>
        have hmem : nd ∈ p.nodes := by
          rcases List.getElem?_eq_some_iff.mp h with ⟨hlt, hget⟩
          exact hget ▸ List.getElem_mem _
        simp [hadj nd hmem]
    have hclosure : p.adjClosureN 2 {0} = {0} :=
      p.adjClosureN_of_no_adjacencies hno 2 {0}
    have hne : ({0} : Finset Nat) ≠ Finset.range 2 := by decide
    simp [Pool.isAdjacentlyConnected, hsz, hclosure, hne]
  · intro p a b bidi hwf hlen ha2 hb2 hab
    set p' := p.makeAdjacent a b bidi with hp'
    have hsz : p'.size = 2 := by
      show p'.nodes.length = 2
      rw [hp', p.length_makeAdjacent a b bidi, hlen]
    have hlt : a < p.size := by
      show a < p.nodes.length
      omega
    rcases Pool.node?_eq_some_of_lt hlt with ⟨nd, hnd, -⟩
    have hmem : b ∈ p'.neighborhoodOf a := by
      rw [Pool.neighborhoodOf_eq_of_node? (p.node?_makeAdjacent_here bidi hab hnd)]
      exact Finset.mem_insert_self b _
    have hedge : 1 ∈ p'.neighborhoodOf 0 ∨ 0 ∈ p'.neighborhoodOf 1 := by
      interval_cases a <;> interval_cases b <;> simp_all
    have h1 : (1 : Nat) ∈ p'.adjStep {0} := by
      unfold Pool.adjStep
      refine Finset.mem_union_right _ (Finset.mem_filter.mpr ?_)
      refine ⟨by rw [hsz]; exact Finset.mem_range.mpr Nat.one_lt_two, 0,
        Finset.mem_singleton_self 0, hedge⟩
    have hclosure : p'.adjClosureN 2 {0} = Finset.range 2 := by
      refine Finset.Subset.antisymm ?_ ?_
      · have hu := p'.adjClosureN_subset_union 2 {0}
        rw [hsz] at hu
        refine hu.trans (Finset.union_subset ?_ (le_refl _))
        intro x hx
        rw [Finset.mem_singleton] at hx
        subst hx
        exact Finset.mem_range.mpr Nat.two_pos
      · intro x hx
        rw [Finset.mem_range] at hx
        interval_cases x
        · exact p'.subset_adjClosureN 2 {0} (Finset.mem_singleton_self 0)
        · exact p'.subset_adjClosureN 1 _ h1
    simp [Pool.isAdjacentlyConnected, hsz, hclosure]

/-- Witness for C4 at concrete pools. -/
theorem C4_is_adjacently_connected_witness :
    (Pool.mk [⟨0, ∅, ∅, (0 : Nat)⟩]).isAdjacentlyConnected = true ∧
    (Pool.mk [⟨0, ∅, ∅, (0 : Nat)⟩, ⟨1, ∅, ∅, 1⟩]).isAdjacentlyConnected = false ∧
    ((Pool.mk [⟨0, ∅, ∅, (0 : Nat)⟩, ⟨1, ∅, ∅, 1⟩]).makeAdjacent 0 1 true).isAdjacentlyConnected
      = true := by
  refine ⟨?_, ?_, ?_⟩
  · exact C4_is_adjacently_connected.2.1 _
      ⟨by intro i h; simp only [List.length_cons, List.length_nil] at h;
          interval_cases i <;> rfl,
       by intro n hn; fin_cases hn <;> simp⟩
      (by rfl)
  · exact C4_is_adjacently_connected.2.2.1 _ (by rfl)
      (by intro n hn; fin_cases hn <;> rfl)
  · exact C4_is_adjacently_connected.2.2.2 _ 0 1 true
      ⟨by intro i h; simp only [List.length_cons, List.length_nil] at h;
          interval_cases i <;> rfl,
       by intro n hn; fin_cases hn <;> simp⟩
      (by rfl) (by decide) (by decide) (by decide)

/-! # Claim C10: `furthest_pair` -/

section C10Lemmas

variable {T : Type _} {σ : Type _}

theorem listMaxByKey_foldl_some (key : T → Nat) (l : List T) (m : T) :
    ∃ r, l.foldl (fun acc x =>
      match acc with
      | none => some x
      | some m => if key m ≤ key x then some x else some m) (some m) = some r := by
  induction l generalizing m with
  | nil => exact ⟨m, rfl⟩
  | cons y l ih =>
    simp only [List.foldl_cons]
    by_cases h : key m ≤ key y
    · simpa [h] using ih y
    · simpa [h] using ih m

theorem listMaxByKey_ne_nil (key : T → Nat) {l : List T} (h : l ≠ []) :
    ∃ r, listMaxByKey l key = some r := by
  cases l with
  | nil => exact absurd rfl h
  | cons x l =>
    unfold listMaxByKey
    simpa using listMaxByKey_foldl_some key l x

theorem loopFuel_inv {Inv : σ → Prop} (cond : σ → Bool) (step : σ → σ)
    (hstep : ∀ s, Inv s → Inv (step s)) :
    ∀ (fuel : Nat) (s : σ), Inv s → Inv (loopFuel cond step fuel s) := by
  intro fuel
  induction fuel with
  | zero => intro s h; exact h
  | succ n ih =>
    intro s h
    unfold loopFuel
    by_cases hc : cond s
    · simpa [hc] using ih (step s) (hstep s h)
    · simpa [hc] using h

theorem size_foldl_updateNode (g : Nat → Node T → Node T) (L : List Nat) (P : Pool T) :
    (L.foldl (fun p nb => p.updateNode nb (g nb)) P).size = P.size := by
  induction L generalizing P with
  | nil => rfl
  | cons x L ih => simpa using ih (P.updateNode x (g x))

theorem size_dijkstraBody (st : Pool (Option Distance) × Finset Nat) (cell : Nat) :
    (dijkstraBody st cell).1.size = st.1.size := by
  unfold dijkstraBody
  exact size_foldl_updateNode _ _ _

theorem size_foldl_dijkstraBody (L : List Nat)
    (st : Pool (Option Distance) × Finset Nat) :
    (L.foldl dijkstraBody st).1.size = st.1.size := by
  induction L generalizing st with
  | nil => rfl
  | cons x L ih => simpa [size_dijkstraBody] using ih (dijkstraBody st x)

theorem size_dijkstraRound (s : Pool (Option Distance) × Finset Nat) :
    (dijkstraRound s).1.size = s.1.size := by
  unfold dijkstraRound
  exact size_foldl_dijkstraBody _ _

theorem size_perform (pad : DijkstraPad) :
    pad.perform.pool.size = pad.pool.size := by
  unfold DijkstraPad.perform
  rw [Pool.size_mapNodes]
  exact @loopFuel_inv _ (fun s => s.1.size = pad.pool.size) _ _
    (fun s h => (size_dijkstraRound s).trans h) _
    (pad.pool, ({pad.startNode} : Finset Nat)) rfl

theorem size_dijkstraNew (p : Pool T) (s : Nat) :
    (DijkstraPad.new p s).pool.size = p.size := by
  unfold DijkstraPad.new
  exact p.size_mapNodes _

end C10Lemmas

/-- C10: `furthest_pair` returns `Some((x, y))` on every non-empty pool —
its `max_by_key` calls can never yield `None` there — and on the empty
pool it panics by indexing `nodes[0]` in `get_arbitrary_node_id` instead
of returning `None`. -/
theorem C10_furthest_pair {T : Type _} :
    (∀ p : Pool T, p.nodes ≠ [] → ∃ x y, p.furthestPair = some (some (x, y))) ∧
    (∀ p : Pool T, p.nodes = [] → p.furthestPair = none) := by
  constructor
  · intro p hne
    have hsz : p.size ≠ 0 := by
      simpa [Pool.size, List.length_eq_zero] using hne
    obtain ⟨hd, tl, hp⟩ : ∃ hd tl, p.nodes = hd :: tl := by
      cases hnodes : p.nodes with
      | nil => exact absurd hnodes hne
      | cons hd tl => exact ⟨hd, tl, rfl⟩
    have harb : p.getArbitraryNodeId = some hd.id := by
      simp [Pool.getArbitraryNodeId, hp]
    have hpoolne : ∀ startNode : Nat,
        ((DijkstraPad.new p startNode).perform).pool.nodes ≠ [] := by
      intro startNode h
      have h0 : ((DijkstraPad.new p startNode).perform).pool.size = 0 := by
        simp [Pool.size, h]
      rw [size_perform, size_dijkstraNew] at h0
      exact hsz h0
    obtain ⟨f1, hf1⟩ := listMaxByKey_ne_nil
      (fun n : Node Distance => (n.payload.asFinite).getD 0) (hpoolne hd.id)
    obtain ⟨f2, hf2⟩ := listMaxByKey_ne_nil
      (fun n : Node Distance => (n.payload.asFinite).getD 0) (hpoolne f1.id)
    refine ⟨f1.id, f2.id, ?_⟩
    unfold Pool.furthestPair
    rw [harb]
    simp [hf1, hf2]
  · intro p hnil
    unfold Pool.furthestPair
    simp [Pool.getArbitraryNodeId, hnil]

/-- Witness for C10 at concrete pools. -/
theorem C10_furthest_pair_witness :
    (∃ x y, (Pool.mk [⟨0, {1}, {1}, ()⟩, ⟨1, {0}, {0}, ()⟩]).furthestPair
      = some (some (x, y))) ∧
    (Pool.mk ([] : List (Node Unit))).furthestPair = none :=
  ⟨C10_furthest_pair.1 _ (by decide), C10_furthest_pair.2 _ rfl⟩

/-! # Claim C2: the distance engine -/

section C2Lemmas

variable {T : Type _}

theorem find?_range_eq_some {P : Nat → Bool} {m d : Nat} :
    (List.range m).find? P = some d ↔ d < m ∧ P d ∧ ∀ e < d, ¬ P e := by
  induction m generalizing d with
  | zero => simp
  | succ m ih =>
    rw [List.range_succ, List.find?_append]
    cases hfind : (List.range m).find? P with
    | some d' =>
      simp only [Option.or_some, Option.or]
      rcases ih.mp hfind with ⟨hdm, hPd, hmin⟩
      constructor
      · rintro h
        rcases Option.some.injEq _ _ ▸ h with rfl
        exact ⟨Nat.lt_succ_of_lt hdm, hPd, hmin⟩
      · rintro ⟨hdm', hPd', hmin'⟩
        congr 1
        rcases Nat.lt_trichotomy d d' with h | h | h
        · exact absurd hPd' (hmin _ h)
        · exact h.symm
        · exact absurd hPd (hmin' _ h)
    | none =>
      have hnone : ∀ e < m, ¬ P e := by
        intro e hem hPe
        rcases List.find?_isSome.mpr ⟨e, List.mem_range.mpr hem, hPe⟩ with h
        rw [hfind] at h
        exact Bool.noConfusion h
      simp only [Option.or]
      constructor
      · intro h
        rcases List.find?_cons_eq_some.mp h with h'
        by_cases hPm : P m
        · rcases h' with ⟨hPm', rfl⟩ | ⟨hnPm, h''⟩
          · exact ⟨Nat.lt_succ_self m, hPm, hnone⟩
          · simp at h''
        · rcases h' with ⟨hPm', rfl⟩ | ⟨hnPm, h''⟩
          · exact absurd hPm' hPm
          · simp at h''
      · rintro ⟨hdm, hPd, hmin⟩
        have hdm' : d = m := by
          rcases Nat.lt_succ_iff_lt_or_eq.mp hdm with h | h
          · exact absurd hPd (hnone d h)
          · exact h
        subst hdm'
        simp [List.find?_cons, hPd]

theorem find?_range_eq_none {P : Nat → Bool} {m : Nat} :
    (List.range m).find? P = none ↔ ∀ e < m, ¬ P e := by
  rw [List.find?_eq_none]
  constructor
  · intro h e hem; exact h e (List.mem_range.mpr hem)
  · intro h e hem; exact h e (List.mem_range.mp hem)

namespace Pool

theorem linkBall_zero (p : Pool T) (s : Nat) : p.linkBall s 0 = {s} := rfl

theorem linkBall_succ (p : Pool T) (s k : Nat) :
    p.linkBall s (k + 1) =
      (p.linkBall s k) ∪ (p.linkBall s k).biUnion (fun i => p.passagesOf i) := rfl

theorem linkBall_mono_succ (p : Pool T) (s k : Nat) :
    p.linkBall s k ⊆ p.linkBall s (k + 1) := by
  rw [linkBall_succ]
  exact Finset.subset_union_left

theorem linkBall_mono (p : Pool T) (s : Nat) {j k : Nat} (h : j ≤ k) :
    p.linkBall s j ⊆ p.linkBall s k := by
  induction h with
  | refl => exact Finset.Subset.refl _
  | step h ih => exact ih.trans (p.linkBall_mono_succ s _)

/-- `j < size` whenever `j` is a recorded link target of a well-formed
pool. -/
theorem links_lt_of_WF {p : Pool T} (hwf : p.WF) {i j : Nat}
    (h : j ∈ p.passagesOf i) : j < p.size := by
  rcases Pool.mem_passagesOf_iff.mp h with ⟨nd, hnd, hj⟩
  have : nd ∈ p.nodes := by
    rcases List.getElem?_eq_some_iff.mp hnd with ⟨hlt, hget⟩
    exact hget ▸ List.getElem_mem _
  exact (hwf.2 nd this).2 j hj

theorem linkBall_subset_range {p : Pool T} (hwf : p.WF) {s : Nat}
    (hs : s < p.size) (k : Nat) : p.linkBall s k ⊆ Finset.range p.size := by
  induction k with
  | zero =>
    intro x hx
    rw [linkBall_zero, Finset.mem_singleton] at hx
    exact hx ▸ Finset.mem_range.mpr hs
  | succ k ih =>
    rw [linkBall_succ]
    refine Finset.union_subset ih ?_
    intro x hx
    rcases Finset.mem_biUnion.mp hx with ⟨c, -, hxc⟩
    exact Finset.mem_range.mpr (links_lt_of_WF hwf hxc)

theorem linkBall_stab (p : Pool T) (s k : Nat)
    (h : p.linkBall s (k + 1) = p.linkBall s k) :
    ∀ m, k ≤ m → p.linkBall s m = p.linkBall s k := by
  intro m hm
  induction hm with
  | refl => rfl
  | step hle ih =>
    rw [linkBall_succ, ih]
    have := h
    rw [linkBall_succ] at this
    exact this

/-- Strict growth below the first stabilization point: if `v` enters the
ball only at time `d`, every earlier ball is strictly contained in its
successor. -/
theorem linkBall_strict_chain (p : Pool T) (s : Nat) {v d : Nat}
    (hv : v ∈ p.linkBall s d) (hmin : ∀ e, e < d → v ∉ p.linkBall s e) :
    ∀ e, e < d → p.linkBall s e ⊂ p.linkBall s (e + 1) := by
  intro e hed
  refine Finset.ssubset_iff_of_subset (p.linkBall_mono_succ s e) |>.mpr ?_
  by_contra hall
  push_neg at hall
  have heq : p.linkBall s (e + 1) = p.linkBall s e := by
    refine Finset.Subset.antisymm ?_ (p.linkBall_mono_succ s e)
    intro x hx
    by_contra hxe
    exact hxe (by
      rcases hall x hx with h
      exact h)
  have hstab := p.linkBall_stab s e heq d (Nat.le_of_lt hed)
  exact hmin e hed (hstab ▸ hv)

theorem card_linkBall_ge (p : Pool T) (s : Nat) {v d : Nat}
    (hv : v ∈ p.linkBall s d) (hmin : ∀ e, e < d → v ∉ p.linkBall s e) :
    d + 1 ≤ (p.linkBall s d).card := by
  have hchain := p.linkBall_strict_chain s hv hmin
  clear hv hmin
  induction d with
  | zero => simp [linkBall_zero]
  | succ d ih =>
    have hd : p.linkBall s d ⊂ p.linkBall s (d + 1) :=
      hchain d (Nat.lt_succ_self d)
    have hcard := Finset.card_lt_card hd
    have ihd := ih (fun e he => hchain e (Nat.lt_succ_of_lt he))
    omega

/-- The first entry time of `v` is at most `size - 1` (hence `linkDist`'s
search over `0 .. size` finds it): there are at most `size` strictly
growing balls. -/
theorem min_entry_le {p : Pool T} (hwf : p.WF) {s : Nat} (hs : s < p.size)
    {v d : Nat} (hv : v ∈ p.linkBall s d)
    (hmin : ∀ e, e < d → v ∉ p.linkBall s e) : d < p.size := by
  have h1 := p.card_linkBall_ge s hv hmin
  have h2 := Finset.card_le_card (linkBall_subset_range hwf hs d)
  rw [Finset.card_range] at h2
  omega

theorem linkDist_eq_some_iff {p : Pool T} {s v d : Nat} :
    p.linkDist s v = some d ↔
      d ≤ p.size ∧ v ∈ p.linkBall s d ∧ ∀ e, e < d → v ∉ p.linkBall s e := by
  unfold Pool.linkDist
  rw [find?_range_eq_some]
  constructor
  · rintro ⟨hd, hPd, hmin⟩
    exact ⟨Nat.lt_succ_iff.mp hd, of_decide_eq_true hPd,
      fun e he hve => hmin e he (decide_eq_true hve)⟩
  · rintro ⟨hd, hPd, hmin⟩
    exact ⟨Nat.lt_succ_of_le hd, decide_eq_true hPd,
      fun e he hPe => hmin e he (of_decide_eq_true hPe)⟩

theorem linkDist_eq_none_iff {p : Pool T} {s v : Nat} :
    p.linkDist s v = none ↔ ∀ e, e ≤ p.size → v ∉ p.linkBall s e := by
  unfold Pool.linkDist
  rw [find?_range_eq_none]
  constructor
  · intro h e he hve
    exact h e (Nat.lt_succ_of_le he) (decide_eq_true hve)
  · intro h e he hPe
    exact h e (Nat.lt_succ_iff.mp he) (of_decide_eq_true hPe)

/-- Any ball membership yields a minimal entry time. -/
theorem linkDist_of_mem_ball {p : Pool T} (hwf : p.WF) {s : Nat}
    (hs : s < p.size) {v m : Nat} (hv : v ∈ p.linkBall s m) :
    ∃ d, p.linkDist s v = some d ∧ d ≤ m := by
  have hex : ∃ k, v ∈ p.linkBall s k := ⟨m, hv⟩
  classical
  let d := Nat.find hex
  have hvd : v ∈ p.linkBall s d := Nat.find_spec hex
  have hmind : ∀ e, e < d → v ∉ p.linkBall s e := fun e he => Nat.find_min hex he
  have hdm : d ≤ m := Nat.find_min' hex hv
  refine ⟨d, linkDist_eq_some_iff.mpr ⟨?_, hvd, hmind⟩, hdm⟩
  exact Nat.le_of_lt (min_entry_le hwf hs hvd hmind)

theorem linkDist_isSome_iff_reach {p : Pool T} (hwf : p.WF) {s : Nat}
    (hs : s < p.size) (v : Nat) :
    (∃ d, p.linkDist s v = some d) ↔ p.LinkReach s v := by
  constructor
  · rintro ⟨d, hd⟩
    rcases linkDist_eq_some_iff.mp hd with ⟨-, hv, -⟩
    clear hd
    induction d generalizing v with
    | zero =>
      rw [linkBall_zero, Finset.mem_singleton] at hv
      exact hv ▸ Relation.ReflTransGen.refl
    | succ d ih =>
      rw [linkBall_succ] at hv
      rcases Finset.mem_union.mp hv with hv | hv
      · exact ih v hv
      · rcases Finset.mem_biUnion.mp hv with ⟨c, hc, hvc⟩
        exact Relation.ReflTransGen.tail (ih c hc) hvc
  · intro hreach
    induction hreach with
    | refl =>
      exact ⟨0, linkDist_eq_some_iff.mpr ⟨Nat.zero_le _,
        by rw [linkBall_zero]; exact Finset.mem_singleton_self s,
        fun e he => absurd he (Nat.not_lt_zero e)⟩⟩
    | @tail b c hab hbc ih =>
      rcases ih with ⟨d, hd⟩
      rcases linkDist_eq_some_iff.mp hd with ⟨-, hb, -⟩
      have hc : c ∈ p.linkBall s (d + 1) := by
        rw [linkBall_succ]
        exact Finset.mem_union_right _
          (Finset.mem_biUnion.mpr ⟨b, hb, hbc⟩)
      rcases linkDist_of_mem_ball hwf hs hc with ⟨d', hd', -⟩
      exact ⟨d', hd'⟩

end Pool

theorem payloadD_updateNode_payload (P : Pool (Option Distance)) (i : Nat)
    (v : Option Distance) (j : Nat) :
    payloadD (P.updateNode i (fun n => { n with payload := v })) j =
      if j = i ∧ j < P.size then v else payloadD P j := by
  unfold payloadD
  rw [Pool.node?_updateNode]
  by_cases hji : j = i
  · subst hji
    by_cases hlt : j < P.size
    · rcases Pool.node?_eq_some_of_lt hlt with ⟨nd, hnd, -⟩
      simp [hnd, hlt]
    · have hnone := Pool.node?_eq_none_of_ge (Nat.le_of_not_lt hlt)
      simp [hnone, hlt]
  · simp [hji]

theorem passagesOf_updateNode_payload (P : Pool (Option Distance)) (i : Nat)
    (v : Option Distance) (j : Nat) :
    (P.updateNode i (fun n => { n with payload := v })).passagesOf j =
      P.passagesOf j := by
  unfold Pool.passagesOf
  rw [Pool.node?_updateNode]
  by_cases hji : j = i
  · subst hji
    cases h : P.node? j <;> simp [h]
  · simp [hji]

theorem payloadD_writeList (d : Distance) :
    ∀ (L : List Nat) (P : Pool (Option Distance)) (j : Nat),
    payloadD (L.foldl (fun p nb =>
        p.updateNode nb (fun n => { n with payload := some d })) P) j =
      if j ∈ L ∧ j < P.size then some d else payloadD P j := by
  intro L
  induction L with
  | nil => intro P j; simp
  | cons x L ih =>
    intro P j
    simp only [List.foldl_cons]
    rw [ih]
    simp only [Pool.size_updateNode, payloadD_updateNode_payload]
    by_cases hjL : j ∈ L
    · by_cases hlt : j < P.size <;> simp [hjL, hlt]
    · by_cases hjx : j = x
      · subst hjx
        by_cases hlt : j < P.size <;> simp [hjL, hlt]
      · simp [hjL, hjx]

theorem passagesOf_writeList (d : Distance) :
    ∀ (L : List Nat) (P : Pool (Option Distance)) (j : Nat),
    (L.foldl (fun p nb =>
        p.updateNode nb (fun n => { n with payload := some d })) P).passagesOf j =
      P.passagesOf j := by
  intro L
  induction L with
  | nil => intro P j; rfl
  | cons x L ih =>
    intro P j
    simp only [List.foldl_cons]
    rw [ih, passagesOf_updateNode_payload]

theorem dijkstraBody_payload {st : Pool (Option Distance) × Finset Nat}
    {cell k : Nat} (hcell : payloadD st.1 cell = some (.finite k)) (j : Nat) :
    payloadD (dijkstraBody st cell).1 j =
      if j ∈ (st.1.passagesOf cell).filter (fun v => payloadD st.1 v = none) ∧
          j < st.1.size
      then some (.finite (k + 1)) else payloadD st.1 j := by
  unfold dijkstraBody
  simp only [hcell, Option.getD_some]
  rw [payloadD_writeList]
  simp [Finset.mem_sort, Distance.addNat]

theorem dijkstraBody_frontier (st : Pool (Option Distance) × Finset Nat)
    (cell : Nat) :
    (dijkstraBody st cell).2 =
      st.2 ∪ (st.1.passagesOf cell).filter (fun v => payloadD st.1 v = none) :=
  rfl

theorem dijkstraBody_passages (st : Pool (Option Distance) × Finset Nat)
    (cell j : Nat) :
    (dijkstraBody st cell).1.passagesOf j = st.1.passagesOf j := by
  unfold dijkstraBody
  exact passagesOf_writeList _ _ _ _

/-- Closed form of the `for cell in &frontier` fold: it assigns
`finite (k+1)` to exactly the unassigned link-neighbors of the cells of
`L`, and the new frontier collects exactly those nodes. -/
theorem roundFold_spec (p0 : Pool (Option Distance)) (k : Nat)
    (hLT : ∀ i j, j ∈ p0.passagesOf i → j < p0.size) :
    ∀ (L : List Nat) (P : Pool (Option Distance)) (NF : Finset Nat),
    (∀ j, P.passagesOf j = p0.passagesOf j) → P.size = p0.size →
    (∀ c ∈ L, payloadD P c = some (.finite k)) →
    (∀ j, payloadD ((L.foldl dijkstraBody (P, NF)).1) j =
       if (∃ c ∈ L, j ∈ p0.passagesOf c) ∧ payloadD P j = none
       then some (.finite (k + 1)) else payloadD P j)
    ∧ (L.foldl dijkstraBody (P, NF)).2 =
       NF ∪ (Finset.range p0.size).filter
         (fun j => (∃ c ∈ L, j ∈ p0.passagesOf c) ∧ payloadD P j = none)
    ∧ (∀ j, (L.foldl dijkstraBody (P, NF)).1.passagesOf j = p0.passagesOf j)
    ∧ (L.foldl dijkstraBody (P, NF)).1.size = p0.size := by
  intro L
  induction L with
  | nil =>
    intro P NF hpass hsize hfront
    refine ⟨by intro j; simp, ?_, hpass, hsize⟩
    have : (Finset.range p0.size).filter
        (fun j => (∃ c ∈ ([] : List Nat), j ∈ p0.passagesOf c) ∧
          payloadD P j = none) = ∅ := by
      refine Finset.filter_false_of_mem ?_
      rintro j - ⟨⟨c, hc, -⟩, -⟩
      simp at hc
    simp [this]
  | cons c L ih =>
    intro P NF hpass hsize hfront
    simp only [List.foldl_cons]
    have hcell : payloadD P c = some (.finite k) := hfront c (List.mem_cons_self c L)
    have hbody := fun j => @dijkstraBody_payload (P, NF) c k hcell j
    have hbodyf := dijkstraBody_frontier (P, NF) c
    have hbodyp := fun j => dijkstraBody_passages (P, NF) c j
    have hbodys : (dijkstraBody (P, NF) c).1.size = P.size := size_dijkstraBody _ _
    dsimp only at hbody hbodyf hbodyp
    set P1 := (dijkstraBody (P, NF) c).1 with hP1
    set F1 := (dijkstraBody (P, NF) c).2 with hF1
    have hstep : dijkstraBody (P, NF) c = (P1, F1) := rfl
    rw [hstep]
    have hpass1 : ∀ j, P1.passagesOf j = p0.passagesOf j := by
      intro j; rw [hbodyp j, hpass j]
    have hsize1 : P1.size = p0.size := by rw [hbodys, hsize]
    have hP1payload : ∀ j, payloadD P1 j =
        if j ∈ p0.passagesOf c ∧ payloadD P j = none
        then some (.finite (k + 1)) else payloadD P j := by
      intro j
      rw [hbody j]
      by_cases hmem : j ∈ p0.passagesOf c ∧ payloadD P j = none
      · have hlt : j < P.size := by
          rw [hsize]; exact hLT c j hmem.1
        have : j ∈ (P.passagesOf c).filter (fun v => payloadD P v = none) := by
          rw [hpass c]
          exact Finset.mem_filter.mpr ⟨hmem.1, by simpa using hmem.2⟩
        simp [this, hlt, hmem]
      · have : ¬ (j ∈ (P.passagesOf c).filter (fun v => payloadD P v = none) ∧
            j < P.size) := by
          rintro ⟨hin, -⟩
          rcases Finset.mem_filter.mp hin with ⟨hin1, hin2⟩
          exact hmem ⟨hpass c ▸ hin1, by simpa using hin2⟩
        simp only [this, if_false, if_neg hmem]
    have hfront1 : ∀ c' ∈ L, payloadD P1 c' = some (.finite k) := by
      intro c' hc'
      rw [hP1payload c']
      have h := hfront c' (List.mem_cons_of_mem c hc')
      rw [if_neg]
      · exact h
      · rintro ⟨-, hnone⟩
        rw [h] at hnone
        exact Option.noConfusion hnone
    rcases ih P1 F1 hpass1 hsize1 hfront1 with ⟨ihpay, ihfr, ihpass, ihsize⟩
    refine ⟨?_, ?_, ihpass, ihsize⟩
    · intro j
      by_cases hNb : j ∈ p0.passagesOf c ∧ payloadD P j = none
      · have hP1j : payloadD P1 j = some (.finite (k + 1)) := by
          rw [hP1payload j, if_pos hNb]
        have hLHS : payloadD (L.foldl dijkstraBody (P1, F1)).1 j =
            some (.finite (k + 1)) := by
          rw [ihpay j, if_neg, hP1j]
          rintro ⟨-, hc⟩
          rw [hP1j] at hc
          exact Option.noConfusion hc
        rw [hLHS, if_pos ⟨⟨c, List.mem_cons_self c L, hNb.1⟩, hNb.2⟩]
      · have hP1j : payloadD P1 j = payloadD P j := by
          rw [hP1payload j, if_neg hNb]
        by_cases hrest : (∃ c' ∈ L, j ∈ p0.passagesOf c') ∧ payloadD P j = none
        · have hLHS : payloadD (L.foldl dijkstraBody (P1, F1)).1 j =
              some (.finite (k + 1)) := by
            rw [ihpay j, if_pos ⟨hrest.1, by rw [hP1j]; exact hrest.2⟩]
          rcases hrest.1 with ⟨c', hc', hjc'⟩
          rw [hLHS,
            if_pos ⟨⟨c', List.mem_cons_of_mem c hc', hjc'⟩, hrest.2⟩]
        · have hLHS : payloadD (L.foldl dijkstraBody (P1, F1)).1 j =
              payloadD P j := by
            rw [ihpay j, if_neg, hP1j]
            rintro ⟨hex, hnone⟩
            rw [hP1j] at hnone
            exact hrest ⟨hex, hnone⟩
          rw [hLHS, if_neg]
          rintro ⟨⟨c', hc', hjc'⟩, hnone⟩
          rcases List.mem_cons.mp hc' with rfl | hc'
          · exact hNb ⟨hjc', hnone⟩
          · exact hrest ⟨⟨c', hc', hjc'⟩, hnone⟩
    · rw [ihfr, hbodyf]
      have hNbeq : (P.passagesOf c).filter (fun v => payloadD P v = none) =
          (Finset.range p0.size).filter
            (fun j => j ∈ p0.passagesOf c ∧ payloadD P j = none) := by
        ext j
        simp only [Finset.mem_filter, Finset.mem_range]
        constructor
        · rintro ⟨h1, h2⟩
          rw [hpass c] at h1
          exact ⟨hLT c j h1, h1, by simpa using h2⟩
        · rintro ⟨-, h1, h2⟩
          exact ⟨hpass c ▸ h1, by simpa using h2⟩
      rw [hNbeq, Finset.union_assoc]
      congr 1
      ext j
      simp only [Finset.mem_union, Finset.mem_filter, Finset.mem_range]
      constructor
      · rintro (⟨hlt, h1, h2⟩ | ⟨hlt, ⟨c', hc', hjc'⟩, h2⟩)
        · exact ⟨hlt, ⟨c, List.mem_cons_self c L, h1⟩, h2⟩
        · rw [hP1payload j] at h2
          by_cases hNb : j ∈ p0.passagesOf c ∧ payloadD P j = none
          · rw [if_pos hNb] at h2
            exact Option.noConfusion h2
          · rw [if_neg hNb] at h2
            exact ⟨hlt, ⟨c', List.mem_cons_of_mem c hc', hjc'⟩, h2⟩
      · rintro ⟨hlt, ⟨c', hc', hjc'⟩, h2⟩
        rcases List.mem_cons.mp hc' with rfl | hc'
        · exact Or.inl ⟨hlt, hjc', h2⟩
        · by_cases hNb : j ∈ p0.passagesOf c ∧ payloadD P j = none
          · exact Or.inl ⟨hlt, hNb.1, hNb.2⟩
          · refine Or.inr ⟨hlt, ⟨c', hc', hjc'⟩, ?_⟩
            rw [hP1payload j, if_neg hNb]
            exact h2

theorem Pool.passagesOf_mapNodes {T U : Type _} (p : Pool T) (f : Node T → U)
    (j : Nat) : (p.mapNodes f).passagesOf j = p.passagesOf j := by
  unfold Pool.passagesOf
  rw [Pool.node?_mapNodes]
  cases h : p.node? j <;> simp

theorem Pool.WF_mapNodes {T U : Type _} {p : Pool T} (hwf : p.WF)
    (f : Node T → U) : (p.mapNodes f).WF := by
  constructor
  · intro i h
    have hlen : (p.mapNodes f).nodes.length = p.nodes.length := by
      simp [Pool.mapNodes]
    rw [hlen] at h
    have : (p.mapNodes f).nodes.get ⟨i, by simpa [Pool.mapNodes] using h⟩ =
        ⟨(p.nodes.get ⟨i, h⟩).id, (p.nodes.get ⟨i, h⟩).links,
          (p.nodes.get ⟨i, h⟩).adjacencies, f (p.nodes.get ⟨i, h⟩)⟩ := by
      simp [Pool.mapNodes]
    rw [this]
    exact hwf.1 i h
  · intro n hn
    simp only [Pool.mapNodes, List.mem_map] at hn
    rcases hn with ⟨nd, hnd, rfl⟩
    have hlen : (p.mapNodes f).nodes.length = p.nodes.length := by
      simp [Pool.mapNodes]
    refine ⟨?_, ?_⟩
    · intro a ha
      have := (hwf.2 nd hnd).1 a ha
      simpa [Pool.mapNodes] using this
    · intro l hl
      have := (hwf.2 nd hnd).2 l hl
      simpa [Pool.mapNodes] using this

theorem Pool.linkBall_congr {T U : Type _} {q : Pool U} {p : Pool T}
    (hpass : ∀ j, q.passagesOf j = p.passagesOf j) (s : Nat) :
    ∀ k, q.linkBall s k = p.linkBall s k := by
  intro k
  induction k with
  | zero => rfl
  | succ k ih =>
    rw [Pool.linkBall_succ, Pool.linkBall_succ, ih]
    congr 1
    exact Finset.biUnion_congr rfl (fun c _ => hpass c)

theorem Pool.linkDist_congr {T U : Type _} {q : Pool U} {p : Pool T}
    (hpass : ∀ j, q.passagesOf j = p.passagesOf j) (hsize : q.size = p.size)
    (s v : Nat) : q.linkDist s v = p.linkDist s v := by
  unfold Pool.linkDist
  rw [hsize]
  congr 1
  funext k
  rw [Pool.linkBall_congr hpass]

theorem payloadD_new {T : Type _} {p : Pool T} (hwf : p.WF) (s j : Nat) :
    payloadD (DijkstraPad.new p s).pool j =
      if j = s ∧ j < p.size then some (.finite 0) else none := by
  unfold DijkstraPad.new payloadD
  rw [Pool.node?_mapNodes]
  by_cases hlt : j < p.size
  · rcases Pool.node?_eq_some_of_lt hlt with ⟨nd, hnd, -⟩
    have hid : nd.id = j := by
      rcases List.getElem?_eq_some_iff.mp hnd with ⟨hl, hget⟩
      rw [← hget]
      exact hwf.1 j hl
    by_cases hjs : j = s
    · subst hjs
      simp [hnd, hid, hlt]
    · simp [hnd, hid, hjs, hlt]
  · have hnone := Pool.node?_eq_none_of_ge (Nat.le_of_not_lt hlt)
    simp [hnone, hlt]

/-- One `while` iteration over a frontier set `F`. -/
theorem dijkstraRound_spec (p0 : Pool (Option Distance)) (k : Nat)
    (hLT : ∀ i j, j ∈ p0.passagesOf i → j < p0.size)
    (P : Pool (Option Distance)) (F : Finset Nat)
    (hpass : ∀ j, P.passagesOf j = p0.passagesOf j) (hsize : P.size = p0.size)
    (hfront : ∀ c ∈ F, payloadD P c = some (.finite k)) :
    (∀ j, payloadD (dijkstraRound (P, F)).1 j =
       if (∃ c ∈ F, j ∈ p0.passagesOf c) ∧ payloadD P j = none
       then some (.finite (k + 1)) else payloadD P j)
    ∧ (dijkstraRound (P, F)).2 =
       (Finset.range p0.size).filter
         (fun j => (∃ c ∈ F, j ∈ p0.passagesOf c) ∧ payloadD P j = none)
    ∧ (∀ j, (dijkstraRound (P, F)).1.passagesOf j = p0.passagesOf j)
    ∧ (dijkstraRound (P, F)).1.size = p0.size := by
  have hfold := roundFold_spec p0 k hLT (F.sort (· ≤ ·)) P ∅ hpass hsize
    (fun c hc => hfront c (Finset.mem_sort (α := Nat) (· ≤ ·) |>.mp hc))
  unfold dijkstraRound
  rcases hfold with ⟨hpay, hfr, hpass', hsize'⟩
  refine ⟨?_, ?_, hpass', hsize'⟩
  · intro j
    rw [hpay j]
    by_cases h : (∃ c ∈ F, j ∈ p0.passagesOf c) ∧ payloadD P j = none
    · rcases h.1 with ⟨c, hc, hjc⟩
      rw [if_pos ⟨⟨c, (Finset.mem_sort (α := Nat) (· ≤ ·)).mpr hc, hjc⟩, h.2⟩,
        if_pos h]
    · rw [if_neg, if_neg h]
      rintro ⟨⟨c, hc, hjc⟩, hnone⟩
      exact h ⟨⟨c, (Finset.mem_sort (α := Nat) (· ≤ ·)).mp hc, hjc⟩, hnone⟩
  · rw [hfr, Finset.empty_union]
    ext j
    simp only [Finset.mem_filter, Finset.mem_range]
    constructor
    · rintro ⟨hlt, ⟨c, hc, hjc⟩, hnone⟩
      exact ⟨hlt, ⟨c, (Finset.mem_sort (α := Nat) (· ≤ ·)).mp hc, hjc⟩, hnone⟩
    · rintro ⟨hlt, ⟨c, hc, hjc⟩, hnone⟩
      exact ⟨hlt, ⟨c, (Finset.mem_sort (α := Nat) (· ≤ ·)).mpr hc, hjc⟩, hnone⟩

/-- Exit lemma for a fuelled loop with a strictly decreasing measure. -/
theorem loopFuel_exit {σ : Type _} (cond : σ → Bool) (step : σ → σ)
    (Inv : σ → Prop) (m : σ → Nat)
    (hpres : ∀ s, Inv s → cond s = true → Inv (step s))
    (hdec : ∀ s, Inv s → cond s = true → m (step s) < m s) :
    ∀ (fuel : Nat) (s : σ), Inv s → m s < fuel →
      Inv (loopFuel cond step fuel s) ∧
        cond (loopFuel cond step fuel s) = false := by
  intro fuel
  induction fuel with
  | zero => intro s _ hm; exact absurd hm (Nat.not_lt_zero _)
  | succ n ih =>
    intro s hInv hm
    unfold loopFuel
    by_cases hc : cond s = true
    · rw [if_pos hc]
      refine ih (step s) (hpres s hInv hc) ?_
      have := hdec s hInv hc
      omega
    · rw [if_neg (by simpa using hc)]
      exact ⟨hInv, by simpa using hc⟩

/-- A nonempty distance layer has nonempty layers below it. -/
theorem layer_nonempty_below {T : Type _} {p0 : Pool T} (hwf : p0.WF) {s : Nat}
    (hs : s < p0.size) {v m : Nat} (hv : p0.linkDist s v = some m) :
    ∀ e, e ≤ m → ∃ w, p0.linkDist s w = some e := by
  rcases Pool.linkDist_eq_some_iff.mp hv with ⟨hm, hball, hmin⟩
  intro e he
  cases e with
  | zero =>
    exact ⟨s, Pool.linkDist_eq_some_iff.mpr ⟨Nat.zero_le _,
      by rw [Pool.linkBall_zero]; exact Finset.mem_singleton_self s,
      fun e' he' => absurd he' (Nat.not_lt_zero e')⟩⟩
  | succ e =>
    have hchain := p0.linkBall_strict_chain s hball hmin e (by omega)
    rcases Finset.exists_of_ssubset hchain with ⟨w, hw1, hw2⟩
    rcases Pool.linkDist_of_mem_ball hwf hs hw1 with ⟨d, hd, hdle⟩
    refine ⟨w, ?_⟩
    rcases Pool.linkDist_eq_some_iff.mp hd with ⟨-, hwball, -⟩
    have : d = e + 1 := by
      by_contra hne
      have hdlt : d ≤ e := by omega
      exact hw2 (p0.linkBall_mono s hdlt hwball)
    exact this ▸ hd

/-- The BFS round preserves the layered invariant. -/
theorem dijkstra_inv_step {p0 : Pool (Option Distance)} (hwf : p0.WF) {s : Nat}
    (hs : s < p0.size) (k : Nat) (P : Pool (Option Distance)) (F : Finset Nat)
    (hA : ∀ j d, p0.linkDist s j = some d →
      payloadD P j = if d ≤ k then some (.finite d) else none)
    (hB : ∀ j, p0.linkDist s j = none → payloadD P j = none)
    (hF : F = (Finset.range p0.size).filter (fun v => p0.linkDist s v = some k))
    (hpass : ∀ j, P.passagesOf j = p0.passagesOf j) (hsize : P.size = p0.size) :
    (∀ j d, p0.linkDist s j = some d →
      payloadD (dijkstraRound (P, F)).1 j =
        if d ≤ k + 1 then some (.finite d) else none) ∧
    (∀ j, p0.linkDist s j = none → payloadD (dijkstraRound (P, F)).1 j = none) ∧
    ((dijkstraRound (P, F)).2 = (Finset.range p0.size).filter
      (fun v => p0.linkDist s v = some (k + 1))) ∧
    (∀ j, (dijkstraRound (P, F)).1.passagesOf j = p0.passagesOf j) ∧
    (dijkstraRound (P, F)).1.size = p0.size := by
  have hLT : ∀ i j, j ∈ p0.passagesOf i → j < p0.size := fun i j h =>
    Pool.links_lt_of_WF hwf h
  have hfront : ∀ c ∈ F, payloadD P c = some (.finite k) := by
    intro c hc
    rw [hF] at hc
    rcases Finset.mem_filter.mp hc with ⟨-, hdist⟩
    rw [hA c k hdist, if_pos (le_refl k)]
  rcases dijkstraRound_spec p0 k hLT P F hpass hsize hfront with
    ⟨hpay, hfr, hpass', hsize'⟩
  have hcond : ∀ j, ((∃ c ∈ F, j ∈ p0.passagesOf c) ∧ payloadD P j = none) ↔
      p0.linkDist s j = some (k + 1) := by
    intro j
    constructor
    · rintro ⟨⟨c, hc, hjc⟩, hnone⟩
      rw [hF] at hc
      rcases Finset.mem_filter.mp hc with ⟨-, hcdist⟩
      rcases Pool.linkDist_eq_some_iff.mp hcdist with ⟨-, hcball, -⟩
      have hjball : j ∈ p0.linkBall s (k + 1) := by
        rw [Pool.linkBall_succ]
        exact Finset.mem_union_right _ (Finset.mem_biUnion.mpr ⟨c, hcball, hjc⟩)
      rcases Pool.linkDist_of_mem_ball hwf hs hjball with ⟨d, hd, hdle⟩
      have : ¬ d ≤ k := by
        intro hdk
        have := hA j d hd
        rw [if_pos hdk] at this
        rw [this] at hnone
        exact Option.noConfusion hnone
      have : d = k + 1 := by omega
      exact this ▸ hd
    · intro hj
      rcases Pool.linkDist_eq_some_iff.mp hj with ⟨-, hjball, hjmin⟩
      have hjnotk : j ∉ p0.linkBall s k := hjmin k (Nat.lt_succ_self k)
      rw [Pool.linkBall_succ] at hjball
      rcases Finset.mem_union.mp hjball with h | h
      · exact absurd h hjnotk
      · rcases Finset.mem_biUnion.mp h with ⟨c, hcball, hjc⟩
        rcases Pool.linkDist_of_mem_ball hwf hs hcball with ⟨d, hd, hdk⟩
        rcases Pool.linkDist_eq_some_iff.mp hd with ⟨-, hcball', -⟩
        have hdke : d = k := by
          by_contra hne
          have hdlt : d + 1 ≤ k := by omega
          have : j ∈ p0.linkBall s (d + 1) := by
            rw [Pool.linkBall_succ]
            exact Finset.mem_union_right _
              (Finset.mem_biUnion.mpr ⟨c, hcball', hjc⟩)
          exact hjnotk (p0.linkBall_mono s hdlt this)
        have hd' : p0.linkDist s c = some k := hdke ▸ hd
        have hcball2 : c ∈ p0.linkBall s k := hdke ▸ hcball'
        refine ⟨⟨c, ?_, hjc⟩, ?_⟩
        · rw [hF]
          exact Finset.mem_filter.mpr
            ⟨Pool.linkBall_subset_range hwf hs k hcball2, hd'⟩
        · rw [hA j (k + 1) hj, if_neg (by omega)]
  refine ⟨?_, ?_, ?_, hpass', hsize'⟩
  · intro j d hd
    rw [hpay j]
    by_cases hdk1 : d = k + 1
    · subst hdk1
      rw [if_pos ((hcond j).mpr hd), if_pos (le_refl _)]
    · have hne : ¬ ((∃ c ∈ F, j ∈ p0.passagesOf c) ∧ payloadD P j = none) := by
        intro hcnd
        have := (hcond j).mp hcnd
        rw [hd] at this
        exact hdk1 (Option.some_inj.mp this)
      rw [if_neg hne, hA j d hd]
      by_cases hdk : d ≤ k
      · rw [if_pos hdk, if_pos (by omega)]
      · rw [if_neg hdk, if_neg (by omega)]
  · intro j hj
    rw [hpay j]
    have hne : ¬ ((∃ c ∈ F, j ∈ p0.passagesOf c) ∧ payloadD P j = none) := by
      intro hcnd
      have := (hcond j).mp hcnd
      rw [hj] at this
      exact Option.noConfusion this
    rw [if_neg hne]
    exact hB j hj
  · rw [hfr]
    exact Finset.filter_congr (fun j _ => by
      constructor
      · intro h; exact (hcond j).mp h
      · intro h; exact (hcond j).mpr h)

theorem distAt_helper (P : Pool (Option Distance)) (s v : Nat) :
    (Distances.mk (P.mapNodes (fun n => n.payload.getD .infinite)) s).distAt v =
      (payloadD P v).getD .infinite := by
  unfold Distances.distAt payloadD
  rw [Pool.node?_mapNodes]
  cases h : P.node? v <;> simp

end C2Lemmas

/-- C2: `DijkstraPad::new(pool, s).perform()` records `Finite(0)` at `s`,
`Finite(d)` at every link-reachable node where `d` is its unweighted
shortest-path distance from `s` over links (the least `k` with the node in
the `k`-step link ball), and `Infinite` at every node unreachable through
links. -/
theorem C2_dijkstra {T : Type _} (p : Pool T) (s : Nat) (hwf : p.WF)
    (hs : s < p.size) :
    ((DijkstraPad.new p s).perform.distAt s = .finite 0) ∧
    (∀ v, v < p.size → p.LinkReach s v →
      ∃ d, p.linkDist s v = some d ∧
        (DijkstraPad.new p s).perform.distAt v = .finite d ∧
        v ∈ p.linkBall s d ∧ (∀ e, v ∈ p.linkBall s e → d ≤ e)) ∧
    (∀ v, v < p.size → ¬ p.LinkReach s v →
      (DijkstraPad.new p s).perform.distAt v = .infinite) := by
  have hwf0 : (DijkstraPad.new p s).pool.WF := Pool.WF_mapNodes hwf _
  have hpass0 : ∀ j, (DijkstraPad.new p s).pool.passagesOf j = p.passagesOf j :=
    fun j => p.passagesOf_mapNodes _ j
  have hsize0 : (DijkstraPad.new p s).pool.size = p.size := p.size_mapNodes _
  have hs0 : s < (DijkstraPad.new p s).pool.size := by rw [hsize0]; exact hs
  have hdist0 : ∀ v, (DijkstraPad.new p s).pool.linkDist s v = p.linkDist s v :=
    Pool.linkDist_congr hpass0 hsize0 s
  have hball0 : ∀ k, (DijkstraPad.new p s).pool.linkBall s k = p.linkBall s k :=
    Pool.linkBall_congr hpass0 s
  have hdistS : (DijkstraPad.new p s).pool.linkDist s s = some 0 :=
    Pool.linkDist_eq_some_iff.mpr ⟨Nat.zero_le _,
      by rw [Pool.linkBall_zero]; exact Finset.mem_singleton_self s,
      fun e he => absurd he (Nat.not_lt_zero e)⟩
  -- the loop invariant and the exit argument
  have hmain := loopFuel_exit (σ := Pool (Option Distance) × Finset Nat)
    (fun st => decide (st.2 ≠ ∅)) dijkstraRound
    (fun st => ∃ k,
      (∀ j d, (DijkstraPad.new p s).pool.linkDist s j = some d →
        payloadD st.1 j = if d ≤ k then some (.finite d) else none) ∧
      (∀ j, (DijkstraPad.new p s).pool.linkDist s j = none →
        payloadD st.1 j = none) ∧
      st.2 = (Finset.range (DijkstraPad.new p s).pool.size).filter
        (fun v => (DijkstraPad.new p s).pool.linkDist s v = some k) ∧
      (∀ j, st.1.passagesOf j = (DijkstraPad.new p s).pool.passagesOf j) ∧
      st.1.size = (DijkstraPad.new p s).pool.size)
    (fun st => 2 * ((Finset.range (DijkstraPad.new p s).pool.size).filter
        (fun v => payloadD st.1 v = none)).card + (if st.2 = ∅ then 0 else 1))
    ?_ ?_ (2 * (DijkstraPad.new p s).pool.size + 2)
    ((DijkstraPad.new p s).pool, {s}) ?_ ?_
  case refine_1 =>
    -- invariant preservation
    rintro st ⟨k, hA, hB, hF, hpass, hsize⟩ _
    rcases dijkstra_inv_step hwf0 hs0 k st.1 st.2 hA hB hF hpass hsize with
      ⟨hA', hB', hF', hpass', hsize'⟩
    exact ⟨k + 1, hA', hB', hF', hpass', hsize'⟩
  case refine_2 =>
    -- measure decrease
    rintro st ⟨k, hA, hB, hF, hpass, hsize⟩ hcond
    have hLT : ∀ i j, j ∈ (DijkstraPad.new p s).pool.passagesOf i →
        j < (DijkstraPad.new p s).pool.size := fun i j h =>
      Pool.links_lt_of_WF hwf0 h
    have hfront : ∀ c ∈ st.2, payloadD st.1 c = some (.finite k) := by
      intro c hc
      rw [hF] at hc
      rcases Finset.mem_filter.mp hc with ⟨-, hdist⟩
      rw [hA c k hdist, if_pos (le_refl k)]
    rcases dijkstraRound_spec (DijkstraPad.new p s).pool k hLT st.1 st.2
      hpass hsize hfront with ⟨hpay, hfr, -, -⟩
    have hUsub : (Finset.range (DijkstraPad.new p s).pool.size).filter
        (fun v => payloadD (dijkstraRound st).1 v = none) ⊆
        (Finset.range (DijkstraPad.new p s).pool.size).filter
        (fun v => payloadD st.1 v = none) := by
      intro j hj
      rcases Finset.mem_filter.mp hj with ⟨hjr, hjnone⟩
      have := hpay j
      refine Finset.mem_filter.mpr ⟨hjr, ?_⟩
      by_cases hc : (∃ c ∈ st.2, j ∈ (DijkstraPad.new p s).pool.passagesOf c) ∧
          payloadD st.1 j = none
      · rw [if_pos hc] at this
        rw [this] at hjnone
        exact Option.noConfusion hjnone
      · rw [if_neg hc] at this
        rw [← this]
        exact hjnone
    have hstne : st.2 ≠ ∅ := of_decide_eq_true hcond
    dsimp only
    rw [if_neg hstne]
    by_cases hfe : (dijkstraRound st).2 = ∅
    · rw [if_pos hfe]
      have := Finset.card_le_card hUsub
      omega
    · rw [if_neg hfe]
      rcases Finset.nonempty_iff_ne_empty.mpr hfe with ⟨x, hx⟩
      rw [hfr] at hx
      rcases Finset.mem_filter.mp hx with ⟨hxr, hxcond⟩
      have hxU : x ∈ (Finset.range (DijkstraPad.new p s).pool.size).filter
          (fun v => payloadD st.1 v = none) :=
        Finset.mem_filter.mpr ⟨hxr, hxcond.2⟩
      have hxU' : x ∉ (Finset.range (DijkstraPad.new p s).pool.size).filter
          (fun v => payloadD (dijkstraRound st).1 v = none) := by
        intro hmem
        rcases Finset.mem_filter.mp hmem with ⟨-, hnone⟩
        have := hpay x
        rw [if_pos hxcond] at this
        rw [this] at hnone
        exact Option.noConfusion hnone
      have hss := Finset.card_lt_card
        ((Finset.ssubset_iff_of_subset hUsub).mpr ⟨x, hxU, hxU'⟩)
      omega
  case refine_3 =>
    -- initial invariant (layer 0)
    refine ⟨0, ?_, ?_, ?_, fun j => rfl, rfl⟩
    · intro j d hd
      rcases Pool.linkDist_eq_some_iff.mp hd with ⟨-, hball, hmin⟩
      cases d with
      | zero =>
        rw [Pool.linkBall_zero, Finset.mem_singleton] at hball
        subst hball
        rw [payloadD_new hwf, if_pos ⟨rfl, by rw [← hsize0]; exact hs0⟩]
        simp
      | succ d =>
        have hjs : j ≠ s := by
          intro hjs
          subst hjs
          exact hmin 0 (Nat.succ_pos d)
            (by rw [Pool.linkBall_zero]; exact Finset.mem_singleton_self j)
        rw [payloadD_new hwf, if_neg (fun h => hjs h.1), if_neg (by omega)]
    · intro j hj
      have hjs : j ≠ s := by
        intro hjs
        subst hjs
        rw [hdistS] at hj
        exact Option.noConfusion hj
      rw [payloadD_new hwf, if_neg (fun h => hjs h.1)]
    · ext v
      simp only [Finset.mem_singleton, Finset.mem_filter, Finset.mem_range]
      constructor
      · rintro rfl
        exact ⟨hs0, hdistS⟩
      · rintro ⟨-, hv⟩
        rcases Pool.linkDist_eq_some_iff.mp hv with ⟨-, hball, -⟩
        rw [Pool.linkBall_zero, Finset.mem_singleton] at hball
        exact hball
  case refine_4 =>
    -- the baked-in fuel dominates the measure
    have hcard : ((Finset.range (DijkstraPad.new p s).pool.size).filter
        (fun v => payloadD (DijkstraPad.new p s).pool v = none)).card ≤
        (DijkstraPad.new p s).pool.size := by
      calc _ ≤ (Finset.range (DijkstraPad.new p s).pool.size).card :=
            Finset.card_le_card (Finset.filter_subset _ _)
        _ = _ := Finset.card_range _
    dsimp only
    rw [if_neg (by simp)]
    omega
  -- harvest the final state
  rcases hmain with ⟨⟨K, hAK, hBK, hFK, -, -⟩, hcondF⟩
  have hSTempty : (loopFuel (fun st => decide (st.2 ≠ ∅)) dijkstraRound
      (2 * (DijkstraPad.new p s).pool.size + 2)
      ((DijkstraPad.new p s).pool, {s})).2 = ∅ := by
    have := of_decide_eq_false hcondF
    exact not_ne_iff.mp this
  have hlayerK : (Finset.range (DijkstraPad.new p s).pool.size).filter
      (fun v => (DijkstraPad.new p s).pool.linkDist s v = some K) = ∅ := by
    rw [← hFK]
    exact hSTempty
  have htotal : ∀ j d, (DijkstraPad.new p s).pool.linkDist s j = some d →
      payloadD (loopFuel (fun st => decide (st.2 ≠ ∅)) dijkstraRound
        (2 * (DijkstraPad.new p s).pool.size + 2)
        ((DijkstraPad.new p s).pool, {s})).1 j = some (.finite d) := by
    intro j d hd
    have hdK : d ≤ K := by
      by_contra hgt
      rcases layer_nonempty_below hwf0 hs0 hd K (by omega) with ⟨w, hw⟩
      have hwr : w ∈ Finset.range (DijkstraPad.new p s).pool.size := by
        rcases Pool.linkDist_eq_some_iff.mp hw with ⟨-, hball, -⟩
        exact Pool.linkBall_subset_range hwf0 hs0 K hball
      have : w ∈ (Finset.range (DijkstraPad.new p s).pool.size).filter
          (fun v => (DijkstraPad.new p s).pool.linkDist s v = some K) :=
        Finset.mem_filter.mpr ⟨hwr, hw⟩
      rw [hlayerK] at this
      exact absurd this (Finset.not_mem_empty w)
    rw [hAK j d hd, if_pos hdK]
  have hdistAt : ∀ v, (DijkstraPad.new p s).perform.distAt v =
      (payloadD (loopFuel (fun st => decide (st.2 ≠ ∅)) dijkstraRound
        (2 * (DijkstraPad.new p s).pool.size + 2)
        ((DijkstraPad.new p s).pool, {s})).1 v).getD .infinite := by
    intro v
    exact distAt_helper _ s v
  have hreach_iff : ∀ v, (DijkstraPad.new p s).pool.LinkReach s v ↔
      p.LinkReach s v := by
    intro v
    unfold Pool.LinkReach
    have : (fun i j => j ∈ (DijkstraPad.new p s).pool.passagesOf i) =
        (fun i j => j ∈ p.passagesOf i) := by
      funext i j
      rw [hpass0 i]
    rw [this]
  refine ⟨?_, ?_, ?_⟩
  · rw [hdistAt s, htotal s 0 hdistS]
    rfl
  · intro v hv hreach
    rcases (Pool.linkDist_isSome_iff_reach hwf0 hs0 v).mpr
      ((hreach_iff v).mpr hreach) with ⟨d, hd⟩
    rcases Pool.linkDist_eq_some_iff.mp hd with ⟨-, hball, hmin⟩
    refine ⟨d, by rw [← hdist0 v]; exact hd, ?_, ?_, ?_⟩
    · rw [hdistAt v, htotal v d hd]
      rfl
    · rw [← hball0 d]
      exact hball
    · intro e he
      by_contra hlt
      exact hmin e (by omega) (by rw [hball0 e]; exact he)
  · intro v hv hnreach
    cases hdv : (DijkstraPad.new p s).pool.linkDist s v with
    | some d =>
      exact absurd ((hreach_iff v).mp
        ((Pool.linkDist_isSome_iff_reach hwf0 hs0 v).mp ⟨d, hdv⟩)) hnreach
    | none =>
      rw [hdistAt v, hBK v hdv]
      rfl

/-- Witness for C2 at a concrete pool (a three-node link path plus an
isolated node). -/
theorem C2_dijkstra_witness :
    ((DijkstraPad.new (Pool.mk [⟨0, {1}, {1}, ()⟩, ⟨1, {0, 2}, {0, 2}, ()⟩,
        ⟨2, {1}, {1}, ()⟩, ⟨3, ∅, ∅, ()⟩]) 0).perform.distAt 0 = .finite 0) ∧
    ((DijkstraPad.new (Pool.mk [⟨0, {1}, {1}, ()⟩, ⟨1, {0, 2}, {0, 2}, ()⟩,
        ⟨2, {1}, {1}, ()⟩, ⟨3, ∅, ∅, ()⟩]) 0).perform.distAt 3 = .infinite) := by
  have h := C2_dijkstra (Pool.mk [⟨0, {1}, {1}, ()⟩, ⟨1, {0, 2}, {0, 2}, ()⟩,
      ⟨2, {1}, {1}, ()⟩, ⟨3, ∅, ∅, ()⟩]) 0
    (by
      constructor
      · intro i hlt
        simp only [List.length_cons, List.length_nil] at hlt
        interval_cases i <;> rfl
      · intro n hn
        fin_cases hn <;> constructor <;> intro x hx <;> fin_cases hx <;> simp)
    (by simp [Pool.size])
  refine ⟨h.1, h.2.2 3 (by simp [Pool.size]) ?_⟩
  intro hreach
  have hstep : ∀ b ∈ ({0, 1, 2} : Finset Nat),
      ∀ c ∈ (Pool.mk [⟨0, {1}, {1}, ()⟩, ⟨1, {0, 2}, {0, 2}, ()⟩,
        ⟨2, {1}, {1}, ()⟩, ⟨3, ∅, ∅, ()⟩]).passagesOf b,
      c ∈ ({0, 1, 2} : Finset Nat) := by decide
  have hmem : (3 : Nat) ∈ ({0, 1, 2} : Finset Nat) := by
    have hcl : ∀ x, Relation.ReflTransGen (fun i j => j ∈ (Pool.mk
        [⟨0, {1}, {1}, ()⟩, ⟨1, {0, 2}, {0, 2}, ()⟩,
         ⟨2, {1}, {1}, ()⟩, ⟨3, ∅, ∅, ()⟩]).passagesOf i) 0 x →
        x ∈ ({0, 1, 2} : Finset Nat) := by
      intro x hx
      induction hx with
      | refl => decide
      | @tail b c hab hbc ih => exact hstep b ih c hbc
    exact hcl 3 hreach
  revert hmem
  decide

/-! # Claim C5: determinism and randomness sources -/

/-- C5 counterexample: `binary_tree` takes no random-source parameter —
it samples `rand::random::<f64>()` from the thread-local generator.  With
all explicit inputs equal (the same `2 × 2` grid and settings), two runs
whose ambient draws differ produce different link graphs, so the claim
that no algorithm consumes randomness from an ambient source (and that
equal explicit inputs give identical link graphs) is false. -/
theorem C5_counterexample :
    exampleGrid22.binaryTree (fun _ => true) ≠
      exampleGrid22.binaryTree (fun _ => false) := by
  decide

/-- C5 (amended): `aldous_broder`, `hunt_and_kill`,
`recursive_backtracker` and `wilson` take the random source as an explicit
parameter and are deterministic functions of the pool and the drawn value
sequence; `binary_tree` (and likewise `sidewinder`, which calls
`thread_rng()` internally) instead consumes ambient thread-local
randomness, and its output varies with those ambient draws even for equal
grids and settings. -/
theorem C5_determinism :
    (∀ (T : Type) (p₁ p₂ : Pool T) (d₁ d₂ : Nat → Nat) (fuel : Nat),
      p₁ = p₂ → d₁ = d₂ →
      abRun p₁ d₁ fuel = abRun p₂ d₂ fuel ∧
      hkRun p₁ d₁ = hkRun p₂ d₂ ∧
      rbRun p₁ d₁ = rbRun p₂ d₂ ∧
      wilsonRun p₁ d₁ fuel = wilsonRun p₂ d₂ fuel) ∧
    exampleGrid22.binaryTree (fun _ => true) ≠
      exampleGrid22.binaryTree (fun _ => false) := by
  constructor
  · rintro T p₁ p₂ d₁ d₂ fuel rfl rfl
    exact ⟨rfl, rfl, rfl, rfl⟩
  · decide

/-- Witness for C5 at concrete inputs. -/
theorem C5_determinism_witness :
    abRun examplePool2 (fun _ => 0) 5 = abRun examplePool2 (fun _ => 0) 5 ∧
    hkRun examplePool2 (fun _ => 0) = hkRun examplePool2 (fun _ => 0) :=
  ⟨(C5_determinism.1 Unit examplePool2 examplePool2 (fun _ => 0) (fun _ => 0)
      5 rfl rfl).1,
   (C5_determinism.1 Unit examplePool2 examplePool2 (fun _ => 0) (fun _ => 0)
      5 rfl rfl).2.1⟩

/-! # Claims C3 and C7: the maze byte codec -/

section CodecLemmas

theorem orElse_eq_none_iff {α : Type _} (a b : Option α) :
    (a <|> b) = none ↔ a = none ∧ b = none := by
  cases a <;> simp

/-- The validation conditions recorded by a passing `validate_news_grid`
check of a single entry. -/
theorem validateEntry_eq_none_iff (ng : NewsGrid) (r c b : Nat) :
    validateEntry ng ((r, c), b) = none ↔
      (northBit b = true → r ≠ 0 ∧
        ∃ b', newsLookup ng (r - 1, c) = some b' ∧ southBit b' = true) ∧
      (eastBit b = true →
        ∃ b', newsLookup ng (r, c + 1) = some b' ∧ westBit b' = true) ∧
      (westBit b = true → c ≠ 0 ∧
        ∃ b', newsLookup ng (r, c - 1) = some b' ∧ eastBit b' = true) ∧
      (southBit b = true →
        ∃ b', newsLookup ng (r + 1, c) = some b' ∧ northBit b' = true) := by
  unfold validateEntry
  dsimp only
  rw [orElse_eq_none_iff, orElse_eq_none_iff, orElse_eq_none_iff]
  constructor
  · rintro ⟨hN, hE, hW, hS⟩
    refine ⟨?_, ?_, ?_, ?_⟩
    · intro hbit
      rw [if_pos hbit] at hN
      by_cases hr : r = 0
      · rw [if_pos hr] at hN; exact Option.noConfusion hN
      · rw [if_neg hr] at hN
        refine ⟨hr, ?_⟩
        cases hlook : newsLookup ng (r - 1, c) with
        | none => rw [hlook] at hN; simp at hN
        | some nb =>
          rw [hlook] at hN
          dsimp only at hN
          by_cases hsb : southBit nb = true
          · exact ⟨nb, rfl, hsb⟩
          · rw [if_pos (by simpa using hsb)] at hN
            exact Option.noConfusion hN
    · intro hbit
      rw [if_pos hbit] at hE
      cases hlook : newsLookup ng (r, c + 1) with
      | none => rw [hlook] at hE; simp at hE
      | some nb =>
        rw [hlook] at hE
        dsimp only at hE
        by_cases hwb : westBit nb = true
        · exact ⟨nb, rfl, hwb⟩
        · rw [if_pos (by simpa using hwb)] at hE
          exact Option.noConfusion hE
    · intro hbit
      rw [if_pos hbit] at hW
      by_cases hc : c = 0
      · rw [if_pos hc] at hW; exact Option.noConfusion hW
      · rw [if_neg hc] at hW
        refine ⟨hc, ?_⟩
        cases hlook : newsLookup ng (r, c - 1) with
        | none => rw [hlook] at hW; simp at hW
        | some nb =>
          rw [hlook] at hW
          dsimp only at hW
          by_cases heb : eastBit nb = true
          · exact ⟨nb, rfl, heb⟩
          · rw [if_pos (by simpa using heb)] at hW
            exact Option.noConfusion hW
    · intro hbit
      rw [if_pos hbit] at hS
      cases hlook : newsLookup ng (r + 1, c) with
      | none => rw [hlook] at hS; simp at hS
      | some nb =>
        rw [hlook] at hS
        dsimp only at hS
        by_cases hnb : northBit nb = true
        · exact ⟨nb, rfl, hnb⟩
        · rw [if_pos (by simpa using hnb)] at hS
          exact Option.noConfusion hS
  · rintro ⟨hN, hE, hW, hS⟩
    refine ⟨?_, ?_, ?_, ?_⟩
    · by_cases hbit : northBit b = true
      · rcases hN hbit with ⟨hr, nb, hlook, hsb⟩
        rw [if_pos hbit, if_neg hr, hlook]
        dsimp only
        rw [if_neg (by simp [hsb])]
      · rw [if_neg (by simpa using hbit)]
    · by_cases hbit : eastBit b = true
      · rcases hE hbit with ⟨nb, hlook, hwb⟩
        rw [if_pos hbit, hlook]
        dsimp only
        rw [if_neg (by simp [hwb])]
      · rw [if_neg (by simpa using hbit)]
    · by_cases hbit : westBit b = true
      · rcases hW hbit with ⟨hc, nb, hlook, heb⟩
        rw [if_pos hbit, if_neg hc, hlook]
        dsimp only
        rw [if_neg (by simp [heb])]
      · rw [if_neg (by simpa using hbit)]
    · by_cases hbit : southBit b = true
      · rcases hS hbit with ⟨nb, hlook, hnb⟩
        rw [if_pos hbit, hlook]
        dsimp only
        rw [if_neg (by simp [hnb])]
      · rw [if_neg (by simpa using hbit)]

theorem newsLookup_eq_some_mem {ng : NewsGrid} {c : Nat × Nat} {b' : Nat}
    (h : newsLookup ng c = some b') : (c, b') ∈ ng := by
  unfold newsLookup at h
  cases hf : ng.find? (fun e => e.1 = c) with
  | none => rw [hf] at h; exact Option.noConfusion h
  | some e =>
    rw [hf] at h
    have h2 : e.2 = b' := by simpa using h
    have hmem := List.mem_of_find?_eq_some hf
    have hp := List.find?_some hf
    have h1 : e.1 = c := by simpa using hp
    have : e = (c, b') := by
      cases e
      simp only [Prod.mk.injEq]
      exact ⟨h1, h2⟩
    exact this ▸ hmem

theorem validateNewsGrid_eq_none {ng : NewsGrid} (h : validateNewsGrid ng = none) :
    ∀ e ∈ ng, validateEntry ng e = none := by
  intro e he
  unfold validateNewsGrid at h
  exact List.findSome?_eq_none.mp h e he

theorem mem_rowMajorCoords {w h r c : Nat} :
    (r, c) ∈ rowMajorCoords w h ↔ r < h ∧ c < w := by
  unfold rowMajorCoords
  simp only [List.mem_flatMap, List.mem_map, List.mem_range, Prod.mk.injEq]
  constructor
  · rintro ⟨row, hrow, col, hcol, rfl, rfl⟩
    exact ⟨hrow, hcol⟩
  · rintro ⟨hr, hc⟩
    exact ⟨r, hr, c, hc, rfl, rfl⟩

theorem decodeBody_ok {w h : Nat} {body : List Nat} {ng : NewsGrid}
    (hdec : decodeBody w h body = .ok ng) :
    body.length = w * h ∧
    ng = ((rowMajorCoords w h).zip body).filterMap
      (fun pb => if pb.2 = 0 then none else some pb) := by
  unfold decodeBody at hdec
  by_cases h1 : body.length < w * h
  · rw [if_pos h1] at hdec; exact Except.noConfusion hdec
  · rw [if_neg h1] at hdec
    by_cases h2 : w * h < body.length
    · rw [if_pos h2] at hdec; exact Except.noConfusion hdec
    · rw [if_neg h2] at hdec
      refine ⟨by omega, ?_⟩
      have := Except.ok.inj hdec
      exact this.symm

theorem decodeBody_entry_bounds {w h : Nat} {body : List Nat} {ng : NewsGrid}
    (hdec : decodeBody w h body = .ok ng) :
    ∀ e ∈ ng, e.1.1 < h ∧ e.1.2 < w ∧ e.2 ≠ 0 := by
  intro e he
  rcases decodeBody_ok hdec with ⟨-, hng⟩
  rw [hng] at he
  rcases List.mem_filterMap.mp he with ⟨pb, hpb, hif⟩
  have hne : pb.2 ≠ 0 := by
    intro h0
    rw [if_pos h0] at hif
    exact Option.noConfusion hif
  rw [if_neg hne] at hif
  have hpe : pb = e := by simpa using hif
  subst hpe
  have hco := List.of_mem_zip hpb
  have hb : (pb.1.1, pb.1.2) ∈ rowMajorCoords w h := by
    have := hco.1
    simpa using this
  rcases mem_rowMajorCoords.mp hb with ⟨h1, h2⟩
  exact ⟨h1, h2, hne⟩

theorem maskedGrid_new_some {w h : Nat} {maskF : Nat → Nat → Bool} {g : MaskedGrid}
    (hnew : MaskedGrid.new w h maskF = some g) :
    g = ⟨w, h, (Finset.range h ×ˢ Finset.range w).filter
      (fun rc => maskF rc.1 rc.2), ∅⟩ := by
  unfold MaskedGrid.new at hnew
  by_cases hc : maskConnectedB ((Finset.range h ×ˢ Finset.range w).filter
      (fun rc => maskF rc.1 rc.2)) = true
  · rw [if_pos hc] at hnew
    exact (Option.some_inj.mp hnew).symm
  · rw [if_neg hc] at hnew
    exact Option.noConfusion hnew

theorem maskedGrid_new_none_iff {w h : Nat} {maskF : Nat → Nat → Bool} :
    MaskedGrid.new w h maskF = none ↔
      maskConnectedB ((Finset.range h ×ˢ Finset.range w).filter
        (fun rc => maskF rc.1 rc.2)) = false := by
  unfold MaskedGrid.new
  by_cases hc : maskConnectedB ((Finset.range h ×ˢ Finset.range w).filter
      (fun rc => maskF rc.1 rc.2)) = true
  · rw [if_pos hc]
    simp [hc]
  · rw [if_neg hc]
    simp [Bool.eq_false_iff.mpr (fun hx => hc hx)]

theorem filter_product_mem_eq {w h : Nat} (K : Finset (Nat × Nat))
    (hb : ∀ rc ∈ K, rc.1 < h ∧ rc.2 < w) :
    (Finset.range h ×ˢ Finset.range w).filter
      (fun rc => decide ((rc.1, rc.2) ∈ K)) = K := by
  ext rc
  simp only [Finset.mem_filter, Finset.mem_product, Finset.mem_range,
    decide_eq_true_eq]
  constructor
  · rintro ⟨-, hm⟩
    exact hm
  · intro hm
    exact ⟨⟨(hb rc hm).1, (hb rc hm).2⟩, hm⟩

theorem adjacentAt_congr {g g' : MaskedGrid} (hmask : g'.mask = g.mask)
    (a b : Nat × Nat) : g'.AdjacentAt a b ↔ g.AdjacentAt a b := by
  unfold MaskedGrid.AdjacentAt
  rw [hmask]

theorem entryOK_congr {g g' : MaskedGrid} (hmask : g'.mask = g.mask)
    (e : (Nat × Nat) × Nat) : EntryOK g' e ↔ EntryOK g e := by
  unfold EntryOK
  simp only [adjacentAt_congr hmask]

theorem linkCellsCoord_some {g : MaskedGrid} {a b : Nat × Nat}
    (hadj : g.AdjacentAt a b) :
    g.linkCellsCoord a b =
      some { g with links := insert (b, a) (insert (a, b) g.links) } := by
  unfold MaskedGrid.linkCellsCoord
  rw [if_pos hadj]

theorem applyEntryLinks_some {g : MaskedGrid} {e : (Nat × Nat) × Nat}
    (hok : EntryOK g e) :
    ∃ g', applyEntryLinks g e = some g' ∧ g'.width = g.width ∧
      g'.height = g.height ∧ g'.mask = g.mask ∧
      g'.links = g.links ∪ entryLinkPairs e := by
  rcases hok with ⟨hN, hE, hW, hS⟩
  have link : ∀ (gc : MaskedGrid) (other : Nat × Nat),
      gc.mask = g.mask → g.AdjacentAt e.1 other →
      ∃ gn, gc.linkCellsCoord e.1 other = some gn ∧ gn.width = gc.width ∧
        gn.height = gc.height ∧ gn.mask = gc.mask ∧
        gn.links = gc.links ∪ {(e.1, other), (other, e.1)} := by
    intro gc other hm hadj
    refine ⟨_, linkCellsCoord_some ((adjacentAt_congr hm e.1 other).mpr hadj),
      rfl, rfl, rfl, ?_⟩
    ext x
    simp only [Finset.mem_insert, Finset.mem_union, Finset.mem_singleton]
    tauto
  have cstep : ∀ (gc : MaskedGrid) (cond : Bool) (other : Nat × Nat),
      gc.mask = g.mask → (cond = true → g.AdjacentAt e.1 other) →
      ∃ gn, (if cond then gc.linkCellsCoord e.1 other else some gc) = some gn ∧
        gn.width = gc.width ∧ gn.height = gc.height ∧ gn.mask = gc.mask ∧
        gn.links = gc.links ∪
          (if cond then ({(e.1, other), (other, e.1)} :
            Finset ((Nat × Nat) × (Nat × Nat))) else ∅) := by
    intro gc cond other hm hcond
    cases cond with
    | false =>
      exact ⟨gc, by rw [if_neg (by simp)], rfl, rfl, rfl, by simp⟩
    | true =>
      rcases link gc other hm (hcond rfl) with ⟨gn, hgn, hw, hh, hm2, hl⟩
      exact ⟨gn, by rw [if_pos rfl, hgn], hw, hh, hm2, by simpa using hl⟩
  have gstep : ∀ (gc : MaskedGrid) (cond : Bool) (rc : Nat) (other : Nat × Nat),
      gc.mask = g.mask → (cond = true → rc ≠ 0 ∧ g.AdjacentAt e.1 other) →
      ∃ gn, (if cond then (if rc = 0 then none else gc.linkCellsCoord e.1 other)
          else some gc) = some gn ∧
        gn.width = gc.width ∧ gn.height = gc.height ∧ gn.mask = gc.mask ∧
        gn.links = gc.links ∪
          (if cond then ({(e.1, other), (other, e.1)} :
            Finset ((Nat × Nat) × (Nat × Nat))) else ∅) := by
    intro gc cond rc other hm hcond
    cases cond with
    | false =>
      exact ⟨gc, by rw [if_neg (by simp)], rfl, rfl, rfl, by simp⟩
    | true =>
      rcases hcond rfl with ⟨hr0, hadj⟩
      rcases link gc other hm hadj with ⟨gn, hgn, hw, hh, hm2, hl⟩
      exact ⟨gn, by rw [if_pos rfl, if_neg hr0, hgn], hw, hh, hm2,
        by simpa using hl⟩
  rcases gstep g (northBit e.2) e.1.1 (e.1.1 - 1, e.1.2) rfl hN with
    ⟨g1, hg1, hw1, hh1, hm1, hl1⟩
  rcases cstep g1 (eastBit e.2) (e.1.1, e.1.2 + 1) hm1 hE with
    ⟨g2, hg2, hw2, hh2, hm2, hl2⟩
  rcases gstep g2 (westBit e.2) e.1.2 (e.1.1, e.1.2 - 1) (hm2.trans hm1) hW with
    ⟨g3, hg3, hw3, hh3, hm3, hl3⟩
  rcases cstep g3 (southBit e.2) (e.1.1 + 1, e.1.2)
    (hm3.trans (hm2.trans hm1)) hS with ⟨g4, hg4, hw4, hh4, hm4, hl4⟩
  refine ⟨g4, ?_, hw4.trans (hw3.trans (hw2.trans hw1)),
    hh4.trans (hh3.trans (hh2.trans hh1)),
    hm4.trans (hm3.trans (hm2.trans hm1)), ?_⟩
  · unfold applyEntryLinks
    simp only [Prod.mk.eta]
    rw [hg1]
    dsimp only [Option.bind]
    rw [hg2]
    dsimp only
    rw [hg3]
    dsimp only
    exact hg4
  · rw [hl4, hl3, hl2, hl1]
    unfold entryLinkPairs
    simp only [Finset.union_assoc]

theorem entryOK_of_validated {ng : NewsGrid} {g0 : MaskedGrid}
    (hval : ∀ e ∈ ng, validateEntry ng e = none)
    (hmask : g0.mask = (ng.map (·.1)).toFinset) :
    ∀ e ∈ ng, EntryOK g0 e := by
  intro e he
  obtain ⟨⟨r, c⟩, b⟩ := e
  have hv := (validateEntry_eq_none_iff ng r c b).mp (hval _ he)
  have hself : (r, c) ∈ g0.mask := by
    rw [hmask]
    exact List.mem_toFinset.mpr (List.mem_map.mpr ⟨((r, c), b), he, rfl⟩)
  have hmem : ∀ {c' : Nat × Nat} {b' : Nat},
      newsLookup ng c' = some b' → c' ∈ g0.mask := by
    intro c' b' hl
    rw [hmask]
    exact List.mem_toFinset.mpr
      (List.mem_map.mpr ⟨(c', b'), newsLookup_eq_some_mem hl, rfl⟩)
  refine ⟨?_, ?_, ?_, ?_⟩
  · intro hbit
    rcases hv.1 hbit with ⟨hr, b', hlook, -⟩
    exact ⟨hr, hself, hmem hlook,
      Or.inr ⟨rfl, Or.inr (show r - 1 + 1 = r by omega)⟩⟩
  · intro hbit
    rcases hv.2.1 hbit with ⟨b', hlook, -⟩
    exact ⟨hself, hmem hlook, Or.inl ⟨rfl, Or.inl rfl⟩⟩
  · intro hbit
    rcases hv.2.2.1 hbit with ⟨hc, b', hlook, -⟩
    exact ⟨hc, hself, hmem hlook,
      Or.inl ⟨rfl, Or.inr (show c - 1 + 1 = c by omega)⟩⟩
  · intro hbit
    rcases hv.2.2.2 hbit with ⟨b', hlook, -⟩
    exact ⟨hself, hmem hlook, Or.inr ⟨rfl, Or.inl rfl⟩⟩

theorem foldlM_applyEntryLinks (l : List ((Nat × Nat) × Nat)) :
    ∀ g : MaskedGrid, (∀ e ∈ l, EntryOK g e) →
    ∃ g', l.foldlM applyEntryLinks g = some g' ∧ g'.width = g.width ∧
      g'.height = g.height ∧ g'.mask = g.mask ∧
      g'.links = g.links ∪ l.foldr (fun e acc => entryLinkPairs e ∪ acc) ∅ := by
  induction l with
  | nil =>
    intro g _
    exact ⟨g, rfl, rfl, rfl, rfl, by simp⟩
  | cons e es ih =>
    intro g hok
    rcases applyEntryLinks_some (hok e (List.mem_cons_self e es)) with
      ⟨g1, hg1, hw1, hh1, hm1, hl1⟩
    have hok1 : ∀ e' ∈ es, EntryOK g1 e' := fun e' he' =>
      (entryOK_congr hm1 e').mpr (hok e' (List.mem_cons_of_mem e he'))
    rcases ih g1 hok1 with ⟨g', hg', hw, hh, hm, hl⟩
    refine ⟨g', ?_, hw.trans hw1, hh.trans hh1, hm.trans hm1, ?_⟩
    · rw [List.foldlM_cons, hg1]
      exact hg'
    · rw [hl, hl1, List.foldr_cons]
      ext x
      simp only [Finset.mem_union]
      tauto

theorem readMaze_none_iff (bytes : List Nat) :
    readMaze bytes = none ↔
      ∃ w h body ng, readHeader bytes = some (w, h, body) ∧
        decodeBody w h body = .ok ng ∧
        validateNewsGrid ng = none ∧
        MaskedGrid.new w h
          (fun r c => decide ((r, c) ∈ (ng.map (·.1)).toFinset)) = none := by
  unfold readMaze
  constructor
  · intro hnone
    cases hhd : readHeader bytes with
    | none => rw [hhd] at hnone; exact Option.noConfusion hnone
    | some whb =>
      obtain ⟨w, h, body⟩ := whb
      rw [hhd] at hnone
      dsimp only at hnone
      cases hdec : decodeBody w h body with
      | error e => rw [hdec] at hnone; exact Option.noConfusion hnone
      | ok ng =>
        rw [hdec] at hnone
        dsimp only at hnone
        cases hval : validateNewsGrid ng with
        | some e => rw [hval] at hnone; exact Option.noConfusion hnone
        | none =>
          rw [hval] at hnone
          dsimp only at hnone
          cases hnew : MaskedGrid.new w h
              (fun r c => decide ((r, c) ∈ (ng.map (·.1)).toFinset)) with
          | none => exact ⟨w, h, body, ng, rfl, hdec, hval, hnew⟩
          | some g0 =>
            rw [hnew] at hnone
            dsimp only at hnone
            have hmask : g0.mask = (ng.map (·.1)).toFinset := by
              have hg0 := maskedGrid_new_some hnew
              rw [hg0]
              refine filter_product_mem_eq _ ?_
              intro rc hrc
              rcases List.mem_map.mp (List.mem_toFinset.mp hrc) with
                ⟨e, he, hrc'⟩
              have := decodeBody_entry_bounds hdec e he
              rw [← hrc']
              exact ⟨this.1, this.2.1⟩
            have hok := entryOK_of_validated (validateNewsGrid_eq_none hval)
              hmask
            rcases foldlM_applyEntryLinks ng g0 hok with ⟨g', hg', -⟩
            rw [hg'] at hnone
            exact Option.noConfusion hnone
  · rintro ⟨w, h, body, ng, hhd, hdec, hval, hnew⟩
    rw [hhd]
    dsimp only
    rw [hdec]
    dsimp only
    rw [hval]
    dsimp only
    rw [hnew]

theorem parse32_be32 (x : Nat) (rest : List Nat) (hx : x < 2 ^ 32) :
    parse32 (be32 x ++ rest) = some (x, rest) := by
  simp only [be32, List.cons_append, List.nil_append, parse32]
  refine congrArg some (Prod.ext ?_ rfl)
  show x / 2 ^ 24 % 256 * 2 ^ 24 + x / 2 ^ 16 % 256 * 2 ^ 16 +
    x / 2 ^ 8 % 256 * 2 ^ 8 + x % 256 = x
  omega

theorem parse32_be32_trunc (x : Nat) (rest : List Nat) :
    parse32 (be32 x ++ rest) =
      some (x / 2 ^ 24 % 256 * 2 ^ 24 + x / 2 ^ 16 % 256 * 2 ^ 16 +
        x / 2 ^ 8 % 256 * 2 ^ 8 + x % 256, rest) := by
  simp only [be32, List.cons_append, List.nil_append, parse32]

theorem readHeader_writeMaze (g : MaskedGrid) (start finish : Nat × Nat)
    (hw : g.width < 2 ^ 32) (hh : g.height < 2 ^ 32) :
    readHeader (g.writeMaze start finish) =
      some (g.width, g.height, (List.range g.height).flatMap
        (fun row => (List.range g.width).map (fun col => g.cellToByte row col))) := by
  unfold MaskedGrid.writeMaze readHeader
  simp only [List.append_assoc]
  rw [parse32_be32 _ _ hw]
  simp only [Option.bind_eq_bind, Option.some_bind]
  rw [parse32_be32 _ _ hh]
  simp only [Option.bind_eq_bind, Option.some_bind]
  rw [parse32_be32_trunc]
  simp only [Option.bind_eq_bind, Option.some_bind]
  rw [parse32_be32_trunc]
  simp only [Option.bind_eq_bind, Option.some_bind]
  rw [parse32_be32_trunc]
  simp only [Option.bind_eq_bind, Option.some_bind]
  rw [parse32_be32_trunc]
  simp only [Option.bind_eq_bind, Option.some_bind]
  rfl

theorem zip_self_map {α β : Type _} (k : α → β) (l : List α) :
    l.zip (l.map k) = l.map (fun a => (a, k a)) := by
  induction l with
  | nil => rfl
  | cons a l ih => simp [ih]

theorem writeBody_eq_map (g : MaskedGrid) :
    (List.range g.height).flatMap
      (fun row => (List.range g.width).map (fun col => g.cellToByte row col)) =
    (rowMajorCoords g.width g.height).map (fun rc => g.cellToByte rc.1 rc.2) := by
  unfold rowMajorCoords
  simp only [List.map_flatMap, List.map_map]
  rfl

theorem length_rowMajorCoords (w h : Nat) :
    (rowMajorCoords w h).length = h * w := by
  induction h with
  | zero => simp [rowMajorCoords]
  | succ n ih =>
    unfold rowMajorCoords at ih ⊢
    rw [List.range_succ, List.flatMap_append]
    simp only [List.length_append, ih, List.flatMap_cons, List.flatMap_nil,
      List.append_nil, List.length_map, List.length_range]
    ring

theorem decodeBody_writeMaze (g : MaskedGrid) :
    decodeBody g.width g.height
      ((List.range g.height).flatMap
        (fun row => (List.range g.width).map (fun col => g.cellToByte row col))) =
    .ok g.encodedNews := by
  rw [writeBody_eq_map]
  unfold decodeBody
  have hlen : ((rowMajorCoords g.width g.height).map
      (fun rc => g.cellToByte rc.1 rc.2)).length = g.height * g.width := by
    rw [List.length_map, length_rowMajorCoords]
  rw [if_neg (by rw [hlen, Nat.mul_comm]; exact Nat.lt_irrefl _),
    if_neg (by rw [hlen, Nat.mul_comm]; exact Nat.lt_irrefl _)]
  rw [zip_self_map, List.filterMap_map]
  rfl

theorem northBit_cellToByte (g : MaskedGrid) (r c : Nat)
    (hmem : (r, c) ∈ g.mask) :
    northBit (g.cellToByte r c) = true ↔ 0 < r ∧ g.IsLinkedAt r c (r - 1) c := by
  unfold MaskedGrid.cellToByte
  rw [if_pos hmem]
  by_cases h1 : 0 < r ∧ g.IsLinkedAt r c (r - 1) c <;>
  by_cases h2 : c < g.width - 1 ∧ g.IsLinkedAt r c r (c + 1) <;>
  by_cases h3 : 0 < c ∧ g.IsLinkedAt r c r (c - 1) <;>
  by_cases h4 : r < g.height - 1 ∧ g.IsLinkedAt r c (r + 1) c <;>
  simp [northBit, h1, h2, h3, h4]

theorem eastBit_cellToByte (g : MaskedGrid) (r c : Nat)
    (hmem : (r, c) ∈ g.mask) :
    eastBit (g.cellToByte r c) = true ↔
      c < g.width - 1 ∧ g.IsLinkedAt r c r (c + 1) := by
  unfold MaskedGrid.cellToByte
  rw [if_pos hmem]
  by_cases h1 : 0 < r ∧ g.IsLinkedAt r c (r - 1) c <;>
  by_cases h2 : c < g.width - 1 ∧ g.IsLinkedAt r c r (c + 1) <;>
  by_cases h3 : 0 < c ∧ g.IsLinkedAt r c r (c - 1) <;>
  by_cases h4 : r < g.height - 1 ∧ g.IsLinkedAt r c (r + 1) c <;>
  simp [eastBit, h1, h2, h3, h4]

theorem westBit_cellToByte (g : MaskedGrid) (r c : Nat)
    (hmem : (r, c) ∈ g.mask) :
    westBit (g.cellToByte r c) = true ↔ 0 < c ∧ g.IsLinkedAt r c r (c - 1) := by
  unfold MaskedGrid.cellToByte
  rw [if_pos hmem]
  by_cases h1 : 0 < r ∧ g.IsLinkedAt r c (r - 1) c <;>
  by_cases h2 : c < g.width - 1 ∧ g.IsLinkedAt r c r (c + 1) <;>
  by_cases h3 : 0 < c ∧ g.IsLinkedAt r c r (c - 1) <;>
  by_cases h4 : r < g.height - 1 ∧ g.IsLinkedAt r c (r + 1) c <;>
  simp [westBit, h1, h2, h3, h4]

theorem southBit_cellToByte (g : MaskedGrid) (r c : Nat)
    (hmem : (r, c) ∈ g.mask) :
    southBit (g.cellToByte r c) = true ↔
      r < g.height - 1 ∧ g.IsLinkedAt r c (r + 1) c := by
  unfold MaskedGrid.cellToByte
  rw [if_pos hmem]
  by_cases h1 : 0 < r ∧ g.IsLinkedAt r c (r - 1) c <;>
  by_cases h2 : c < g.width - 1 ∧ g.IsLinkedAt r c r (c + 1) <;>
  by_cases h3 : 0 < c ∧ g.IsLinkedAt r c r (c - 1) <;>
  by_cases h4 : r < g.height - 1 ∧ g.IsLinkedAt r c (r + 1) c <;>
  simp [southBit, h1, h2, h3, h4]

theorem cellToByte_of_not_mem (g : MaskedGrid) (r c : Nat)
    (hmem : (r, c) ∉ g.mask) : g.cellToByte r c = 0 := by
  unfold MaskedGrid.cellToByte
  rw [if_neg hmem]

theorem maskedGrid_ext {g1 g2 : MaskedGrid} (hw : g1.width = g2.width)
    (hh : g1.height = g2.height) (hm : g1.mask = g2.mask)
    (hl : g1.links = g2.links) : g1 = g2 := by
  cases g1
  cases g2
  simp_all

theorem mem_encodedNews {g : MaskedGrid} {r c b : Nat} :
    ((r, c), b) ∈ g.encodedNews ↔
      r < g.height ∧ c < g.width ∧ g.cellToByte r c = b ∧ b ≠ 0 := by
  unfold MaskedGrid.encodedNews
  rw [List.mem_filterMap]
  constructor
  · rintro ⟨a, ha, hif⟩
    by_cases h0 : g.cellToByte a.1 a.2 = 0
    · rw [if_pos h0] at hif
      exact Option.noConfusion hif
    · rw [if_neg h0] at hif
      have heq := Option.some_inj.mp hif
      have ha1 : a = (r, c) := congrArg Prod.fst heq
      have hb : g.cellToByte a.1 a.2 = b := congrArg Prod.snd heq
      rw [ha1] at ha hb h0
      rcases mem_rowMajorCoords.mp ha with ⟨h1, h2⟩
      exact ⟨h1, h2, hb, hb ▸ h0⟩
  · rintro ⟨h1, h2, hbyte, hb0⟩
    refine ⟨(r, c), mem_rowMajorCoords.mpr ⟨h1, h2⟩, ?_⟩
    rw [if_neg (by rw [hbyte]; exact hb0), hbyte]

theorem nodup_rowMajorCoords (w h : Nat) : (rowMajorCoords w h).Nodup := by
  induction h with
  | zero => simp [rowMajorCoords]
  | succ n ih =>
    unfold rowMajorCoords at ih ⊢
    rw [List.range_succ, List.flatMap_append]
    refine List.Nodup.append ih ?_ ?_
    · simp only [List.flatMap_cons, List.flatMap_nil, List.append_nil]
      exact List.Nodup.map (fun c1 c2 hcc => (Prod.mk.injEq _ _ _ _ ▸ hcc).2)
        (List.nodup_range w)
    · intro a ha1 ha2
      obtain ⟨r, c⟩ := a
      rcases mem_rowMajorCoords.mp ha1 with ⟨hr, -⟩
      simp only [List.flatMap_cons, List.flatMap_nil, List.append_nil,
        List.mem_map, List.mem_range, Prod.mk.injEq] at ha2
      rcases ha2 with ⟨col, -, hrn, -⟩
      omega

theorem nodup_keys_encodedNews (g : MaskedGrid) :
    (g.encodedNews.map (·.1)).Nodup := by
  unfold MaskedGrid.encodedNews
  rw [List.map_filterMap]
  refine List.Nodup.filterMap ?_ (nodup_rowMajorCoords g.width g.height)
  intro a a' rc hrc hrc'
  by_cases h0 : g.cellToByte a.1 a.2 = 0
  · rw [if_pos h0] at hrc
    simp at hrc
  · rw [if_neg h0] at hrc
    by_cases h0' : g.cellToByte a'.1 a'.2 = 0
    · rw [if_pos h0'] at hrc'
      simp at hrc'
    · rw [if_neg h0'] at hrc'
      have h1 : a = rc := by simpa using hrc
      have h2 : a' = rc := by simpa using hrc'
      rw [h1, h2]

theorem newsLookup_eq_some_of_mem {ng : NewsGrid}
    (hnd : (ng.map (·.1)).Nodup) {c : Nat × Nat} {b : Nat}
    (hmem : (c, b) ∈ ng) : newsLookup ng c = some b := by
  induction ng with
  | nil => cases hmem
  | cons e tl ih =>
    rw [List.map_cons, List.nodup_cons] at hnd
    unfold newsLookup
    by_cases hec : e.1 = c
    · rw [List.find?_cons_of_pos _ (by simp [hec])]
      rcases List.mem_cons.mp hmem with heq | htl
      · rw [← heq]
        rfl
      · exact absurd (hec ▸ List.mem_map.mpr ⟨(c, b), htl, rfl⟩) hnd.1
    · rw [List.find?_cons_of_neg _ (by simp [hec])]
      rcases List.mem_cons.mp hmem with heq | htl
      · exact absurd (congrArg Prod.fst heq.symm) hec
      · exact ih hnd.2 htl

theorem cellToByte_ne_zero (g : MaskedGrid)
    (hbound : ∀ rc ∈ g.mask, rc.1 < g.height ∧ rc.2 < g.width)
    (hadjl : ∀ p ∈ g.links, g.AdjacentAt p.1 p.2)
    {r c : Nat} {o : Nat × Nat}
    (hpl : ((r, c), o) ∈ g.links) : g.cellToByte r c ≠ 0 := by
  obtain ⟨o1, o2⟩ := o
  rcases hadjl _ hpl with ⟨hm1, hm2, hcadj⟩
  dsimp only at hm1 hm2 hcadj
  intro h0
  rcases hcadj with ⟨heq, he | hw⟩ | ⟨heq, hs | hn⟩
  · subst heq
    subst he
    have hcond : c < g.width - 1 := by
      have := (hbound _ hm2).2
      omega
    have := (eastBit_cellToByte g r c hm1).mpr ⟨hcond, hm1, hm2, hpl⟩
    rw [h0] at this
    simp [eastBit] at this
  · subst heq
    dsimp only at hm2 hpl hw
    subst hw
    have hlk : g.IsLinkedAt r (o2 + 1) r (o2 + 1 - 1) := by
      rw [Nat.add_sub_cancel]
      exact ⟨hm1, hm2, hpl⟩
    have := (westBit_cellToByte g r (o2 + 1) hm1).mpr ⟨by omega, hlk⟩
    rw [h0] at this
    simp [westBit] at this
  · subst heq
    subst hs
    have hcond : r < g.height - 1 := by
      have := (hbound _ hm2).1
      omega
    have := (southBit_cellToByte g r c hm1).mpr ⟨hcond, hm1, hm2, hpl⟩
    rw [h0] at this
    simp [southBit] at this
  · subst heq
    dsimp only at hm2 hpl hn
    subst hn
    have hlk : g.IsLinkedAt (o1 + 1) c (o1 + 1 - 1) c := by
      rw [Nat.add_sub_cancel]
      exact ⟨hm1, hm2, hpl⟩
    have := (northBit_cellToByte g (o1 + 1) c hm1).mpr ⟨by omega, hlk⟩
    rw [h0] at this
    simp [northBit] at this

theorem mask_of_encodedNews {g : MaskedGrid} {r c b : Nat}
    (he : ((r, c), b) ∈ g.encodedNews) : (r, c) ∈ g.mask := by
  rcases mem_encodedNews.mp he with ⟨-, -, hbyte, hb0⟩
  by_contra hnm
  exact hb0 (hbyte ▸ cellToByte_of_not_mem g r c hnm)

theorem validateNewsGrid_writeMaze (g : MaskedGrid)
    (hbound : ∀ rc ∈ g.mask, rc.1 < g.height ∧ rc.2 < g.width)
    (hsym : ∀ p ∈ g.links, (p.2, p.1) ∈ g.links)
    (hadjl : ∀ p ∈ g.links, g.AdjacentAt p.1 p.2) :
    validateNewsGrid g.encodedNews = none := by
  unfold validateNewsGrid
  rw [List.findSome?_eq_none_iff]
  intro e he
  obtain ⟨⟨r, c⟩, b⟩ := e
  rw [validateEntry_eq_none_iff]
  obtain ⟨hrh, hcw, hbyte, hb0⟩ := mem_encodedNews.mp he
  have hmem : (r, c) ∈ g.mask := mask_of_encodedNews he
  refine ⟨?_, ?_, ?_, ?_⟩
  · intro hnb
    rw [← hbyte] at hnb
    rcases (northBit_cellToByte g r c hmem).mp hnb with ⟨hr0, hm1, hm2, hpl⟩
    refine ⟨by omega, g.cellToByte (r - 1) c, ?_, ?_⟩
    · refine newsLookup_eq_some_of_mem (nodup_keys_encodedNews g)
        (mem_encodedNews.mpr ⟨(hbound _ hm2).1, (hbound _ hm2).2, rfl, ?_⟩)
      exact cellToByte_ne_zero g hbound hadjl (hsym _ hpl)
    · rw [southBit_cellToByte g (r - 1) c hm2]
      refine ⟨by have := (hbound _ hm1).1; omega, ?_⟩
      have hr : r - 1 + 1 = r := by omega
      rw [hr]
      exact ⟨hm2, hm1, hsym _ hpl⟩
  · intro hnb
    rw [← hbyte] at hnb
    rcases (eastBit_cellToByte g r c hmem).mp hnb with ⟨hcond, hm1, hm2, hpl⟩
    refine ⟨g.cellToByte r (c + 1), ?_, ?_⟩
    · refine newsLookup_eq_some_of_mem (nodup_keys_encodedNews g)
        (mem_encodedNews.mpr ⟨(hbound _ hm2).1, (hbound _ hm2).2, rfl, ?_⟩)
      exact cellToByte_ne_zero g hbound hadjl (hsym _ hpl)
    · rw [westBit_cellToByte g r (c + 1) hm2]
      refine ⟨by omega, ?_⟩
      rw [Nat.add_sub_cancel]
      exact ⟨hm2, hm1, hsym _ hpl⟩
  · intro hnb
    rw [← hbyte] at hnb
    rcases (westBit_cellToByte g r c hmem).mp hnb with ⟨hc0, hm1, hm2, hpl⟩
    refine ⟨by omega, g.cellToByte r (c - 1), ?_, ?_⟩
    · refine newsLookup_eq_some_of_mem (nodup_keys_encodedNews g)
        (mem_encodedNews.mpr ⟨(hbound _ hm2).1, (hbound _ hm2).2, rfl, ?_⟩)
      exact cellToByte_ne_zero g hbound hadjl (hsym _ hpl)
    · rw [eastBit_cellToByte g r (c - 1) hm2]
      refine ⟨by have := (hbound _ hm1).2; omega, ?_⟩
      have hc : c - 1 + 1 = c := by omega
      rw [hc]
      exact ⟨hm2, hm1, hsym _ hpl⟩
  · intro hnb
    rw [← hbyte] at hnb
    rcases (southBit_cellToByte g r c hmem).mp hnb with ⟨hcond, hm1, hm2, hpl⟩
    refine ⟨g.cellToByte (r + 1) c, ?_, ?_⟩
    · refine newsLookup_eq_some_of_mem (nodup_keys_encodedNews g)
        (mem_encodedNews.mpr ⟨(hbound _ hm2).1, (hbound _ hm2).2, rfl, ?_⟩)
      exact cellToByte_ne_zero g hbound hadjl (hsym _ hpl)
    · rw [northBit_cellToByte g (r + 1) c hm2]
      refine ⟨by omega, ?_⟩
      rw [Nat.add_sub_cancel]
      exact ⟨hm2, hm1, hsym _ hpl⟩

theorem keys_encodedNews (g : MaskedGrid)
    (hbound : ∀ rc ∈ g.mask, rc.1 < g.height ∧ rc.2 < g.width)
    (hadjl : ∀ p ∈ g.links, g.AdjacentAt p.1 p.2)
    (hlinkout : ∀ rc ∈ g.mask, ∃ o, (rc, o) ∈ g.links) :
    ((g.encodedNews.map (·.1)).toFinset : Finset (Nat × Nat)) = g.mask := by
  ext rc
  obtain ⟨r, c⟩ := rc
  simp only [List.mem_toFinset, List.mem_map]
  constructor
  · rintro ⟨e, he, hfst⟩
    obtain ⟨⟨r', c'⟩, b⟩ := e
    have h1 : r' = r := congrArg Prod.fst hfst
    have h2 : c' = c := congrArg Prod.snd hfst
    subst h1
    subst h2
    exact mask_of_encodedNews he
  · intro hmem
    obtain ⟨o, ho⟩ := hlinkout _ hmem
    exact ⟨((r, c), g.cellToByte r c),
      mem_encodedNews.mpr ⟨(hbound _ hmem).1, (hbound _ hmem).2, rfl,
        cellToByte_ne_zero g hbound hadjl ho⟩, rfl⟩

theorem new_encodedNews (g : MaskedGrid)
    (hbound : ∀ rc ∈ g.mask, rc.1 < g.height ∧ rc.2 < g.width)
    (hadjl : ∀ p ∈ g.links, g.AdjacentAt p.1 p.2)
    (hlinkout : ∀ rc ∈ g.mask, ∃ o, (rc, o) ∈ g.links)
    (hconn : maskConnectedB g.mask = true) :
    MaskedGrid.new g.width g.height
      (fun r c => decide ((r, c) ∈ (g.encodedNews.map (·.1)).toFinset)) =
      some ⟨g.width, g.height, g.mask, ∅⟩ := by
  have hcells : (Finset.range g.height ×ˢ Finset.range g.width).filter
      (fun rc => decide ((rc.1, rc.2) ∈ (g.encodedNews.map (·.1)).toFinset)) =
      g.mask := by
    rw [keys_encodedNews g hbound hadjl hlinkout]
    exact filter_product_mem_eq g.mask hbound
  simp only [MaskedGrid.new]
  rw [hcells, if_pos hconn]

theorem mem_foldr_entryLinkPairs (l : NewsGrid)
    (x : (Nat × Nat) × (Nat × Nat)) :
    x ∈ l.foldr (fun e acc => entryLinkPairs e ∪ acc) (∅ : Finset _) ↔
      ∃ e ∈ l, x ∈ entryLinkPairs e := by
  induction l with
  | nil => simp
  | cons e tl ih =>
    simp only [List.foldr_cons, Finset.mem_union, ih, List.mem_cons]
    constructor
    · rintro (hx | ⟨e', he', hx⟩)
      · exact ⟨e, Or.inl rfl, hx⟩
      · exact ⟨e', Or.inr he', hx⟩
    · rintro ⟨e', rfl | he', hx⟩
      · exact Or.inl hx
      · exact Or.inr ⟨e', he', hx⟩

theorem foldr_entryLinkPairs_encodedNews (g : MaskedGrid)
    (hbound : ∀ rc ∈ g.mask, rc.1 < g.height ∧ rc.2 < g.width)
    (hsym : ∀ p ∈ g.links, (p.2, p.1) ∈ g.links)
    (hadjl : ∀ p ∈ g.links, g.AdjacentAt p.1 p.2) :
    g.encodedNews.foldr (fun e acc => entryLinkPairs e ∪ acc) ∅ = g.links := by
  ext x
  rw [mem_foldr_entryLinkPairs]
  constructor
  · rintro ⟨⟨⟨r, c⟩, b⟩, he, hx⟩
    obtain ⟨hrh, hcw, hbyte, hb0⟩ := mem_encodedNews.mp he
    have hmem : (r, c) ∈ g.mask := mask_of_encodedNews he
    unfold entryLinkPairs at hx
    dsimp only at hx
    simp only [Finset.mem_union] at hx
    rcases hx with ((hx | hx) | hx) | hx
    · by_cases hbit : northBit b = true
      · rw [if_pos hbit] at hx
        rw [← hbyte] at hbit
        rcases (northBit_cellToByte g r c hmem).mp hbit with ⟨-, -, -, hpl⟩
        rcases Finset.mem_insert.mp hx with rfl | hx
        · exact hpl
        · rw [Finset.mem_singleton.mp hx]
          exact hsym _ hpl
      · rw [if_neg hbit] at hx
        exact absurd hx (Finset.not_mem_empty x)
    · by_cases hbit : eastBit b = true
      · rw [if_pos hbit] at hx
        rw [← hbyte] at hbit
        rcases (eastBit_cellToByte g r c hmem).mp hbit with ⟨-, -, -, hpl⟩
        rcases Finset.mem_insert.mp hx with rfl | hx
        · exact hpl
        · rw [Finset.mem_singleton.mp hx]
          exact hsym _ hpl
      · rw [if_neg hbit] at hx
        exact absurd hx (Finset.not_mem_empty x)
    · by_cases hbit : westBit b = true
      · rw [if_pos hbit] at hx
        rw [← hbyte] at hbit
        rcases (westBit_cellToByte g r c hmem).mp hbit with ⟨-, -, -, hpl⟩
        rcases Finset.mem_insert.mp hx with rfl | hx
        · exact hpl
        · rw [Finset.mem_singleton.mp hx]
          exact hsym _ hpl
      · rw [if_neg hbit] at hx
        exact absurd hx (Finset.not_mem_empty x)
    · by_cases hbit : southBit b = true
      · rw [if_pos hbit] at hx
        rw [← hbyte] at hbit
        rcases (southBit_cellToByte g r c hmem).mp hbit with ⟨-, -, -, hpl⟩
        rcases Finset.mem_insert.mp hx with rfl | hx
        · exact hpl
        · rw [Finset.mem_singleton.mp hx]
          exact hsym _ hpl
      · rw [if_neg hbit] at hx
        exact absurd hx (Finset.not_mem_empty x)
  · intro hx
    obtain ⟨⟨r, c⟩, o⟩ := x
    rcases hadjl _ hx with ⟨hm1, hm2, hcadj⟩
    dsimp only at hm1 hm2 hcadj
    have hb0 : g.cellToByte r c ≠ 0 := cellToByte_ne_zero g hbound hadjl hx
    refine ⟨((r, c), g.cellToByte r c),
      mem_encodedNews.mpr ⟨(hbound _ hm1).1, (hbound _ hm1).2, rfl, hb0⟩, ?_⟩
    unfold entryLinkPairs
    dsimp only
    simp only [Finset.mem_union]
    obtain ⟨o1, o2⟩ := o
    rcases hcadj with ⟨heq, he | hw⟩ | ⟨heq, hs | hn⟩
    · subst heq
      subst he
      refine Or.inl (Or.inl (Or.inr ?_))
      have hcond : c < g.width - 1 := by
        have := (hbound _ hm2).2
        omega
      rw [if_pos ((eastBit_cellToByte g r c hm1).mpr ⟨hcond, hm1, hm2, hx⟩)]
      exact Finset.mem_insert_self _ _
    · subst heq
      dsimp only at hm2 hx hw
      subst hw
      refine Or.inl (Or.inr ?_)
      have hlk : g.IsLinkedAt r (o2 + 1) r (o2 + 1 - 1) := by
        rw [Nat.add_sub_cancel]
        exact ⟨hm1, hm2, hx⟩
      rw [if_pos ((westBit_cellToByte g r (o2 + 1) hm1).mpr ⟨by omega, hlk⟩)]
      rw [Nat.add_sub_cancel]
      exact Finset.mem_insert_self _ _
    · subst heq
      subst hs
      refine Or.inr ?_
      have hcond : r < g.height - 1 := by
        have := (hbound _ hm2).1
        omega
      rw [if_pos ((southBit_cellToByte g r c hm1).mpr ⟨hcond, hm1, hm2, hx⟩)]
      exact Finset.mem_insert_self _ _
    · subst heq
      dsimp only at hm2 hx hn
      subst hn
      refine Or.inl (Or.inl (Or.inl ?_))
      have hlk : g.IsLinkedAt (o1 + 1) c (o1 + 1 - 1) c := by
        rw [Nat.add_sub_cancel]
        exact ⟨hm1, hm2, hx⟩
      rw [if_pos ((northBit_cellToByte g (o1 + 1) c hm1).mpr ⟨by omega, hlk⟩)]
      rw [Nat.add_sub_cancel]
      exact Finset.mem_insert_self _ _

end CodecLemmas

/-- C3 counterexample: the 24-byte all-zero stream declares a `0 × 0`
maze; the header, body decode and validation all succeed, yet
`read_maze` panics — `MaskedGrid::new`'s connectivity `assert!` fires on
the empty decoded mask — instead of returning a typed error. -/
theorem C3_counterexample : readMaze (List.replicate 24 0) = none := by rfl

/-- C3: the spec claims `read_maze` always returns `Ok(grid)` or a typed
`GridReadError` and never panics.  Corrected: `read_maze` panics exactly
when the header parses, the body decodes, and validation passes, but the
decoded mask is empty or not adjacently connected, so the connectivity
`assert!` inside the `MaskedGrid::new` call fires; on every other input
it is total (the relink loop's `link_cells` panics are unreachable after
a passing validation). -/
theorem C3_read_maze (bytes : List Nat) :
    readMaze bytes = none ↔
      ∃ w h body ng, readHeader bytes = some (w, h, body) ∧
        decodeBody w h body = .ok ng ∧
        validateNewsGrid ng = none ∧
        MaskedGrid.new w h
          (fun r c => decide ((r, c) ∈ (ng.map (·.1)).toFinset)) = none :=
  readMaze_none_iff bytes

/-- C7: for every masked grid whose cells all lie inside the declared
`width × height` rectangle, whose mask is adjacently connected, whose
link set is symmetric and joins only grid-adjacent masked cells, and in
which every masked cell carries at least one link (all invariants of a
grid produced by a generation algorithm), decoding the `write_maze`
byte stream with `read_maze` succeeds and returns a grid equal to the
original — in particular with exactly the same linked coordinate
pairs.  The `2^32` bounds reflect the `as u32` header casts. -/
theorem C7_round_trip (g : MaskedGrid) (start finish : Nat × Nat)
    (hbound : ∀ rc ∈ g.mask, rc.1 < g.height ∧ rc.2 < g.width)
    (hconn : maskConnectedB g.mask = true)
    (hsym : ∀ p ∈ g.links, (p.2, p.1) ∈ g.links)
    (hadjl : ∀ p ∈ g.links, g.AdjacentAt p.1 p.2)
    (hlinkout : ∀ rc ∈ g.mask, ∃ o, (rc, o) ∈ g.links)
    (hw32 : g.width < 2 ^ 32) (hh32 : g.height < 2 ^ 32) :
    readMaze (g.writeMaze start finish) = some (.ok g) := by
  unfold readMaze
  rw [readHeader_writeMaze g start finish hw32 hh32]
  dsimp only
  rw [decodeBody_writeMaze g]
  dsimp only
  rw [validateNewsGrid_writeMaze g hbound hsym hadjl]
  dsimp only
  rw [new_encodedNews g hbound hadjl hlinkout hconn]
  dsimp only
  have hmask0 : (⟨g.width, g.height, g.mask, ∅⟩ : MaskedGrid).mask =
      (g.encodedNews.map (·.1)).toFinset :=
    (keys_encodedNews g hbound hadjl hlinkout).symm
  have hok := entryOK_of_validated
    (validateNewsGrid_eq_none (validateNewsGrid_writeMaze g hbound hsym hadjl))
    hmask0
  rcases foldlM_applyEntryLinks g.encodedNews ⟨g.width, g.height, g.mask, ∅⟩
    hok with ⟨gfin, hfold, hwf, hhf, hmf, hlf⟩
  rw [hfold]
  refine congrArg some (congrArg Except.ok (maskedGrid_ext hwf hhf hmf ?_))
  rw [hlf]
  show (∅ : Finset ((Nat × Nat) × (Nat × Nat))) ∪ _ = g.links
  rw [Finset.empty_union]
  exact foldr_entryLinkPairs_encodedNews g hbound hsym hadjl

/-- Witness for C7 at a concrete grid: the `2 × 1` vertical domino with
its single bidirectional link. -/
theorem C7_round_trip_witness :
    readMaze ((⟨1, 2, {(0, 0), (1, 0)},
        {((0, 0), (1, 0)), ((1, 0), (0, 0))}⟩ :
      MaskedGrid).writeMaze (0, 0) (1, 0)) =
      some (.ok ⟨1, 2, {(0, 0), (1, 0)},
        {((0, 0), (1, 0)), ((1, 0), (0, 0))}⟩) :=
  C7_round_trip _ (0, 0) (1, 0) (by decide) (by decide) (by decide)
    (by decide)
    (by
      intro rc hrc
      rcases Finset.mem_insert.mp hrc with rfl | hrc
      · exact ⟨(1, 0), by decide⟩
      · rw [Finset.mem_singleton.mp hrc]
        exact ⟨(0, 0), by decide⟩)
    (by norm_num) (by norm_num)

/-! # Claim C1: the generation algorithms -/

section C1Lemmas

variable {T U : Type _}

theorem whileFuel_done_inv {σ : Type _} (cond : σ → Bool) (step : σ → Option σ)
    (P : σ → Prop)
    (hstep : ∀ st, P st → cond st = true → ∀ st', step st = some st' → P st') :
    ∀ fuel st st', P st → whileFuel cond step fuel st = .done st' →
      P st' ∧ cond st' = false := by
  intro fuel
  induction fuel with
  | zero =>
    intro st st' hP hrun
    unfold whileFuel at hrun
    by_cases hc : cond st = true
    · rw [if_pos hc] at hrun
      exact RunResult.noConfusion hrun
    · rw [if_neg hc] at hrun
      rw [← RunResult.done.inj hrun]
      exact ⟨hP, Bool.eq_false_iff.mpr hc⟩
  | succ n ih =>
    intro st st' hP hrun
    unfold whileFuel at hrun
    by_cases hc : cond st = true
    · rw [if_pos hc] at hrun
      cases hs : step st with
      | none => rw [hs] at hrun; exact RunResult.noConfusion hrun
      | some st2 =>
        rw [hs] at hrun
        exact ih st2 st' (hstep st hP hc st2 hs) hrun
    · rw [if_neg hc] at hrun
      rw [← RunResult.done.inj hrun]
      exact ⟨hP, Bool.eq_false_iff.mpr hc⟩

theorem whileFuel_done_of_measure {σ : Type _} (cond : σ → Bool)
    (step : σ → Option σ) (P : σ → Prop) (m : σ → Nat)
    (hstep : ∀ st, P st → cond st = true →
      ∃ st', step st = some st' ∧ P st' ∧ m st' < m st) :
    ∀ fuel st, P st → m st < fuel →
      ∃ st', whileFuel cond step fuel st = .done st' ∧ P st' ∧
        cond st' = false := by
  intro fuel
  induction fuel with
  | zero =>
    intro st _ hm
    exact absurd hm (Nat.not_lt_zero _)
  | succ n ih =>
    intro st hP hm
    by_cases hc : cond st = true
    · rcases hstep st hP hc with ⟨st', hsome, hP', hlt⟩
      unfold whileFuel
      rw [if_pos hc, hsome]
      exact ih st' hP' (by omega)
    · refine ⟨st, ?_, hP, Bool.eq_false_iff.mpr hc⟩
      unfold whileFuel
      rw [if_neg hc]

theorem whileFuel_fuelOut_forever {σ : Type _} (cond : σ → Bool)
    (step : σ → Option σ) (P : σ → Prop)
    (hstep : ∀ st, P st → cond st = true ∧ ∃ st', step st = some st' ∧ P st') :
    ∀ fuel st, P st → whileFuel cond step fuel st = .fuelOut := by
  intro fuel
  induction fuel with
  | zero =>
    intro st hP
    unfold whileFuel
    rw [if_pos (hstep st hP).1]
  | succ n ih =>
    intro st hP
    rcases hstep st hP with ⟨hc, st', hsome, hP'⟩
    unfold whileFuel
    rw [if_pos hc, hsome]
    exact ih st' hP'

theorem Pool.lt_size_of_node? {p : Pool T} {i : Nat} {nd : Node T}
    (h : p.node? i = some nd) : i < p.size := by
  by_contra hge
  rw [Pool.node?_eq_none_of_ge (Nat.le_of_not_lt hge)] at h
  exact Option.noConfusion h

theorem Pool.neighborhoodOf_updateLinks (p : Pool T) (i j : Nat)
    (L : Node T → Finset Nat) :
    (p.updateNode i (fun n => { n with links := L n })).neighborhoodOf j =
      p.neighborhoodOf j := by
  unfold Pool.neighborhoodOf
  rw [Pool.node?_updateNode]
  by_cases h : j = i
  · rw [if_pos h]
    cases p.node? j <;> rfl
  · rw [if_neg h]

theorem Pool.passagesOf_updateLinks_self {p : Pool T} {i : Nat} {nd : Node T}
    (h : p.node? i = some nd) (L : Node T → Finset Nat) :
    (p.updateNode i (fun n => { n with links := L n })).passagesOf i = L nd := by
  unfold Pool.passagesOf
  rw [Pool.node?_updateNode, if_pos rfl, h]
  rfl

theorem Pool.passagesOf_updateLinks_other (p : Pool T) {i j : Nat} (hne : j ≠ i)
    (L : Node T → Finset Nat) :
    (p.updateNode i (fun n => { n with links := L n })).passagesOf j =
      p.passagesOf j := by
  unfold Pool.passagesOf
  rw [Pool.node?_updateNode, if_neg hne]

theorem Pool.linkCells_true_succeeds {p : Pool T} {a b : Nat}
    (h1 : b ∈ p.neighborhoodOf a) (h2 : a ∈ p.neighborhoodOf b) :
    ∃ p', p.linkCells a b true = some p' := by
  have h2' : a ∈ (p.updateNode a
      (fun n => { n with links := insert b n.links })).neighborhoodOf b := by
    rw [Pool.neighborhoodOf_updateLinks]
    exact h2
  have hbig : p.linkCellsRaw a b true =
      ((p.updateNode a (fun n => { n with links := insert b n.links })).updateNode
        b (fun n => { n with links := insert a n.links }), false) := by
    unfold Pool.linkCellsRaw
    rw [if_pos h1, if_pos rfl, if_pos h2']
  refine ⟨(p.updateNode a (fun n => { n with links := insert b n.links })).updateNode
    b (fun n => { n with links := insert a n.links }), ?_⟩
  unfold Pool.linkCells
  rw [hbig]
  dsimp only
  rw [if_neg (by simp)]

theorem Pool.linkCells_true_char {p p' : Pool T} {a b : Nat} (hne : a ≠ b)
    (h : p.linkCells a b true = some p') :
    b ∈ p.neighborhoodOf a ∧ a ∈ p.neighborhoodOf b ∧
    a < p.size ∧ b < p.size ∧
    p'.size = p.size ∧
    (∀ j, p'.neighborhoodOf j = p.neighborhoodOf j) ∧
    p'.passagesOf a = insert b (p.passagesOf a) ∧
    p'.passagesOf b = insert a (p.passagesOf b) ∧
    (∀ j, j ≠ a → j ≠ b → p'.passagesOf j = p.passagesOf j) := by
  have hnb : (p.updateNode a
      (fun n => { n with links := insert b n.links })).neighborhoodOf b =
      p.neighborhoodOf b := Pool.neighborhoodOf_updateLinks p a b _
  by_cases h1 : b ∈ p.neighborhoodOf a
  · by_cases h2 : a ∈ p.neighborhoodOf b
    · have hbig : p.linkCellsRaw a b true =
          ((p.updateNode a (fun n => { n with links := insert b n.links })).updateNode
            b (fun n => { n with links := insert a n.links }), false) := by
        unfold Pool.linkCellsRaw
        rw [if_pos h1, if_pos rfl, if_pos (hnb ▸ h2)]
      unfold Pool.linkCells at h
      rw [hbig] at h
      dsimp only at h
      rw [if_neg (by simp)] at h
      have hp' := (Option.some_inj.mp h).symm
      rcases Pool.mem_neighborhoodOf_iff.mp h1 with ⟨nda, hnda, -⟩
      rcases Pool.mem_neighborhoodOf_iff.mp h2 with ⟨ndb, hndb, -⟩
      have halt : a < p.size := Pool.lt_size_of_node? hnda
      have hblt : b < p.size := Pool.lt_size_of_node? hndb
      refine ⟨h1, h2, halt, hblt, ?_, ?_, ?_, ?_, ?_⟩
      · rw [hp', Pool.size_updateNode, Pool.size_updateNode]
      · intro j
        rw [hp', Pool.neighborhoodOf_updateLinks, Pool.neighborhoodOf_updateLinks]
      · rw [hp', Pool.passagesOf_updateLinks_other _ hne,
          Pool.passagesOf_updateLinks_self hnda,
          Pool.passagesOf_eq_of_node? hnda]
      · have hqb : (p.updateNode a
            (fun n => { n with links := insert b n.links })).node? b =
            some ndb := by
          rw [Pool.node?_updateNode, if_neg (fun hba => hne hba.symm)]
          exact hndb
        rw [hp', Pool.passagesOf_updateLinks_self hqb,
          Pool.passagesOf_eq_of_node? hndb]
      · intro j hja hjb
        rw [hp', Pool.passagesOf_updateLinks_other _ hjb,
          Pool.passagesOf_updateLinks_other _ hja]
    · have hbig : p.linkCellsRaw a b true =
          (p.updateNode a (fun n => { n with links := insert b n.links }),
            true) := by
        unfold Pool.linkCellsRaw
        rw [if_pos h1, if_pos rfl, if_neg (hnb ▸ h2)]
      unfold Pool.linkCells at h
      rw [hbig] at h
      dsimp only at h
      rw [if_pos rfl] at h
      exact Option.noConfusion h
  · have hbig : p.linkCellsRaw a b true = (p, true) := by
      unfold Pool.linkCellsRaw
      rw [if_neg h1]
    unfold Pool.linkCells at h
    rw [hbig] at h
    dsimp only at h
    rw [if_pos rfl] at h
    exact Option.noConfusion h

theorem Pool.linkAdj_symm {p : Pool T} {i j : Nat} (h : p.linkAdj i j) :
    p.linkAdj j i :=
  Or.symm h

theorem Pool.linkReach_mono {p : Pool T} {q : Pool U}
    (hsub : ∀ x, p.passagesOf x ⊆ q.passagesOf x) {i j : Nat}
    (h : p.LinkReach i j) : q.LinkReach i j := by
  induction h with
  | refl => exact Relation.ReflTransGen.refl
  | @tail b c hab hbc ih => exact Relation.ReflTransGen.tail ih (hsub _ hbc)

theorem Pool.mem_linkEdges {p : Pool T} {i j : Nat} :
    (i, j) ∈ p.linkEdges ↔ i < p.size ∧ j < p.size ∧ i < j ∧
      (j ∈ p.passagesOf i ∨ i ∈ p.passagesOf j) := by
  unfold Pool.linkEdges
  simp only [Finset.mem_filter, Finset.mem_product, Finset.mem_range]
  tauto

theorem spanningTreeOn_congr {p : Pool T} {q : Pool U} (hsize : q.size = p.size)
    (hpass : ∀ i, q.passagesOf i = p.passagesOf i) {S : Finset Nat}
    (hst : SpanningTreeOn p S) : SpanningTreeOn q S := by
  obtain ⟨hout, hsymm, hreach, hcard, hbound, hnoself, hacyc⟩ := hst
  have hadj : ∀ x y, q.linkAdj x y ↔ p.linkAdj x y := by
    intro x y
    unfold Pool.linkAdj
    rw [hpass, hpass]
  refine ⟨?_, ?_, ?_, ?_, ?_, ?_, ?_⟩
  · intro i hi
    rw [hpass]
    exact hout i hi
  · intro i j hj
    rw [hpass] at hj ⊢
    exact hsymm i j hj
  · intro i hi j hj
    exact Pool.linkReach_mono (fun x => (hpass x).symm ▸ Finset.Subset.refl _)
      (hreach i hi j hj)
  · have hedges : q.linkEdges = p.linkEdges := by
      ext x
      obtain ⟨i, j⟩ := x
      rw [Pool.mem_linkEdges, Pool.mem_linkEdges, hsize, hpass, hpass]
    rw [hedges]
    exact hcard
  · intro i hi
    rw [hsize]
    exact hbound i hi
  · intro i
    rw [hpass]
    exact hnoself i
  · intro l hcyc
    apply hacyc l
    cases l with
    | nil => exact hcyc.elim
    | cons a rest =>
      obtain ⟨hlen, hnd, hchain, hlast⟩ := hcyc
      exact ⟨hlen, hnd, List.Chain.imp (fun x y h => (hadj x y).mp h) hchain,
        (hadj _ _).mp hlast⟩

theorem spanningTreeOn_singleton {p : Pool T} {v : Nat} (hv : v < p.size)
    (hnl : ∀ i, p.passagesOf i = ∅) : SpanningTreeOn p {v} := by
  refine ⟨fun i _ => hnl i, ?_, ?_, ?_, ?_, ?_, ?_⟩
  · intro i j hj
    rw [hnl] at hj
    exact absurd hj (Finset.not_mem_empty _)
  · intro i hi j hj
    rw [Finset.mem_singleton.mp hi, Finset.mem_singleton.mp hj]
    exact Relation.ReflTransGen.refl
  · have hedges : p.linkEdges = ∅ := by
      ext x
      obtain ⟨i, j⟩ := x
      rw [Pool.mem_linkEdges]
      simp [hnl]
    rw [hedges]
    simp
  · intro i hi
    rw [Finset.mem_singleton.mp hi]
    exact hv
  · intro i
    rw [hnl]
    exact Finset.not_mem_empty _
  · intro l hcyc
    cases l with
    | nil => exact hcyc.elim
    | cons a rest =>
      obtain ⟨hlen, -, hchain, -⟩ := hcyc
      cases rest with
      | nil => simp at hlen
      | cons b tl =>
        cases hchain with
        | cons hab _ =>
          rcases hab with hmem | hmem <;>
            · rw [hnl] at hmem
              exact absurd hmem (Finset.not_mem_empty _)

theorem chain_transfer {α : Type _} {R S : α → α → Prop} :
    ∀ {a : α} {rest : List α},
      (∀ x ∈ a :: rest, ∀ y ∈ a :: rest, R x y → S x y) →
      List.Chain R a rest → List.Chain S a rest := by
  intro a rest
  induction rest generalizing a with
  | nil =>
    intro _ _
    exact List.Chain.nil
  | cons b tl ih =>
    intro h hc
    cases hc with
    | cons hab hbtl =>
      refine List.Chain.cons
        (h a (List.mem_cons_self _ _) b
          (List.mem_cons_of_mem _ (List.mem_cons_self _ _)) hab)
        (ih (fun x hx y hy hr => h x (List.mem_cons_of_mem _ hx) y
          (List.mem_cons_of_mem _ hy) hr) hbtl)

theorem isLinkCycle_two_neighbors {p : Pool T} {l : List Nat}
    (hc : p.IsLinkCycle l) {x : Nat} (hx : x ∈ l) :
    ∃ y z, y ≠ z ∧ p.linkAdj x y ∧ p.linkAdj x z := by
  cases l with
  | nil => exact hc.elim
  | cons a rest =>
    obtain ⟨hlen, hnd, hchain, hlast⟩ := hc
    have hch' : List.Chain' p.linkAdj (a :: rest) := hchain
    have hedge : ∀ (i : Nat) (hi : i + 1 < (a :: rest).length),
        p.linkAdj ((a :: rest).get ⟨i, by omega⟩) ((a :: rest).get ⟨i + 1, hi⟩) :=
      fun i hi => List.chain'_iff_get.mp hch' i (by omega)
    have hlast' : p.linkAdj
        ((a :: rest).get ⟨(a :: rest).length - 1, by simp⟩)
        ((a :: rest).get ⟨0, by simp⟩) := by
      have := List.getLast_eq_get (a :: rest) (List.cons_ne_nil a rest)
      rw [this] at hlast
      exact hlast
    rcases List.mem_iff_get.mp hx with ⟨⟨i, hilt⟩, hxi⟩
    by_cases hi0 : i = 0
    · subst hi0
      refine ⟨(a :: rest).get ⟨1, by omega⟩,
        (a :: rest).get ⟨(a :: rest).length - 1, by omega⟩, ?_, ?_, ?_⟩
      · intro heq
        have h12 := (List.Nodup.get_inj_iff hnd).mp heq
        simp only [Fin.mk.injEq] at h12
        omega
      · rw [← hxi]
        exact hedge 0 (by omega)
      · rw [← hxi]
        exact Pool.linkAdj_symm hlast'
    · by_cases hitop : i = (a :: rest).length - 1
      · subst hitop
        refine ⟨(a :: rest).get ⟨0, by omega⟩,
          (a :: rest).get ⟨(a :: rest).length - 1 - 1, by omega⟩, ?_, ?_, ?_⟩
        · intro heq
          have h12 := (List.Nodup.get_inj_iff hnd).mp heq
          simp only [Fin.mk.injEq] at h12
          omega
        · rw [← hxi]
          exact hlast'
        · rw [← hxi]
          have h2 := hedge ((a :: rest).length - 1 - 1) (by omega)
          have heq : (⟨(a :: rest).length - 1 - 1 + 1, by omega⟩ :
              Fin (a :: rest).length) = ⟨(a :: rest).length - 1, hilt⟩ :=
            Fin.ext (by dsimp only; omega)
          rw [heq] at h2
          exact Pool.linkAdj_symm h2
      · refine ⟨(a :: rest).get ⟨i + 1, by omega⟩,
          (a :: rest).get ⟨i - 1, by omega⟩, ?_, ?_, ?_⟩
        · intro heq
          have h12 := (List.Nodup.get_inj_iff hnd).mp heq
          simp only [Fin.mk.injEq] at h12
          omega
        · rw [← hxi]
          exact hedge i (by omega)
        · rw [← hxi]
          have h2 := hedge (i - 1) (by omega)
          have heq : (⟨i - 1 + 1, by omega⟩ : Fin (a :: rest).length) =
              ⟨i, hilt⟩ := Fin.ext (by dsimp only; omega)
          rw [heq] at h2
          exact Pool.linkAdj_symm h2

theorem spanningTree_extend {p : Pool T} {q : Pool U} {S : Finset Nat}
    {u v : Nat} (hst : SpanningTreeOn p S) (hu : u ∈ S) (hv : v ∉ S)
    (hvlt : v < p.size)
    (hqsize : q.size = p.size)
    (hqu : q.passagesOf u = insert v (p.passagesOf u))
    (hqv : q.passagesOf v = insert u (p.passagesOf v))
    (hqo : ∀ j, j ≠ u → j ≠ v → q.passagesOf j = p.passagesOf j) :
    SpanningTreeOn q (insert v S) := by
  obtain ⟨hout, hsymm, hreach, hcard, hbound, hnoself, hacyc⟩ := hst
  have huv : u ≠ v := fun h => hv (h ▸ hu)
  have hpv : p.passagesOf v = ∅ := hout v hv
  have hvnotp : ∀ x, v ∉ p.passagesOf x := by
    intro x hmem
    have := hsymm x v hmem
    rw [hpv] at this
    exact absurd this (Finset.not_mem_empty _)
  have hunotpv : u ∉ p.passagesOf v := by
    rw [hpv]
    exact Finset.not_mem_empty _
  have hqv' : q.passagesOf v = {u} := by
    rw [hqv, hpv]
    rfl
  have hqmem : ∀ x y, y ∈ q.passagesOf x ↔
      y ∈ p.passagesOf x ∨ (x = u ∧ y = v) ∨ (x = v ∧ y = u) := by
    intro x y
    by_cases hxu : x = u
    · subst hxu
      rw [hqu]
      simp only [Finset.mem_insert]
      constructor
      · rintro (rfl | hm)
        · exact Or.inr (Or.inl ⟨by simp, rfl⟩)
        · exact Or.inl hm
      · rintro (hm | ⟨-, rfl⟩ | ⟨hxv, -⟩)
        · exact Or.inr hm
        · exact Or.inl rfl
        · exact absurd hxv huv
    · by_cases hxv : x = v
      · subst hxv
        rw [hqv', Finset.mem_singleton]
        constructor
        · rintro rfl
          exact Or.inr (Or.inr ⟨by simp, by simp⟩)
        · rintro (hm | ⟨hxu', -⟩ | ⟨-, rfl⟩)
          · exact absurd hm (hpv ▸ Finset.not_mem_empty _)
          · exact absurd hxu' hxu
          · rfl
      · rw [hqo x hxu hxv]
        constructor
        · exact Or.inl
        · rintro (hm | ⟨hxu', -⟩ | ⟨hxv', -⟩)
          · exact hm
          · exact absurd hxu' hxu
          · exact absurd hxv' hxv
  have hadj : ∀ x y, q.linkAdj x y ↔
      p.linkAdj x y ∨ (x = u ∧ y = v) ∨ (x = v ∧ y = u) := by
    intro x y
    unfold Pool.linkAdj
    rw [hqmem, hqmem]
    tauto
  have hvadj : ∀ x, q.linkAdj v x → x = u := by
    intro x h
    rcases (hadj v x).mp h with hpa | ⟨hvu, -⟩ | ⟨-, rfl⟩
    · rcases hpa with hm | hm
      · exact absurd hm (hpv ▸ Finset.not_mem_empty _)
      · exact absurd hm (hvnotp x)
    · exact absurd hvu (fun h => huv h.symm)
    · rfl
  have hsub : ∀ x, p.passagesOf x ⊆ q.passagesOf x := by
    intro x y hy
    exact (hqmem x y).mpr (Or.inl hy)
  have hulq : u ∈ q.passagesOf v := by
    rw [hqv']
    exact Finset.mem_singleton_self u
  have hvuq : v ∈ q.passagesOf u := by
    rw [hqu]
    exact Finset.mem_insert_self v _
  refine ⟨?_, ?_, ?_, ?_, ?_, ?_, ?_⟩
  · intro i hi
    have hiv : i ≠ v := fun h => hi (h ▸ Finset.mem_insert_self v S)
    have hiS : i ∉ S := fun h => hi (Finset.mem_insert_of_mem h)
    have hiu : i ≠ u := fun h => hiS (h ▸ hu)
    rw [hqo i hiu hiv]
    exact hout i hiS
  · intro x y hy
    rcases (hqmem x y).mp hy with hm | ⟨rfl, rfl⟩ | ⟨rfl, rfl⟩
    · exact (hqmem y x).mpr (Or.inl (hsymm x y hm))
    · exact hulq
    · exact hvuq
  · intro i hi j hj
    rcases Finset.mem_insert.mp hi with rfl | hiS
    · rcases Finset.mem_insert.mp hj with rfl | hjS
      · exact Relation.ReflTransGen.refl
      · exact Relation.ReflTransGen.head hulq
          (Pool.linkReach_mono hsub (hreach u hu j hjS))
    · rcases Finset.mem_insert.mp hj with rfl | hjS
      · exact Relation.ReflTransGen.tail
          (Pool.linkReach_mono hsub (hreach i hiS u hu)) hvuq
      · exact Pool.linkReach_mono hsub (hreach i hiS j hjS)
  · have hult : u < p.size := hbound u hu
    have hedges : q.linkEdges =
        insert (if u < v then (u, v) else (v, u)) p.linkEdges := by
      ext x
      obtain ⟨i, j⟩ := x
      rw [Finset.mem_insert, Pool.mem_linkEdges, Pool.mem_linkEdges, hqsize]
      constructor
      · rintro ⟨hi, hj, hij, hm⟩
        have : (j ∈ p.passagesOf i ∨ i ∈ p.passagesOf j) ∨
            (i = u ∧ j = v) ∨ (i = v ∧ j = u) := by
          rcases hm with hm | hm
          · rcases (hqmem i j).mp hm with h' | h' | h'
            · exact Or.inl (Or.inl h')
            · exact Or.inr (Or.inl h')
            · exact Or.inr (Or.inr h')
          · rcases (hqmem j i).mp hm with h' | ⟨rfl, rfl⟩ | ⟨rfl, rfl⟩
            · exact Or.inl (Or.inr h')
            · exact Or.inr (Or.inr ⟨rfl, rfl⟩)
            · exact Or.inr (Or.inl ⟨rfl, rfl⟩)
        rcases this with hm' | ⟨rfl, rfl⟩ | ⟨rfl, rfl⟩
        · exact Or.inr ⟨hi, hj, hij, hm'⟩
        · rw [if_pos hij]
          exact Or.inl rfl
        · rw [if_neg (by omega)]
          exact Or.inl rfl
      · rintro (heq | ⟨hi, hj, hij, hm⟩)
        · by_cases huvlt : u < v
          · rw [if_pos huvlt] at heq
            obtain ⟨rfl, rfl⟩ : i = u ∧ j = v := Prod.mk.injEq _ _ _ _ ▸ heq
            exact ⟨hult, hvlt, huvlt, Or.inl hvuq⟩
          · rw [if_neg huvlt] at heq
            obtain ⟨rfl, rfl⟩ : i = v ∧ j = u := Prod.mk.injEq _ _ _ _ ▸ heq
            exact ⟨hvlt, hult, by omega, Or.inl hulq⟩
        · refine ⟨hi, hj, hij, ?_⟩
          rcases hm with hm | hm
          · exact Or.inl (hsub _ hm)
          · exact Or.inr (hsub _ hm)
    have henotin : (if u < v then (u, v) else (v, u)) ∉ p.linkEdges := by
      by_cases huvlt : u < v
      · rw [if_pos huvlt, Pool.mem_linkEdges]
        rintro ⟨-, -, -, hm | hm⟩
        · exact hvnotp u hm
        · exact hunotpv hm
      · rw [if_neg huvlt, Pool.mem_linkEdges]
        rintro ⟨-, -, -, hm | hm⟩
        · exact hunotpv hm
        · exact hvnotp u hm
    rw [hedges, Finset.card_insert_of_not_mem henotin,
      Finset.card_insert_of_not_mem hv]
    omega
  · intro i hi
    rcases Finset.mem_insert.mp hi with rfl | hiS
    · rw [hqsize]
      exact hvlt
    · rw [hqsize]
      exact hbound i hiS
  · intro i hmem
    rcases (hqmem i i).mp hmem with hm | ⟨rfl, hiv⟩ | ⟨hiv, rfl⟩
    · exact hnoself i hm
    · exact huv hiv
    · exact huv hiv
  · intro l hcyc
    by_cases hvin : v ∈ l
    · rcases isLinkCycle_two_neighbors hcyc hvin with ⟨y, z, hyz, hy, hz⟩
      rw [hvadj y hy, hvadj z hz] at hyz
      exact hyz rfl
    · apply hacyc l
      cases l with
      | nil => exact hcyc.elim
      | cons a rest =>
        obtain ⟨hlen, hnd, hchain, hlast⟩ := hcyc
        have htrans : ∀ x ∈ a :: rest, ∀ y ∈ a :: rest,
            q.linkAdj x y → p.linkAdj x y := by
          intro x hxm y hym hxy
          rcases (hadj x y).mp hxy with h' | ⟨-, rfl⟩ | ⟨rfl, -⟩
          · exact h'
          · exact absurd hym hvin
          · exact absurd hxm hvin
        refine ⟨hlen, hnd, chain_transfer htrans hchain, ?_⟩
        exact htrans _ (List.getLast_mem _) a (List.mem_cons_self _ _) hlast

theorem Pool.adjStep_sound (p : Pool T) (s : Finset Nat) {j : Nat}
    (hj : j ∈ p.adjStep s) : j ∈ s ∨ ∃ i ∈ s, p.AdjEdge i j := by
  unfold Pool.adjStep at hj
  rcases Finset.mem_union.mp hj with h | h
  · exact Or.inl h
  · rcases Finset.mem_filter.mp h with ⟨-, i, hi, he⟩
    exact Or.inr ⟨i, hi, he⟩

theorem Pool.adjClosureN_sound (p : Pool T) :
    ∀ (k : Nat) (s : Finset Nat) {j : Nat}, j ∈ p.adjClosureN k s →
      ∃ i ∈ s, p.AdjReach i j := by
  intro k
  induction k with
  | zero =>
    intro s j hj
    exact ⟨j, hj, Relation.ReflTransGen.refl⟩
  | succ n ih =>
    intro s j hj
    rcases ih (p.adjStep s) hj with ⟨i, hi, hreach⟩
    rcases Pool.adjStep_sound p s hi with hi' | ⟨i0, hi0, he⟩
    · exact ⟨i, hi', hreach⟩
    · exact ⟨i0, hi0, Relation.ReflTransGen.head he hreach⟩

theorem Pool.isAdjacentlyConnected_reach {p : Pool T}
    (h : p.isAdjacentlyConnected = true) :
    0 < p.size ∧ ∀ j, j < p.size → p.AdjReach 0 j := by
  unfold Pool.isAdjacentlyConnected at h
  rw [Bool.and_eq_true] at h
  obtain ⟨h1, h2⟩ := h
  have hsz : p.size ≠ 0 := of_decide_eq_true h1
  have hcl : p.adjClosureN p.size {0} = Finset.range p.size :=
    of_decide_eq_true h2
  refine ⟨Nat.pos_of_ne_zero hsz, ?_⟩
  intro j hj
  have hmem : j ∈ p.adjClosureN p.size {0} := hcl ▸ Finset.mem_range.mpr hj
  rcases Pool.adjClosureN_sound p p.size {0} hmem with ⟨i, hi, hreach⟩
  rw [Finset.mem_singleton.mp hi] at hreach
  exact hreach

theorem adj_closed_eq_range {p : Pool T} (hsym : p.AdjSym)
    (hconn : p.isAdjacentlyConnected = true)
    {V : Finset Nat} (hVsub : V ⊆ Finset.range p.size)
    (hclosed : ∀ a ∈ V, p.neighborhoodOf a ⊆ V)
    {x0 : Nat} (hx0 : x0 ∈ V) : V = Finset.range p.size := by
  have hedge_closed : ∀ a ∈ V, ∀ b, p.AdjEdge a b → b ∈ V := by
    intro a ha b he
    rcases he with hm | hm
    · exact hclosed a ha hm
    · exact hclosed a ha (hsym b a hm)
  have hreach_closed : ∀ a b, p.AdjReach a b → a ∈ V → b ∈ V := by
    intro a b h
    induction h with
    | refl => exact id
    | @tail c d hcd hde ih => exact fun ha => hedge_closed c (ih ha) d hde
  obtain ⟨hpos, hall⟩ := Pool.isAdjacentlyConnected_reach hconn
  have hedgesymm : Symmetric p.AdjEdge := fun a b h => Or.symm h
  have hreach0 : p.AdjReach x0 0 := by
    have hx0lt : x0 < p.size := Finset.mem_range.mp (hVsub hx0)
    exact Relation.ReflTransGen.symmetric hedgesymm (hall x0 hx0lt)
  apply Finset.Subset.antisymm hVsub
  intro j hj
  have hjlt := Finset.mem_range.mp hj
  exact hreach_closed x0 j (Relation.ReflTransGen.trans hreach0 (hall j hjlt))
    hx0

theorem getD_mem_of_lt {l : List Nat} {i : Nat} (h : i < l.length) (d : Nat) :
    l.getD i d ∈ l := by
  rw [List.getD_eq_getElem?_getD, List.getElem?_eq_getElem h]
  exact List.getElem_mem _

theorem Pool.adj_lt_of_WF {p : Pool T} (hwf : p.WF) {i a : Nat}
    (ha : a ∈ p.neighborhoodOf i) : a < p.size := by
  rcases Pool.mem_neighborhoodOf_iff.mp ha with ⟨nd, hnd, hmem⟩
  have hin : nd ∈ p.nodes := by
    have hlt := Pool.lt_size_of_node? hnd
    rw [Pool.node?] at hnd
    rw [List.getElem?_eq_getElem hlt] at hnd
    rw [← Option.some_inj.mp hnd]
    exact List.getElem_mem _
  exact (hwf.2 nd hin).1 a hmem

theorem spanningTreeOn_eq_of_passages_empty {q : Pool U} {S : Finset Nat}
    (hst : SpanningTreeOn q S) {i : Nat} (hi : i ∈ S)
    (hpass : q.passagesOf i = ∅) : ∀ j ∈ S, j = i := by
  intro j hj
  have hreach := hst.2.2.1 i hi j hj
  rcases Relation.ReflTransGen.cases_head hreach with heq | ⟨c, hc, -⟩
  · exact heq.symm
  · rw [hpass] at hc
    exact absurd hc (Finset.not_mem_empty _)

theorem spanningTreeOn_mem_of_passages_ne {q : Pool U} {S : Finset Nat}
    (hst : SpanningTreeOn q S) {i : Nat} (hpass : q.passagesOf i ≠ ∅) :
    i ∈ S := by
  by_contra hni
  exact hpass (hst.1 i hni)

/-- The Aldous-Broder loop invariant and its preservation, leading to a
spanning tree whenever the run finishes within fuel. -/
theorem abRun_done_spanningTree {p : Pool T} {draws : Nat → Nat}
    (hwf : p.WF) (hsym : p.AdjSym) (hnoself : p.NoSelfAdj)
    (hnolinks : ∀ i, p.passagesOf i = ∅)
    {fuel : Nat} {p' : Pool T} (hrun : abRun p draws fuel = .done p') :
    SpanningTreeOn p' (Finset.range p.size) := by
  unfold abRun at hrun
  by_cases hsz : p.size = 0
  · rw [if_pos hsz] at hrun
    exact RunResult.noConfusion hrun
  · rw [if_neg hsz] at hrun
    cases hnode : p.nodes[draws 0 % p.size]? with
    | none =>
      rw [hnode] at hrun
      exact RunResult.noConfusion hrun
    | some startNode =>
      rw [hnode] at hrun
      dsimp only at hrun
      have hszpos : 0 < p.size := Nat.pos_of_ne_zero hsz
      have hidx : draws 0 % p.size < p.size := Nat.mod_lt _ hszpos
      have hstart : startNode.id = draws 0 % p.size := by
        rw [List.getElem?_eq_getElem hidx] at hnode
        rw [← Option.some_inj.mp hnode]
        exact hwf.1 _ hidx
      set P : ABState T → Prop := fun st => ∃ S : Finset Nat,
        SpanningTreeOn st.pool S ∧ st.cell ∈ S ∧
        S ⊆ Finset.range p.size ∧ S.card + st.unvisitedCount = p.size ∧
        st.pool.size = p.size ∧
        (∀ j, st.pool.neighborhoodOf j = p.neighborhoodOf j) with hP
      have hstep : ∀ st, P st → (fun st => decide (0 < st.unvisitedCount)) st = true →
          ∀ st', abStep draws st = some st' → P st' := by
        intro st hPst hcond st' hs
        rcases hPst with ⟨S, htree, hcell, hsub, hcount, hsize, hnbd⟩
        have hcnt : 0 < st.unvisitedCount := of_decide_eq_true hcond
        unfold abStep at hs
        by_cases hlen : ((st.pool.neighborhoodOf st.cell).sort (· ≤ ·)).length = 0
        · rw [if_pos hlen] at hs
          exact Option.noConfusion hs
        · rw [if_neg hlen] at hs
          set rn := ((st.pool.neighborhoodOf st.cell).sort (· ≤ ·)).getD
            (draws st.k % ((st.pool.neighborhoodOf st.cell).sort (· ≤ ·)).length) 0
            with hrn
          have hrnmem : rn ∈ st.pool.neighborhoodOf st.cell := by
            rw [← Finset.mem_sort (· ≤ ·)]
            exact getD_mem_of_lt (Nat.mod_lt _ (Nat.pos_of_ne_zero hlen)) 0
          have hrn_p : rn ∈ p.neighborhoodOf st.cell := hnbd st.cell ▸ hrnmem
          have hrnlt : rn < p.size := Pool.adj_lt_of_WF hwf hrn_p
          have hrnne : st.cell ≠ rn := by
            intro heq
            exact hnoself st.cell (heq ▸ hrn_p)
          by_cases hpemp : st.pool.passagesOf rn = ∅
          · rw [if_pos hpemp] at hs
            cases hlink : st.pool.linkCells st.cell rn true with
            | none =>
              rw [hlink] at hs
              exact Option.noConfusion hs
            | some p2 =>
              rw [hlink] at hs
              have hst' := Option.some_inj.mp hs
              have hrnS : rn ∉ S := by
                intro hrnS
                exact hrnne
                  (spanningTreeOn_eq_of_passages_empty htree hrnS hpemp
                    st.cell hcell)
              obtain ⟨-, -, -, -, hsz2, hnbd2, hpa, hpb, hpo⟩ :=
                Pool.linkCells_true_char hrnne hlink
              subst hst'
              refine ⟨insert rn S, ?_, Finset.mem_insert_self _ _, ?_, ?_, ?_, ?_⟩
              · exact spanningTree_extend htree hcell hrnS
                  (by rw [hsize]; exact hrnlt) hsz2 hpa hpb hpo
              · rw [Finset.insert_subset_iff]
                exact ⟨Finset.mem_range.mpr hrnlt, hsub⟩
              · show (insert rn S).card + (st.unvisitedCount - 1) = p.size
                rw [Finset.card_insert_of_not_mem hrnS]
                omega
              · exact hsz2.trans hsize
              · exact fun j => (hnbd2 j).trans (hnbd j)
          · rw [if_neg hpemp] at hs
            have hst' := Option.some_inj.mp hs
            have hrnS : rn ∈ S := spanningTreeOn_mem_of_passages_ne htree hpemp
            subst hst'
            exact ⟨S, htree, hrnS, hsub, hcount, hsize, hnbd⟩
      cases hwh : whileFuel (fun st => decide (0 < st.unvisitedCount))
          (abStep draws) fuel ⟨p, startNode.id, p.size - 1, 1⟩ with
      | fuelOut =>
        rw [hwh] at hrun
        exact RunResult.noConfusion hrun
      | panicked =>
        rw [hwh] at hrun
        exact RunResult.noConfusion hrun
      | done stf =>
        rw [hwh] at hrun
        have hp' : p' = stf.pool := (RunResult.done.inj hrun).symm
        have hP0 : P ⟨p, startNode.id, p.size - 1, 1⟩ := by
          refine ⟨{startNode.id}, ?_, Finset.mem_singleton_self _, ?_, ?_, rfl,
            fun j => rfl⟩
          · exact spanningTreeOn_singleton (hstart ▸ hidx) hnolinks
          · intro x hx
            rw [Finset.mem_singleton.mp hx, hstart]
            exact Finset.mem_range.mpr hidx
          · show ({startNode.id} : Finset Nat).card + (p.size - 1) = p.size
            rw [Finset.card_singleton]
            omega
        rcases whileFuel_done_inv _ _ P hstep fuel _ stf hP0 hwh with
          ⟨⟨S, htree, -, hsub, hcount, -, -⟩, hcondf⟩
        have hcnt0 : stf.unvisitedCount = 0 := by
          have hnot : ¬ 0 < stf.unvisitedCount := of_decide_eq_false hcondf
          omega
        have hSeq : S = Finset.range p.size := by
          apply Finset.eq_of_subset_of_card_le hsub
          rw [Finset.card_range]
          omega
        rw [hp', ← hSeq]
        exact htree

/-- Under the all-zeros outcome stream, Aldous-Broder on the three-node
path pool bounces between nodes `0` and `1` forever and never visits
node `2`: the Rust loop would not terminate. -/
theorem abRun_path3_const0 :
    ∀ fuel, abRun examplePoolPath3 (fun _ => 0) fuel = .fuelOut := by
  intro fuel
  have hstep : ∀ st : ABState Unit,
      ((st.pool = examplePoolPath3 ∧ st.cell = 0 ∧ st.unvisitedCount = 2) ∨
        (st.pool = ⟨[⟨0, {1}, {1}, ()⟩, ⟨1, {0}, {0, 2}, ()⟩, ⟨2, ∅, {1}, ()⟩]⟩ ∧
          st.unvisitedCount = 1 ∧ (st.cell = 0 ∨ st.cell = 1))) →
      (fun st : ABState Unit => decide (0 < st.unvisitedCount)) st = true ∧
      ∃ st', abStep (fun _ => 0) st = some st' ∧
        ((st'.pool = examplePoolPath3 ∧ st'.cell = 0 ∧
            st'.unvisitedCount = 2) ∨
          (st'.pool =
              ⟨[⟨0, {1}, {1}, ()⟩, ⟨1, {0}, {0, 2}, ()⟩, ⟨2, ∅, {1}, ()⟩]⟩ ∧
            st'.unvisitedCount = 1 ∧ (st'.cell = 0 ∨ st'.cell = 1))) := by
    have hsort1 : (({1} : Finset Nat).sort (· ≤ ·)) = [1] := by simp
    have hsort02 : (({0, 2} : Finset Nat).sort (· ≤ ·)) = [0, 2] := by
      rw [show ({0, 2} : Finset Nat) = insert 0 {2} from rfl,
        Finset.sort_insert]
      · simp
      · intro b hb
        simp at hb
        omega
      · decide
    rintro ⟨pool, cell, cnt, k⟩ hP
    rcases hP with ⟨hpool, hcell, hcnt⟩ | ⟨hpool, hcnt, hcell | hcell⟩ <;>
      dsimp only at hpool hcell hcnt <;> subst hpool <;> subst hcell <;>
      subst hcnt
    · refine ⟨rfl, ⟨⟨[⟨0, {1}, {1}, ()⟩, ⟨1, {0}, {0, 2}, ()⟩,
        ⟨2, ∅, {1}, ()⟩]⟩, 1, 1, k + 1⟩, ?_, Or.inr ⟨rfl, rfl, Or.inr rfl⟩⟩
      unfold abStep
      dsimp only
      rw [show (examplePoolPath3 : Pool Unit).neighborhoodOf 0 = {1} from rfl,
        hsort1]
      rfl
    · refine ⟨rfl, ⟨⟨[⟨0, {1}, {1}, ()⟩, ⟨1, {0}, {0, 2}, ()⟩,
        ⟨2, ∅, {1}, ()⟩]⟩, 1, 1, k + 1⟩, ?_, Or.inr ⟨rfl, rfl, Or.inr rfl⟩⟩
      unfold abStep
      dsimp only
      rw [show (⟨[⟨0, {1}, {1}, ()⟩, ⟨1, {0}, {0, 2}, ()⟩, ⟨2, ∅, {1}, ()⟩]⟩ :
          Pool Unit).neighborhoodOf 0 = {1} from rfl, hsort1]
      rfl
    · refine ⟨rfl, ⟨⟨[⟨0, {1}, {1}, ()⟩, ⟨1, {0}, {0, 2}, ()⟩,
        ⟨2, ∅, {1}, ()⟩]⟩, 0, 1, k + 1⟩, ?_, Or.inr ⟨rfl, rfl, Or.inl rfl⟩⟩
      unfold abStep
      dsimp only
      rw [show (⟨[⟨0, {1}, {1}, ()⟩, ⟨1, {0}, {0, 2}, ()⟩, ⟨2, ∅, {1}, ()⟩]⟩ :
          Pool Unit).neighborhoodOf 1 = {0, 2} from rfl, hsort02]
      rfl
  unfold abRun
  rw [if_neg (by decide :
    ¬ (examplePoolPath3 : Pool Unit).size = 0)]
  rw [show (examplePoolPath3 : Pool Unit).nodes[(fun _ : Nat => 0) 0 %
      (examplePoolPath3 : Pool Unit).size]? = some ⟨0, ∅, {1}, ()⟩ from rfl]
  dsimp only
  rw [whileFuel_fuelOut_forever _ _ _ hstep fuel _ (Or.inl ⟨rfl, rfl, rfl⟩)]
  rfl

theorem Pool.nodeIds_linkCells {p p' : Pool T} {a b : Nat}
    (h : p.linkCells a b true = some p') (j : Nat) :
    (p'.node? j).map (·.id) = (p.node? j).map (·.id) := by
  have hnb : (p.updateNode a
      (fun n => { n with links := insert b n.links })).neighborhoodOf b =
      p.neighborhoodOf b := Pool.neighborhoodOf_updateLinks p a b _
  by_cases h1 : b ∈ p.neighborhoodOf a
  · by_cases h2 : a ∈ p.neighborhoodOf b
    · have hbig : p.linkCellsRaw a b true =
          ((p.updateNode a (fun n => { n with links := insert b n.links })).updateNode
            b (fun n => { n with links := insert a n.links }), false) := by
        unfold Pool.linkCellsRaw
        rw [if_pos h1, if_pos rfl, if_pos (hnb ▸ h2)]
      unfold Pool.linkCells at h
      rw [hbig] at h
      dsimp only at h
      rw [if_neg (by simp)] at h
      have hp' := (Option.some_inj.mp h).symm
      rw [hp', Pool.node?_updateNode, Pool.node?_updateNode]
      by_cases hjb : j = b
      · rw [if_pos hjb]
        by_cases hja : j = a
        · rw [if_pos hja]
          cases p.node? j <;> rfl
        · rw [if_neg hja]
          cases p.node? j <;> rfl
      · rw [if_neg hjb]
        by_cases hja : j = a
        · rw [if_pos hja]
          cases p.node? j <;> rfl
        · rw [if_neg hja]
    · have hbig : p.linkCellsRaw a b true =
          (p.updateNode a (fun n => { n with links := insert b n.links }),
            true) := by
        unfold Pool.linkCellsRaw
        rw [if_pos h1, if_pos rfl, if_neg (hnb ▸ h2)]
      unfold Pool.linkCells at h
      rw [hbig] at h
      dsimp only at h
      rw [if_pos rfl] at h
      exact Option.noConfusion h
  · have hbig : p.linkCellsRaw a b true = (p, true) := by
      unfold Pool.linkCellsRaw
      rw [if_neg h1]
    unfold Pool.linkCells at h
    rw [hbig] at h
    dsimp only at h
    rw [if_pos rfl] at h
    exact Option.noConfusion h

theorem Pool.scanFrontier_found_spec {q : Pool T} {visited : Finset Nat}
    {u v : Nat} (h : q.scanFrontier visited = .found u v) :
    (∃ nd ∈ q.nodes, nd.id = u) ∧ u ∉ visited ∧ v ∈ visited ∧
      v ∈ q.wallsOf u := by
  unfold Pool.scanFrontier at h
  cases hfs : q.nodes.findSome? (fun nd =>
      if nd.id ∈ visited then none
      else ((q.wallsOf nd.id).sort (· ≤ ·)).find? (fun w => w ∈ visited)
        |>.map (fun w => (nd.id, w))) with
  | none =>
    rw [hfs] at h
    exact FrontierSearchResult.noConfusion h
  | some pr =>
    rw [hfs] at h
    obtain ⟨u', v'⟩ := pr
    have huv := FrontierSearchResult.found.inj h
    obtain ⟨rfl, rfl⟩ := huv
    rcases List.exists_of_findSome?_eq_some hfs with ⟨nd, hnd, hf⟩
    by_cases hvis : nd.id ∈ visited
    · rw [if_pos hvis] at hf
      exact Option.noConfusion hf
    · rw [if_neg hvis] at hf
      cases hfind : ((q.wallsOf nd.id).sort (· ≤ ·)).find?
          (fun w => w ∈ visited) with
      | none =>
        rw [hfind] at hf
        exact Option.noConfusion hf
      | some w =>
        rw [hfind] at hf
        have hpair : (nd.id, w) = (u', v') := by simpa using hf
        have hu : nd.id = u' := congrArg Prod.fst hpair
        have hv : w = v' := congrArg Prod.snd hpair
        subst hu
        subst hv
        refine ⟨⟨nd, hnd, rfl⟩, hvis, ?_, ?_⟩
        · have hp := List.find?_some hfind
          exact of_decide_eq_true (by simpa using hp)
        · rw [← Finset.mem_sort (α := Nat) (· ≤ ·)]
          exact List.mem_of_find?_eq_some hfind

theorem Pool.scanFrontier_noFrontier_spec {q : Pool T} {visited : Finset Nat}
    (h : q.scanFrontier visited = .noFrontier) :
    ∀ nd ∈ q.nodes, nd.id ∉ visited → ∀ w ∈ q.wallsOf nd.id, w ∉ visited := by
  unfold Pool.scanFrontier at h
  cases hfs : q.nodes.findSome? (fun nd =>
      if nd.id ∈ visited then none
      else ((q.wallsOf nd.id).sort (· ≤ ·)).find? (fun w => w ∈ visited)
        |>.map (fun w => (nd.id, w))) with
  | some pr =>
    rw [hfs] at h
    obtain ⟨u', v'⟩ := pr
    exact FrontierSearchResult.noConfusion h
  | none =>
    intro nd hnd hvis w hw hwvis
    have hf := List.findSome?_eq_none_iff.mp hfs nd hnd
    rw [if_neg hvis] at hf
    cases hfind : ((q.wallsOf nd.id).sort (· ≤ ·)).find?
        (fun w => w ∈ visited) with
    | some w' =>
      rw [hfind] at hf
      exact Option.noConfusion hf
    | none =>
      exact List.find?_eq_none.mp hfind w
        (by rw [Finset.mem_sort (α := Nat) (· ≤ ·)]; exact hw)
        (decide_eq_true hwvis)

theorem hkRun_spanningTree {p : Pool T} (draws : Nat → Nat)
    (hwf : p.WF) (hsym : p.AdjSym)
    (hnolinks : ∀ i, p.passagesOf i = ∅)
    (hconn : p.isAdjacentlyConnected = true) :
    ∃ p', hkRun p draws = .done p' ∧
      SpanningTreeOn p' (Finset.range p.size) := by
  obtain ⟨hpos, -⟩ := Pool.isAdjacentlyConnected_reach hconn
  have hhead : p.nodes.head? = some (p.nodes.get ⟨0, hpos⟩) := by
    rw [List.head?_eq_getElem?, List.getElem?_eq_getElem hpos]
    rfl
  have hfid : (p.nodes.get ⟨0, hpos⟩).id = 0 := hwf.1 0 hpos
  have hpid : ∀ i, i < p.size → (p.node? i).map (·.id) = some i := by
    intro i hi
    have hg : p.node? i = some (p.nodes.get ⟨i, hi⟩) := by
      rw [Pool.node?, List.getElem?_eq_getElem hi]
      rfl
    rw [hg]
    exact congrArg some (hwf.1 i hi)
  set P : HKState T → Prop := fun st =>
    SpanningTreeOn st.pool st.visited ∧
    st.visited ⊆ Finset.range p.size ∧
    st.visited.Nonempty ∧
    (∀ c, st.mode = some c → c ∈ st.visited) ∧
    st.pool.size = p.size ∧
    (∀ j, st.pool.neighborhoodOf j = p.neighborhoodOf j) ∧
    (∀ j, (st.pool.node? j).map (·.id) = (p.node? j).map (·.id)) with hPdef
  set m : HKState T → Nat := fun st =>
    2 * (p.size - st.visited.card) +
      (match st.mode with | some _ => 1 | none => 0) with hmdef
  have hstep : ∀ st, P st → hkCond st = true →
      ∃ st', hkStep draws st = some st' ∧ P st' ∧ m st' < m st := by
    intro st hP hcond
    obtain ⟨htree, hsub, hne, hmode, hsize, hnbd, hids⟩ := hP
    cases hm : st.mode with
    | none =>
      have hscan_ne : st.pool.scanFrontier st.visited ≠ .noFrontier := by
        unfold hkCond at hcond
        rw [hm] at hcond
        exact of_decide_eq_true hcond
      cases hscan : st.pool.scanFrontier st.visited with
      | noFrontier => exact absurd hscan hscan_ne
      | found u0 v0 =>
        obtain ⟨⟨nd, hndmem, hndid⟩, hu0vis, hv0vis, hv0wall⟩ :=
          Pool.scanFrontier_found_spec hscan
        rcases List.mem_iff_get.mp hndmem with ⟨⟨i, hilt⟩, hndeq⟩
        have hilt' : i < p.size := by
          rw [← hsize]
          exact hilt
        have hnodei : st.pool.node? i = some nd := by
          rw [Pool.node?, List.getElem?_eq_getElem hilt]
          exact congrArg some hndeq
        have hu0i : u0 = i := by
          have hmap := hids i
          rw [hnodei, hpid i hilt'] at hmap
          rw [← hndid]
          exact Option.some_inj.mp hmap
        have hu0lt : u0 < p.size := hu0i ▸ hilt'
        have hv0nb : v0 ∈ st.pool.neighborhoodOf u0 := by
          have hw := hv0wall
          unfold Pool.wallsOf at hw
          exact (Finset.mem_sdiff.mp hw).1
        have hv0nbp : v0 ∈ p.neighborhoodOf u0 := hnbd u0 ▸ hv0nb
        have hu0nb : u0 ∈ st.pool.neighborhoodOf v0 := by
          rw [hnbd]
          exact hsym u0 v0 hv0nbp
        have hne0 : u0 ≠ v0 := fun h => hu0vis (h ▸ hv0vis)
        obtain ⟨p2, hlink⟩ := Pool.linkCells_true_succeeds hv0nb hu0nb
        obtain ⟨-, -, -, -, hsz2, hnbd2, hpa, hpb, hpo⟩ :=
          Pool.linkCells_true_char hne0 hlink
        have hcard : (insert u0 st.visited).card ≤ p.size := by
          have : insert u0 st.visited ⊆ Finset.range p.size := by
            rw [Finset.insert_subset_iff]
            exact ⟨Finset.mem_range.mpr hu0lt, hsub⟩
          have := Finset.card_le_card this
          rw [Finset.card_range] at this
          exact this
        refine ⟨⟨p2, insert u0 st.visited, some u0, st.k⟩, ?_, ?_, ?_⟩
        · unfold hkStep
          rw [hm]
          dsimp only
          rw [hscan]
          dsimp only
          rw [hlink]
        · refine ⟨?_, ?_, ?_, ?_, ?_, ?_, ?_⟩
          · exact spanningTree_extend htree hv0vis hu0vis
              (by rw [hsize]; exact hu0lt) hsz2 hpb hpa
              (fun j hjv hju => hpo j hju hjv)
          · show insert u0 st.visited ⊆ Finset.range p.size
            rw [Finset.insert_subset_iff]
            exact ⟨Finset.mem_range.mpr hu0lt, hsub⟩
          · exact ⟨u0, Finset.mem_insert_self _ _⟩
          · intro c hc
            rw [← Option.some_inj.mp hc]
            exact Finset.mem_insert_self _ _
          · exact hsz2.trans hsize
          · exact fun j => (hnbd2 j).trans (hnbd j)
          · intro j
            exact (Pool.nodeIds_linkCells hlink j).trans (hids j)
        · simp only [hmdef, hm]
          rw [Finset.card_insert_of_not_mem hu0vis]
          have hcardv : st.visited.card < p.size := by
            rw [Finset.card_insert_of_not_mem hu0vis] at hcard
            omega
          omega
    | some c =>
      have hcvis : c ∈ st.visited := hmode c hm
      by_cases hlen : (((st.pool.wallsOf c).sort (· ≤ ·)).filter
          (fun nb => nb ∉ st.visited)).length = 0
      · refine ⟨⟨st.pool, st.visited, none, st.k⟩, ?_, ?_, ?_⟩
        · unfold hkStep
          rw [hm]
          dsimp only
          rw [if_pos hlen]
        · exact ⟨htree, hsub, hne, fun c' hc' => Option.noConfusion hc',
            hsize, hnbd, hids⟩
        · simp only [hmdef, hm]
          omega
      · set nc := (((st.pool.wallsOf c).sort (· ≤ ·)).filter
          (fun nb => nb ∉ st.visited)).getD (draws st.k %
            (((st.pool.wallsOf c).sort (· ≤ ·)).filter
              (fun nb => nb ∉ st.visited)).length) 0 with hnc
        have hncmem : nc ∈ ((st.pool.wallsOf c).sort (· ≤ ·)).filter
            (fun nb => nb ∉ st.visited) :=
          getD_mem_of_lt (Nat.mod_lt _ (Nat.pos_of_ne_zero hlen)) 0
        have hncfil := List.mem_filter.mp hncmem
        have hncvis : nc ∉ st.visited := of_decide_eq_true hncfil.2
        have hncwall : nc ∈ st.pool.wallsOf c := by
          rw [← Finset.mem_sort (α := Nat) (· ≤ ·)]
          exact hncfil.1
        have hncnb : nc ∈ st.pool.neighborhoodOf c := by
          unfold Pool.wallsOf at hncwall
          exact (Finset.mem_sdiff.mp hncwall).1
        have hncnbp : nc ∈ p.neighborhoodOf c := hnbd c ▸ hncnb
        have hnclt : nc < p.size := Pool.adj_lt_of_WF hwf hncnbp
        have hcnb : c ∈ st.pool.neighborhoodOf nc := by
          rw [hnbd]
          exact hsym c nc hncnbp
        have hne0 : c ≠ nc := fun h => hncvis (h ▸ hcvis)
        obtain ⟨p2, hlink⟩ := Pool.linkCells_true_succeeds hncnb hcnb
        obtain ⟨-, -, -, -, hsz2, hnbd2, hpa, hpb, hpo⟩ :=
          Pool.linkCells_true_char hne0 hlink
        refine ⟨⟨p2, insert nc st.visited, some nc, st.k + 1⟩, ?_, ?_, ?_⟩
        · unfold hkStep
          rw [hm]
          dsimp only
          rw [if_neg hlen, ← hnc, hlink]
        · refine ⟨?_, ?_, ?_, ?_, ?_, ?_, ?_⟩
          · exact spanningTree_extend htree hcvis hncvis
              (by rw [hsize]; exact hnclt) hsz2 hpa hpb hpo
          · show insert nc st.visited ⊆ Finset.range p.size
            rw [Finset.insert_subset_iff]
            exact ⟨Finset.mem_range.mpr hnclt, hsub⟩
          · exact ⟨nc, Finset.mem_insert_self _ _⟩
          · intro c' hc'
            rw [← Option.some_inj.mp hc']
            exact Finset.mem_insert_self _ _
          · exact hsz2.trans hsize
          · exact fun j => (hnbd2 j).trans (hnbd j)
          · intro j
            exact (Pool.nodeIds_linkCells hlink j).trans (hids j)
        · have hcard : (insert nc st.visited).card ≤ p.size := by
            have hss : insert nc st.visited ⊆ Finset.range p.size := by
              rw [Finset.insert_subset_iff]
              exact ⟨Finset.mem_range.mpr hnclt, hsub⟩
            have := Finset.card_le_card hss
            rw [Finset.card_range] at this
            exact this
          simp only [hmdef, hm]
          rw [Finset.card_insert_of_not_mem hncvis]
          rw [Finset.card_insert_of_not_mem hncvis] at hcard
          omega
  have hP0 : P ⟨p, {(p.nodes.get ⟨0, hpos⟩).id}, none, 0⟩ := by
    refine ⟨?_, ?_, ⟨_, Finset.mem_singleton_self _⟩,
      fun c hc => Option.noConfusion hc, rfl, fun j => rfl, fun j => rfl⟩
    · exact spanningTreeOn_singleton
        (show (p.nodes.get ⟨0, hpos⟩).id < p.size by rw [hfid]; exact hpos)
        hnolinks
    · intro x hx
      rw [Finset.mem_singleton.mp hx, hfid]
      exact Finset.mem_range.mpr hpos
  have hm0 : m ⟨p, {(p.nodes.get ⟨0, hpos⟩).id}, none, 0⟩ <
      2 * p.size + 2 := by
    simp only [hmdef]
    rw [Finset.card_singleton]
    omega
  rcases whileFuel_done_of_measure hkCond (hkStep draws) P m hstep
    (2 * p.size + 2) ⟨p, {(p.nodes.get ⟨0, hpos⟩).id}, none, 0⟩ hP0 hm0 with
    ⟨stf, hwh, hPf, hcondf⟩
  obtain ⟨htreef, hsubf, hnef, hmodef, hsizef, hnbdf, hidsf⟩ := hPf
  have hmodenone : stf.mode = none := by
    cases hmf : stf.mode with
    | none => rfl
    | some c =>
      unfold hkCond at hcondf
      rw [hmf] at hcondf
      exact Bool.noConfusion hcondf
  have hscanf : stf.pool.scanFrontier stf.visited = .noFrontier := by
    unfold hkCond at hcondf
    rw [hmodenone] at hcondf
    have := of_decide_eq_false hcondf
    by_contra hne2
    exact this hne2
  have hclosed : ∀ a ∈ stf.visited, p.neighborhoodOf a ⊆ stf.visited := by
    intro a ha b hb
    by_contra hbV
    have hblt : b < p.size := Pool.adj_lt_of_WF hwf hb
    have hbltf : b < stf.pool.nodes.length := by
      show b < stf.pool.size
      rw [hsizef]
      exact hblt
    have hnodeb : stf.pool.node? b = some (stf.pool.nodes.get ⟨b, hbltf⟩) := by
      rw [Pool.node?, List.getElem?_eq_getElem hbltf]
      rfl
    have hidb : (stf.pool.nodes.get ⟨b, hbltf⟩).id = b := by
      have hmap := hidsf b
      rw [hnodeb, hpid b hblt] at hmap
      exact Option.some_inj.mp hmap
    have hmemb : stf.pool.nodes.get ⟨b, hbltf⟩ ∈ stf.pool.nodes :=
      List.get_mem _ b hbltf
    have hspec := Pool.scanFrontier_noFrontier_spec hscanf _ hmemb
      (by rw [hidb]; exact hbV)
    have hpassb : stf.pool.passagesOf b = ∅ := htreef.1 b hbV
    have hawall : a ∈ stf.pool.wallsOf b := by
      unfold Pool.wallsOf
      rw [hpassb]
      rw [Finset.sdiff_empty]
      rw [hnbdf]
      exact hsym a b hb
    have := hspec a (by rw [hidb]; exact hawall)
    exact this ha
  have hVeq : stf.visited = Finset.range p.size := by
    obtain ⟨x0, hx0⟩ := hnef
    exact adj_closed_eq_range hsym hconn hsubf hclosed hx0
  refine ⟨stf.pool, ?_, ?_⟩
  · unfold hkRun
    rw [hhead]
    dsimp only
    rw [hwh]
    rfl
  · rw [← hVeq]
    exact htreef

theorem rbRun_spanningTree {p : Pool T} (draws : Nat → Nat)
    (hwf : p.WF) (hsym : p.AdjSym)
    (hnolinks : ∀ i, p.passagesOf i = ∅)
    (hconn : p.isAdjacentlyConnected = true) :
    ∃ p', rbRun p draws = .done p' ∧
      SpanningTreeOn p' (Finset.range p.size) := by
  obtain ⟨hpos, -⟩ := Pool.isAdjacentlyConnected_reach hconn
  have hhead : p.nodes.head? = some (p.nodes.get ⟨0, hpos⟩) := by
    rw [List.head?_eq_getElem?, List.getElem?_eq_getElem hpos]
    rfl
  have hfid : (p.nodes.get ⟨0, hpos⟩).id = 0 := hwf.1 0 hpos
  have harb : p.getArbitraryNodeId = some (p.nodes.get ⟨0, hpos⟩).id := by
    unfold Pool.getArbitraryNodeId
    rw [hhead]
    rfl
  set start := (p.nodes.get ⟨0, hpos⟩).id with hstart
  have hstartlt : start < p.size := by
    rw [hfid]
    exact hpos
  set P : RBState T → Prop := fun st =>
    SpanningTreeOn st.pool st.visited ∧
    st.visited ⊆ Finset.range p.size ∧
    st.visited.Nonempty ∧
    (∀ x ∈ st.stack, x ∈ st.visited) ∧
    (∀ x ∈ st.visited, x ∉ st.stack → p.neighborhoodOf x ⊆ st.visited) ∧
    st.pool.size = p.size ∧
    (∀ j, st.pool.neighborhoodOf j = p.neighborhoodOf j) with hPdef
  set m : RBState T → Nat := fun st =>
    2 * (p.size - st.visited.card) + st.stack.length with hmdef
  have hstep : ∀ st, P st →
      (fun st : RBState T => decide (st.stack ≠ [])) st = true →
      ∃ st', rbStep draws st = some st' ∧ P st' ∧ m st' < m st := by
    intro st hP hcond
    obtain ⟨htree, hsub, hne, hstackv, hclosed, hsize, hnbd⟩ := hP
    have hstne : st.stack ≠ [] := of_decide_eq_true hcond
    cases hstk : st.stack with
    | nil => exact absurd hstk hstne
    | cons top rest =>
      have htopv : top ∈ st.visited :=
        hstackv top (hstk ▸ List.mem_cons_self _ _)
      by_cases hlen : ((st.pool.unvisitedNeighborhoodOf st.visited top).sort
          (· ≤ ·)).length = 0
      · refine ⟨⟨st.pool, st.visited, st.stack.tail, st.k⟩, ?_, ?_, ?_⟩
        · unfold rbStep
          rw [hstk]
          dsimp only
          rw [if_pos hlen]
        · have hempty : st.pool.unvisitedNeighborhoodOf st.visited top = ∅ := by
            have hlc := hlen
            rw [Finset.length_sort] at hlc
            exact Finset.card_eq_zero.mp hlc
          refine ⟨htree, hsub, hne, ?_, ?_, hsize, hnbd⟩
          · intro x hx
            exact hstackv x (List.mem_of_mem_tail hx)
          · intro x hx hxt
            by_cases hxs : x ∈ st.stack
            · rw [hstk] at hxs hxt ⊢
              rcases List.mem_cons.mp hxs with rfl | hxr
              · have : p.neighborhoodOf x \ st.visited = ∅ := by
                  rw [← hnbd]
                  exact hempty
                intro b hb
                by_contra hbv
                have : b ∈ p.neighborhoodOf x \ st.visited :=
                  Finset.mem_sdiff.mpr ⟨hb, hbv⟩
                rw [‹p.neighborhoodOf x \ st.visited = ∅›] at this
                exact absurd this (Finset.not_mem_empty _)
              · exact absurd hxr hxt
            · exact hclosed x hx hxs
        · simp only [hmdef]
          rw [hstk]
          simp only [List.tail_cons, List.length_cons]
          omega
      · set nc := ((st.pool.unvisitedNeighborhoodOf st.visited top).sort
          (· ≤ ·)).getD (draws st.k %
            ((st.pool.unvisitedNeighborhoodOf st.visited top).sort
              (· ≤ ·)).length) 0 with hnc
        have hncmem : nc ∈ st.pool.unvisitedNeighborhoodOf st.visited top := by
          rw [← Finset.mem_sort (α := Nat) (· ≤ ·)]
          exact getD_mem_of_lt (Nat.mod_lt _ (Nat.pos_of_ne_zero hlen)) 0
        have hncsd := Finset.mem_sdiff.mp hncmem
        have hncnb : nc ∈ st.pool.neighborhoodOf top := hncsd.1
        have hncvis : nc ∉ st.visited := hncsd.2
        have hncnbp : nc ∈ p.neighborhoodOf top := hnbd top ▸ hncnb
        have hnclt : nc < p.size := Pool.adj_lt_of_WF hwf hncnbp
        have htopnb : top ∈ st.pool.neighborhoodOf nc := by
          rw [hnbd]
          exact hsym top nc hncnbp
        have hne0 : top ≠ nc := fun h => hncvis (h ▸ htopv)
        obtain ⟨p2, hlink⟩ := Pool.linkCells_true_succeeds hncnb htopnb
        obtain ⟨-, -, -, -, hsz2, hnbd2, hpa, hpb, hpo⟩ :=
          Pool.linkCells_true_char hne0 hlink
        have hcard : (insert nc st.visited).card ≤ p.size := by
          have hss : insert nc st.visited ⊆ Finset.range p.size := by
            rw [Finset.insert_subset_iff]
            exact ⟨Finset.mem_range.mpr hnclt, hsub⟩
          have := Finset.card_le_card hss
          rw [Finset.card_range] at this
          exact this
        refine ⟨⟨p2, insert nc st.visited, nc :: st.stack, st.k + 1⟩, ?_, ?_, ?_⟩
        · unfold rbStep
          rw [hstk]
          dsimp only
          rw [if_neg hlen, ← hnc, hlink]
        · refine ⟨?_, ?_, ?_, ?_, ?_, ?_, ?_⟩
          · exact spanningTree_extend htree htopv hncvis
              (by rw [hsize]; exact hnclt) hsz2 hpa hpb hpo
          · show insert nc st.visited ⊆ Finset.range p.size
            rw [Finset.insert_subset_iff]
            exact ⟨Finset.mem_range.mpr hnclt, hsub⟩
          · exact ⟨nc, Finset.mem_insert_self _ _⟩
          · intro x hx
            rcases List.mem_cons.mp hx with rfl | hxr
            · exact Finset.mem_insert_self _ _
            · exact Finset.mem_insert_of_mem (hstackv x hxr)
          · intro x hx hxt
            have hxnc : x ≠ nc := fun h =>
              hxt (h ▸ List.mem_cons_self _ _)
            have hxv : x ∈ st.visited := by
              rcases Finset.mem_insert.mp hx with rfl | hxv
              · exact absurd rfl hxnc
              · exact hxv
            have hxs : x ∉ st.stack := fun h =>
              hxt (List.mem_cons_of_mem _ h)
            exact fun b hb =>
              Finset.mem_insert_of_mem (hclosed x hxv hxs hb)
          · exact hsz2.trans hsize
          · exact fun j => (hnbd2 j).trans (hnbd j)
        · simp only [hmdef]
          rw [Finset.card_insert_of_not_mem hncvis]
          simp only [List.length_cons]
          rw [Finset.card_insert_of_not_mem hncvis] at hcard
          omega
  have hP0 : P ⟨p, {start}, [start], 0⟩ := by
    refine ⟨?_, ?_, ⟨start, Finset.mem_singleton_self _⟩, ?_, ?_, rfl,
      fun j => rfl⟩
    · exact spanningTreeOn_singleton hstartlt hnolinks
    · intro x hx
      rw [Finset.mem_singleton.mp hx]
      exact Finset.mem_range.mpr hstartlt
    · intro x hx
      rw [show x = start by simpa using hx]
      exact Finset.mem_singleton_self _
    · intro x hx hxt
      rw [Finset.mem_singleton.mp hx] at hxt
      exact absurd (List.mem_singleton_self start) hxt
  have hm0 : m ⟨p, {start}, [start], 0⟩ < 3 * p.size + 3 := by
    simp only [hmdef]
    rw [Finset.card_singleton]
    simp only [List.length_cons, List.length_nil]
    omega
  rcases whileFuel_done_of_measure _ (rbStep draws) P m hstep
    (3 * p.size + 3) ⟨p, {start}, [start], 0⟩ hP0 hm0 with
    ⟨stf, hwh, hPf, hcondf⟩
  obtain ⟨htreef, hsubf, hnef, -, hclosedf, -, -⟩ := hPf
  have hstackf : stf.stack = [] := by
    have := of_decide_eq_false hcondf
    by_contra hne2
    exact this hne2
  have hclosedV : ∀ a ∈ stf.visited, p.neighborhoodOf a ⊆ stf.visited := by
    intro a ha
    exact hclosedf a ha (by rw [hstackf]; exact List.not_mem_nil a)
  have hVeq : stf.visited = Finset.range p.size := by
    obtain ⟨x0, hx0⟩ := hnef
    exact adj_closed_eq_range hsym hconn hsubf hclosedV hx0
  refine ⟨stf.pool, ?_, ?_⟩
  · unfold rbRun
    rw [harb]
    dsimp only
    rw [hwh]
    rfl
  · rw [← hVeq]
    exact htreef

theorem Pool.passagesOf_of_ge {q : Pool U} {i : Nat} (h : q.size ≤ i) :
    q.passagesOf i = ∅ := by
  unfold Pool.passagesOf
  rw [Pool.node?_eq_none_of_ge h]
  rfl

theorem size_mkPassPool (n : Nat) (f : Nat → Finset Nat) :
    (mkPassPool n f).size = n := by
  unfold mkPassPool Pool.size
  rw [List.length_map, List.length_range]

theorem passagesOf_mkPassPool (n : Nat) (f : Nat → Finset Nat) (i : Nat) :
    (mkPassPool n f).passagesOf i = if i < n then f i else ∅ := by
  unfold mkPassPool Pool.passagesOf Pool.node?
  by_cases hi : i < n
  · rw [if_pos hi]
    have hlen : i < ((List.range n).map
        (fun j => (⟨j, f j, ∅, ()⟩ : Node Unit))).length := by
      rw [List.length_map, List.length_range]
      exact hi
    rw [List.getElem?_eq_getElem hlen, List.getElem_map, List.getElem_range]
    rfl
  · rw [if_neg hi]
    rw [List.getElem?_eq_none (by rw [List.length_map, List.length_range]; omega)]
    rfl

theorem pathNeighbors_single (a i : Nat) : pathNeighbors [a] i = ∅ := rfl

theorem pathNeighbors_concat :
    ∀ (xs : List Nat) (y f0 i : Nat),
      pathNeighbors (xs ++ [y] ++ [f0]) i =
        pathNeighbors (xs ++ [y]) i ∪
          ((if i = y then {f0} else ∅) ∪ (if i = f0 then {y} else ∅)) := by
  intro xs
  induction xs with
  | nil =>
    intro y f0 i
    show pathNeighbors [y, f0] i = _
    simp only [pathNeighbors]
    ext x
    simp only [Finset.mem_union]
    tauto
  | cons a xs ih =>
    intro y f0 i
    cases xs with
    | nil =>
      show pathNeighbors [a, y, f0] i = pathNeighbors [a, y] i ∪ _
      simp only [pathNeighbors]
      ext x
      simp only [Finset.mem_union]
      tauto
    | cons b xs' =>
      show pathNeighbors (a :: ((b :: xs') ++ [y] ++ [f0])) i = _
      rw [show (b :: xs') ++ [y] ++ [f0] = b :: (xs' ++ [y] ++ [f0]) by simp]
      show pathNeighbors (b :: (xs' ++ [y] ++ [f0])) i ∪ _ ∪ _ = _
      have hb := ih y f0 i
      rw [show (b :: xs') ++ [y] ++ [f0] = b :: (xs' ++ [y] ++ [f0]) by simp]
        at hb
      rw [hb]
      show _ = pathNeighbors ((a :: b :: xs') ++ [y]) i ∪ _
      rw [show (a :: b :: xs') ++ [y] = a :: b :: (xs' ++ [y]) by simp]
      show _ = pathNeighbors (b :: (xs' ++ [y])) i ∪ _ ∪ _ ∪ _
      rw [show (b :: xs') ++ [y] = b :: (xs' ++ [y]) by simp]
      ext x
      simp only [Finset.mem_union]
      tauto

theorem Walker.loopErasedStep_startNode (w : Walker) (n : Nat) :
    (w.loopErasedStep n).startNode = w.startNode := by
  unfold Walker.loopErasedStep
  cases w.stepsOn n <;> rfl

theorem Walker.stepsOn_never_spec {w : Walker} {n : Nat}
    (h : w.stepsOn n = .never) : w.startNode ≠ n ∧ n ∉ w.path := by
  unfold Walker.stepsOn at h
  by_cases hs : w.startNode = n
  · rw [if_pos hs] at h
    exact RepeatedDirection.noConfusion h
  · rw [if_neg hs] at h
    refine ⟨hs, ?_⟩
    cases hidx : w.path.findIdx? (fun x => x = n) with
    | some i =>
      rw [hidx] at h
      exact RepeatedDirection.noConfusion h
    | none =>
      intro hmem
      have := List.findIdx?_eq_none_iff.mp hidx n hmem
      simp at this

theorem Walker.totalPath_loopErasedStep_nodup {w : Walker}
    (hnd : w.totalPath.Nodup) (n : Nat) :
    (w.loopErasedStep n).totalPath.Nodup := by
  unfold Walker.loopErasedStep
  cases hso : w.stepsOn n with
  | start =>
    show (w.startNode :: ([] : List Nat)).Nodup
    exact List.nodup_cons.mpr ⟨List.not_mem_nil _, List.nodup_nil⟩
  | middle i =>
    show (w.startNode :: w.path.take i).Nodup
    have hsub : (w.startNode :: w.path.take i).Sublist (w.startNode :: w.path) :=
      List.Sublist.cons₂ _ (List.take_sublist i w.path)
    exact List.Nodup.sublist hsub hnd
  | never =>
    obtain ⟨hs, hmem⟩ := Walker.stepsOn_never_spec hso
    show (w.startNode :: (w.path ++ [n])).Nodup
    rw [show w.startNode :: (w.path ++ [n]) =
      (w.startNode :: w.path) ++ [n] from rfl]
    rw [List.nodup_append]
    refine ⟨hnd, List.nodup_cons.mpr ⟨List.not_mem_nil _, List.nodup_nil⟩, ?_⟩
    intro x hx hxn
    rw [List.mem_singleton.mp hxn] at hx
    rcases List.mem_cons.mp hx with heq | hmem'
    · exact hs heq.symm
    · exact hmem hmem'

theorem Walker.finalNode_loopErasedStep_never {w : Walker} {n : Nat}
    (hso : w.stepsOn n = .never) :
    (w.loopErasedStep n).finalNode = n := by
  unfold Walker.loopErasedStep
  rw [hso]
  unfold Walker.finalNode
  dsimp only
  rw [List.getLast?_concat]
  rfl

theorem Walker.totalPath_loopErasedStep_subset {w : Walker} {n x : Nat}
    (hx : x ∈ (w.loopErasedStep n).totalPath) : x ∈ w.totalPath ∨ x = n := by
  unfold Walker.loopErasedStep at hx
  cases hso : w.stepsOn n with
  | start =>
    rw [hso] at hx
    have : x ∈ w.startNode :: ([] : List Nat) := hx
    rcases List.mem_cons.mp this with rfl | h
    · exact Or.inl (List.mem_cons_self _ _)
    · exact absurd h (List.not_mem_nil x)
  | middle i =>
    rw [hso] at hx
    have : x ∈ w.startNode :: w.path.take i := hx
    rcases List.mem_cons.mp this with rfl | h
    · exact Or.inl (List.mem_cons_self _ _)
    · exact Or.inl (List.mem_cons_of_mem _ (List.mem_of_mem_take h))
  | never =>
    rw [hso] at hx
    have : x ∈ w.startNode :: (w.path ++ [n]) := hx
    rcases List.mem_cons.mp this with rfl | h
    · exact Or.inl (List.mem_cons_self _ _)
    · rcases List.mem_append.mp h with h' | h'
      · exact Or.inl (List.mem_cons_of_mem _ h')
      · exact Or.inr (List.mem_singleton.mp h')

theorem Walker.totalPath_loopErasedStep_mem {w : Walker} {n x : Nat}
    (hx : x ∈ (w.loopErasedStep n).totalPath) :
    x ∈ w.totalPath ∨ x = (w.loopErasedStep n).finalNode := by
  cases hso : w.stepsOn n with
  | start =>
    unfold Walker.loopErasedStep at hx
    rw [hso] at hx
    have : x ∈ w.startNode :: ([] : List Nat) := hx
    rcases List.mem_cons.mp this with rfl | h
    · exact Or.inl (List.mem_cons_self _ _)
    · exact absurd h (List.not_mem_nil x)
  | middle i =>
    unfold Walker.loopErasedStep at hx
    rw [hso] at hx
    have : x ∈ w.startNode :: w.path.take i := hx
    rcases List.mem_cons.mp this with rfl | h
    · exact Or.inl (List.mem_cons_self _ _)
    · exact Or.inl (List.mem_cons_of_mem _ (List.mem_of_mem_take h))
  | never =>
    rcases Walker.totalPath_loopErasedStep_subset hx with h | rfl
    · exact Or.inl h
    · exact Or.inr (Walker.finalNode_loopErasedStep_never hso).symm

theorem walkUntilIn_done_spec {q : Pool U} {targets : Finset Nat}
    {draws : Nat → Nat} {N : Nat}
    (hadjlt : ∀ i a, a ∈ q.neighborhoodOf i → a < N)
    {s : Nat} (hs : s < N) {fuel k0 : Nat} {w : Walker} {k2 : Nat}
    (hrun : walkUntilIn q targets draws fuel (Walker.new s) k0 =
      .done (w, k2)) :
    w.startNode = s ∧ w.totalPath.Nodup ∧ (∀ x ∈ w.totalPath, x < N) ∧
    w.finalNode ∈ targets ∧
    (∀ x ∈ w.totalPath, x ≠ w.finalNode → x ∉ targets) := by
  unfold walkUntilIn at hrun
  set P : Walker × Nat → Prop := fun st =>
    st.1.startNode = s ∧ st.1.totalPath.Nodup ∧
    (∀ x ∈ st.1.totalPath, x < N) ∧
    (∀ x ∈ st.1.totalPath, x ≠ st.1.finalNode → x ∉ targets) with hPdef
  have hstep : ∀ st, P st →
      (fun st : Walker × Nat => decide (st.1.finalNode ∉ targets)) st = true →
      ∀ st', (fun st : Walker × Nat =>
        (walkerRandomStep q draws st.2 st.1).map
          (fun w' => (w', st.2 + 1))) st = some st' → P st' := by
    intro st hP hcond st' hs'
    obtain ⟨hstart, hnd, hbound, hinv⟩ := hP
    have hfin : st.1.finalNode ∉ targets := of_decide_eq_true hcond
    have hall : ∀ x ∈ st.1.totalPath, x ∉ targets := by
      intro x hx
      by_cases hxf : x = st.1.finalNode
      · rw [hxf]
        exact hfin
      · exact hinv x hx hxf
    dsimp only at hs'
    cases hw : walkerRandomStep q draws st.2 st.1 with
    | none =>
      rw [hw] at hs'
      exact Option.noConfusion hs'
    | some w2 =>
      rw [hw] at hs'
      have hst' : (w2, st.2 + 1) = st' := by simpa using hs'
      subst hst'
      unfold walkerRandomStep at hw
      by_cases hlen : ((q.neighborhoodOf st.1.finalNode).sort (· ≤ ·)).length = 0
      · rw [if_pos hlen] at hw
        exact Option.noConfusion hw
      · rw [if_neg hlen] at hw
        set next := ((q.neighborhoodOf st.1.finalNode).sort (· ≤ ·)).getD
          (draws st.2 % ((q.neighborhoodOf st.1.finalNode).sort
            (· ≤ ·)).length) 0 with hnext
        have hnmem : next ∈ q.neighborhoodOf st.1.finalNode := by
          rw [← Finset.mem_sort (α := Nat) (· ≤ ·)]
          exact getD_mem_of_lt (Nat.mod_lt _ (Nat.pos_of_ne_zero hlen)) 0
        have hnlt : next < N := hadjlt _ _ hnmem
        have hw2 : w2 = st.1.loopErasedStep next := (Option.some_inj.mp hw).symm
        subst hw2
        refine ⟨?_, ?_, ?_, ?_⟩
        · show (st.1.loopErasedStep next).startNode = s
          rw [Walker.loopErasedStep_startNode]
          exact hstart
        · exact Walker.totalPath_loopErasedStep_nodup hnd next
        · intro x hx
          rcases Walker.totalPath_loopErasedStep_subset hx with h | rfl
          · exact hbound x h
          · exact hnlt
        · intro x hx hxf
          rcases Walker.totalPath_loopErasedStep_mem hx with h | h
          · exact hall x h
          · exact absurd h hxf
  have hP0 : P (Walker.new s, k0) := by
    refine ⟨rfl, ?_, ?_, ?_⟩
    · exact List.nodup_cons.mpr ⟨List.not_mem_nil _, List.nodup_nil⟩
    · intro x hx
      have : x = s := by
        rcases List.mem_cons.mp hx with rfl | h
        · rfl
        · exact absurd h (List.not_mem_nil x)
      rw [this]
      exact hs
    · intro x hx hxf
      have hxs : x = s := by
        rcases List.mem_cons.mp hx with rfl | h
        · rfl
        · exact absurd h (List.not_mem_nil x)
      exact absurd hxs hxf
  rcases whileFuel_done_inv _ _ P hstep fuel (Walker.new s, k0) (w, k2) hP0
    hrun with ⟨⟨hstart, hnd, hbound, hinv⟩, hcondf⟩
  have hfinmem : w.finalNode ∈ targets := by
    have := of_decide_eq_false hcondf
    by_contra hne2
    exact this hne2
  exact ⟨hstart, hnd, hbound, hfinmem, hinv⟩

theorem carveFold_spec :
    ∀ (l : List Nat) (q q' : Pool U), l.Chain' (· ≠ ·) →
      carveFold q l = some q' →
      q'.size = q.size ∧ (∀ j, q'.neighborhoodOf j = q.neighborhoodOf j) ∧
      (∀ i, q'.passagesOf i = q.passagesOf i ∪ pathNeighbors l i) := by
  intro l
  induction l with
  | nil =>
    intro q q' _ h
    have hqq : q = q' := Option.some_inj.mp h
    subst hqq
    exact ⟨rfl, fun j => rfl,
      fun i => (Finset.union_empty _).symm⟩
  | cons a rest ih =>
    intro q q' hchain h
    cases rest with
    | nil =>
      have hqq : q = q' := Option.some_inj.mp h
      subst hqq
      refine ⟨rfl, fun j => rfl, fun i => ?_⟩
      rw [pathNeighbors_single, Finset.union_empty]
    | cons b rest' =>
      unfold carveFold at h
      cases hlink : q.linkCells a b true with
      | none =>
        rw [hlink] at h
        exact Option.noConfusion h
      | some q1 =>
        rw [hlink] at h
        have hab : a ≠ b := (List.chain'_cons.mp hchain).1
        obtain ⟨-, -, -, -, hsz1, hnbd1, hpa, hpb, hpo⟩ :=
          Pool.linkCells_true_char hab hlink
        obtain ⟨hsz2, hnbd2, hpass2⟩ :=
          ih q1 q' (List.chain'_cons.mp hchain).2 h
        refine ⟨hsz2.trans hsz1, fun j => (hnbd2 j).trans (hnbd1 j), ?_⟩
        intro i
        rw [hpass2 i]
        rw [show pathNeighbors (a :: b :: rest') i =
          pathNeighbors (b :: rest') i ∪
          (if i = a then {b} else ∅) ∪ (if i = b then {a} else ∅) from rfl]
        by_cases hia : i = a
        · subst hia
          rw [hpa, if_pos rfl, if_neg hab]
          ext x
          simp only [Finset.mem_union, Finset.mem_insert, Finset.mem_singleton,
            Finset.not_mem_empty, or_false]
          tauto
        · by_cases hib : i = b
          · subst hib
            rw [hpb, if_neg hia, if_pos rfl]
            ext x
            simp only [Finset.mem_union, Finset.mem_insert,
              Finset.mem_singleton, Finset.not_mem_empty, false_or]
            tauto
          · rw [hpo i hia hib, if_neg hia, if_neg hib]
            ext x
            simp only [Finset.mem_union, Finset.not_mem_empty, or_false]

theorem spanningTree_attach_path (n : Nat) (l : List Nat) :
    ∀ (V : Finset Nat) (f0 : Nat) (g : Nat → Finset Nat),
      SpanningTreeOn (mkPassPool n g) V → f0 ∈ V →
      (l ++ [f0]).Nodup → (∀ x ∈ l, x ∉ V) → (∀ x ∈ l, x < n) →
      SpanningTreeOn
        (mkPassPool n (fun i => g i ∪ pathNeighbors (l ++ [f0]) i))
        (V ∪ l.toFinset) := by
  induction l using List.reverseRecOn with
  | nil =>
    intro V f0 g hst hf0 _ _ _
    have hpools : (fun i => g i ∪ pathNeighbors ([] ++ [f0]) i) = g := by
      funext i
      rw [List.nil_append, pathNeighbors_single, Finset.union_empty]
    rw [hpools]
    simpa using hst
  | append_singleton xs y ih =>
    intro V f0 g hst hf0 hnd hnotin hlt
    have hylt : y < n := hlt y (by simp)
    have hynotV : y ∉ V := hnotin y (by simp)
    obtain ⟨hnd1, -, hdisj⟩ := List.nodup_append.mp hnd
    have hyf0 : y ≠ f0 := by
      intro heq
      exact hdisj (List.mem_append_right xs (List.mem_singleton.mpr rfl))
        (List.mem_singleton.mpr heq)
    have hf0lt : f0 < n := by
      have hb := hst.2.2.2.2.1 f0 hf0
      rwa [size_mkPassPool] at hb
    have hext : SpanningTreeOn
        (mkPassPool n (fun i => g i ∪
          ((if i = y then {f0} else ∅) ∪ (if i = f0 then {y} else ∅))))
        (insert y V) := by
      refine spanningTree_extend hst hf0 hynotV ?_ ?_ ?_ ?_ ?_
      · rw [size_mkPassPool]
        exact hylt
      · rw [size_mkPassPool, size_mkPassPool]
      · rw [passagesOf_mkPassPool, passagesOf_mkPassPool,
          if_pos hf0lt, if_pos hf0lt]
        rw [if_neg (fun h : f0 = y => hyf0 h.symm), if_pos rfl]
        ext x
        simp only [Finset.mem_union, Finset.mem_insert, Finset.mem_singleton,
          Finset.not_mem_empty, false_or]
        tauto
      · rw [passagesOf_mkPassPool, passagesOf_mkPassPool,
          if_pos hylt, if_pos hylt]
        rw [if_pos rfl, if_neg hyf0]
        ext x
        simp only [Finset.mem_union, Finset.mem_insert, Finset.mem_singleton,
          Finset.not_mem_empty, or_false]
        tauto
      · intro j hjf0 hjy
        rw [passagesOf_mkPassPool, passagesOf_mkPassPool]
        by_cases hj : j < n
        · rw [if_pos hj, if_pos hj, if_neg hjy, if_neg hjf0]
          simp
        · rw [if_neg hj, if_neg hj]
    have hih := ih (insert y V) y
      (fun i => g i ∪
        ((if i = y then {f0} else ∅) ∪ (if i = f0 then {y} else ∅)))
      hext (Finset.mem_insert_self y V)
      (List.Nodup.sublist (List.sublist_append_left _ _) hnd)
      (by
        intro x hx
        rw [Finset.mem_insert]
        rintro (rfl | hxV)
        · rcases List.nodup_append.mp hnd1 with ⟨-, -, hdisj1⟩
          exact hdisj1 hx (List.mem_singleton.mpr rfl)
        · exact hnotin x (List.mem_append_left _ hx) hxV)
      (fun x hx => hlt x (List.mem_append_left _ hx))
    have hfun : (fun i => g i ∪ pathNeighbors (xs ++ [y] ++ [f0]) i) =
        (fun i => (g i ∪
          ((if i = y then {f0} else ∅) ∪ (if i = f0 then {y} else ∅))) ∪
          pathNeighbors (xs ++ [y]) i) := by
      funext i
      rw [pathNeighbors_concat]
      ext x
      simp only [Finset.mem_union]
      tauto
    have hset : V ∪ (xs ++ [y]).toFinset = insert y V ∪ xs.toFinset := by
      ext x
      simp only [Finset.mem_union, Finset.mem_insert, List.toFinset_append,
        List.mem_toFinset, List.toFinset_cons, List.toFinset_nil,
        Finset.mem_singleton, insert_emptyc_eq, List.mem_singleton]
      tauto
    rw [hfun, hset]
    exact hih

theorem Walker.totalPath_eq_dropLast_append (w : Walker) :
    w.totalPath = w.totalPath.dropLast ++ [w.finalNode] := by
  unfold Walker.totalPath Walker.finalNode
  induction w.path using List.reverseRecOn with
  | nil => rfl
  | append_singleton xs a _ =>
    rw [List.getLast?_concat]
    rw [show w.startNode :: (xs ++ [a]) = (w.startNode :: xs) ++ [a] from rfl]
    rw [List.dropLast_concat]
    rfl

theorem pathNeighbors_eq_empty_of_not_mem :
    ∀ (l : List Nat) (i : Nat), i ∉ l → pathNeighbors l i = ∅ := by
  intro l
  induction l with
  | nil =>
    intro i _
    rfl
  | cons a rest ih =>
    intro i hi
    cases rest with
    | nil => rfl
    | cons b rest' =>
      rw [show pathNeighbors (a :: b :: rest') i =
        pathNeighbors (b :: rest') i ∪
        (if i = a then {b} else ∅) ∪ (if i = b then {a} else ∅) from rfl]
      rw [ih i (fun h => hi (List.mem_cons_of_mem _ h))]
      rw [if_neg (fun h : i = a => hi (by rw [h]; exact List.mem_cons_self _ _))]
      rw [if_neg (fun h : i = b => hi (by
        rw [h]
        exact List.mem_cons_of_mem _ (List.mem_cons_self _ _)))]
      simp

theorem wilsonGo_spanningTree {T : Type _} (draws : Nat → Nat) (fuel n : Nat) :
    ∀ (starts : List Nat) (p : Pool T) (V : Finset Nat) (k : Nat) (p' : Pool T),
      p.size = n →
      (∀ i a, a ∈ p.neighborhoodOf i → a < n) →
      SpanningTreeOn p V →
      (∀ x ∈ starts, x < n) →
      wilsonGo draws fuel starts p V k = .done p' →
      ∃ W : Finset Nat, V ∪ starts.toFinset ⊆ W ∧ W ⊆ Finset.range n ∧
        SpanningTreeOn p' W := by
  intro starts
  induction starts with
  | nil =>
    intro p V k p' hsize hadj hst hlt hrun
    unfold wilsonGo at hrun
    have hpp : p = p' := RunResult.done.inj hrun
    subst hpp
    refine ⟨V, ?_, ?_, hst⟩
    · intro x hx
      rcases Finset.mem_union.mp hx with h | h
      · exact h
      · simp at h
    · intro x hx
      rw [Finset.mem_range]
      have := hst.2.2.2.2.1 x hx
      rwa [hsize] at this
  | cons s rest ih =>
    intro p V k p' hsize hadj hst hlt hrun
    unfold wilsonGo at hrun
    cases hw : walkUntilIn p V draws fuel (Walker.new s) k with
    | fuelOut =>
      rw [hw] at hrun
      exact RunResult.noConfusion hrun
    | panicked =>
      rw [hw] at hrun
      exact RunResult.noConfusion hrun
    | done wk =>
      rw [hw] at hrun
      obtain ⟨w, k2⟩ := wk
      dsimp only at hrun
      cases hc : carveFold p w.totalPath with
      | none =>
        rw [hc] at hrun
        exact RunResult.noConfusion hrun
      | some p1 =>
        rw [hc] at hrun
        have hslt : s < n := hlt s (List.mem_cons_self _ _)
        obtain ⟨hstart, hnd, hbound, hfin, hnv⟩ :=
          walkUntilIn_done_spec hadj hslt hw
        obtain ⟨hsz1, hnbd1, hpass1⟩ :=
          carveFold_spec w.totalPath p p1 (List.Pairwise.chain' hnd) hc
        have hdecomp := Walker.totalPath_eq_dropLast_append w
        set l0 := w.totalPath.dropLast with hl0
        have hstM : SpanningTreeOn (mkPassPool n (fun i => p.passagesOf i))
            V := by
          refine spanningTreeOn_congr ?_ ?_ hst
          · rw [size_mkPassPool, hsize]
          · intro i
            rw [passagesOf_mkPassPool]
            by_cases hi : i < n
            · rw [if_pos hi]
            · rw [if_neg hi]
              exact (Pool.passagesOf_of_ge (by rw [hsize]; omega)).symm
        have hndD : (l0 ++ [w.finalNode]).Nodup := by
          rw [← hdecomp]
          exact hnd
        have hl0notV : ∀ x ∈ l0, x ∉ V := by
          intro x hx
          obtain ⟨-, -, hdisj⟩ := List.nodup_append.mp hndD
          have hxf : x ≠ w.finalNode := fun h =>
            hdisj hx (List.mem_singleton.mpr h)
          exact hnv x (by rw [hdecomp]; exact List.mem_append_left _ hx) hxf
        have hl0lt : ∀ x ∈ l0, x < n := fun x hx =>
          hbound x (by rw [hdecomp]; exact List.mem_append_left _ hx)
        have hattach := spanningTree_attach_path n l0 V w.finalNode
          (fun i => p.passagesOf i) hstM hfin hndD hl0notV hl0lt
        have hstP1 : SpanningTreeOn p1 (V ∪ l0.toFinset) := by
          refine spanningTreeOn_congr ?_ ?_ hattach
          · rw [size_mkPassPool, hsz1]
            exact hsize
          · intro i
            rw [passagesOf_mkPassPool, hpass1 i]
            by_cases hi : i < n
            · rw [if_pos hi, ← hdecomp]
            · rw [if_neg hi]
              have hpe : p.passagesOf i = ∅ :=
                Pool.passagesOf_of_ge (by rw [hsize]; omega)
              have hpn : pathNeighbors w.totalPath i = ∅ := by
                refine pathNeighbors_eq_empty_of_not_mem _ _ ?_
                intro hmem
                exact hi (hbound i hmem)
              rw [hpe, hpn, Finset.union_empty]
        have hVeq : V ∪ w.totalPath.toFinset = V ∪ l0.toFinset := by
          ext x
          simp only [Finset.mem_union, List.mem_toFinset]
          constructor
          · rintro (h | h)
            · exact Or.inl h
            · rw [hdecomp] at h
              rcases List.mem_append.mp h with h' | h'
              · exact Or.inr h'
              · rw [List.mem_singleton.mp h']
                exact Or.inl hfin
          · rintro (h | h)
            · exact Or.inl h
            · refine Or.inr ?_
              rw [hdecomp]
              exact List.mem_append_left _ h
        rw [hVeq] at hrun
        obtain ⟨W, hsub, hWr, hWst⟩ := ih p1 (V ∪ l0.toFinset) k2 p'
          (by rw [hsz1]; exact hsize)
          (fun i a ha => hadj i a (by rw [← hnbd1 i]; exact ha))
          hstP1
          (fun x hx => hlt x (List.mem_cons_of_mem _ hx))
          hrun
        refine ⟨W, ?_, hWr, hWst⟩
        intro x hx
        rcases Finset.mem_union.mp hx with h | h
        · exact hsub (Finset.mem_union_left _ (Finset.mem_union_left _ h))
        · rw [List.toFinset_cons, Finset.mem_insert] at h
          rcases h with rfl | h
          · have hsmem : x ∈ w.totalPath := by
              unfold Walker.totalPath
              rw [hstart]
              exact List.mem_cons_self _ _
            have hxin : x ∈ V ∪ l0.toFinset := by
              rw [← hVeq]
              exact Finset.mem_union_right _ (List.mem_toFinset.mpr hsmem)
            exact hsub (Finset.mem_union_left _ hxin)
          · exact hsub (Finset.mem_union_right _ h)

theorem wilsonRun_done_spanningTree {T : Type _} {p : Pool T}
    {draws : Nat → Nat} {fuel : Nat} {p' : Pool T}
    (hadj : ∀ i a, a ∈ p.neighborhoodOf i → a < p.size)
    (hnolinks : ∀ i, p.passagesOf i = ∅)
    (hpos : 0 < p.size)
    (hrun : wilsonRun p draws fuel = .done p') :
    SpanningTreeOn p' (Finset.range p.size) := by
  obtain ⟨m, hm⟩ := Nat.exists_eq_succ_of_ne_zero (Nat.pos_iff_ne_zero.mp hpos)
  unfold wilsonRun at hrun
  rw [hm, List.range_succ, List.reverse_append, List.reverse_singleton] at hrun
  have hrun' : wilsonGo draws fuel (List.range m).reverse p {m} 0 = .done p' :=
    hrun
  obtain ⟨W, hsub, hWr, hWst⟩ := wilsonGo_spanningTree draws fuel p.size
    (List.range m).reverse p {m} 0 p' rfl hadj
    (spanningTreeOn_singleton (by omega) hnolinks)
    (by
      intro x hx
      rw [List.mem_reverse, List.mem_range] at hx
      omega)
    hrun'
  have hWeq : W = Finset.range p.size := by
    refine Finset.Subset.antisymm hWr ?_
    intro x hx
    rw [Finset.mem_range, hm] at hx
    refine hsub ?_
    rw [Finset.mem_union, Finset.mem_singleton, List.mem_toFinset,
      List.mem_reverse, List.mem_range]
    omega
  rw [← hWeq]
  exact hWst

theorem Pool.payloads_linkCells {p p' : Pool T} {a b : Nat}
    (h : p.linkCells a b true = some p') (j : Nat) :
    (p'.node? j).map (·.payload) = (p.node? j).map (·.payload) := by
  have hnb : (p.updateNode a
      (fun n => { n with links := insert b n.links })).neighborhoodOf b =
      p.neighborhoodOf b := Pool.neighborhoodOf_updateLinks p a b _
  by_cases h1 : b ∈ p.neighborhoodOf a
  · by_cases h2 : a ∈ p.neighborhoodOf b
    · have hbig : p.linkCellsRaw a b true =
          ((p.updateNode a (fun n => { n with links := insert b n.links })).updateNode
            b (fun n => { n with links := insert a n.links }), false) := by
        unfold Pool.linkCellsRaw
        rw [if_pos h1, if_pos rfl, if_pos (hnb ▸ h2)]
      unfold Pool.linkCells at h
      rw [hbig] at h
      dsimp only at h
      rw [if_neg (by simp)] at h
      have hp' := (Option.some_inj.mp h).symm
      rw [hp', Pool.node?_updateNode, Pool.node?_updateNode]
      by_cases hjb : j = b
      · rw [if_pos hjb]
        by_cases hja : j = a
        · rw [if_pos hja]
          cases p.node? j <;> rfl
        · rw [if_neg hja]
          cases p.node? j <;> rfl
      · rw [if_neg hjb]
        by_cases hja : j = a
        · rw [if_pos hja]
          cases p.node? j <;> rfl
        · rw [if_neg hja]
    · have hbig : p.linkCellsRaw a b true =
          (p.updateNode a (fun n => { n with links := insert b n.links }),
            true) := by
        unfold Pool.linkCellsRaw
        rw [if_pos h1, if_pos rfl, if_neg (hnb ▸ h2)]
      unfold Pool.linkCells at h
      rw [hbig] at h
      dsimp only at h
      rw [if_pos rfl] at h
      exact Option.noConfusion h
  · have hbig : p.linkCellsRaw a b true = (p, true) := by
      unfold Pool.linkCellsRaw
      rw [if_neg h1]
    unfold Pool.linkCells at h
    rw [hbig] at h
    dsimp only at h
    rw [if_pos rfl] at h
    exact Option.noConfusion h

theorem Pool.linkCells_passages_mono {p p' : Pool T} {a b : Nat} (hab : a ≠ b)
    (h : p.linkCells a b true = some p') (j : Nat) :
    p.passagesOf j ⊆ p'.passagesOf j := by
  obtain ⟨-, -, -, -, -, -, hpa, hpb, hpo⟩ := Pool.linkCells_true_char hab h
  by_cases hja : j = a
  · subst hja
    rw [hpa]
    exact Finset.subset_insert _ _
  · by_cases hjb : j = b
    · subst hjb
      rw [hpb]
      exact Finset.subset_insert _ _
    · rw [hpo j hja hjb]

theorem Pool.linkCells_true_passages_char {p p' : Pool T} {a b : Nat}
    (hab : a ≠ b) (h : p.linkCells a b true = some p') (u : Nat) :
    p'.passagesOf u = p.passagesOf u ∪
      ((if u = a then {b} else ∅) ∪ (if u = b then {a} else ∅)) := by
  obtain ⟨-, -, -, -, -, -, hpa, hpb, hpo⟩ := Pool.linkCells_true_char hab h
  by_cases hua : u = a
  · rw [hua, hpa, if_pos rfl, if_neg hab]
    ext z
    simp only [Finset.mem_insert, Finset.mem_union, Finset.mem_singleton,
      Finset.not_mem_empty, or_false]
    tauto
  · by_cases hub : u = b
    · rw [hub, hpb, if_neg (fun h2 : b = a => hab h2.symm), if_pos rfl]
      ext z
      simp only [Finset.mem_insert, Finset.mem_union, Finset.mem_singleton,
        Finset.not_mem_empty, false_or]
      tauto
    · rw [hpo u hua hub, if_neg hua, if_neg hub]
      simp

theorem Pool.linkCells_preserves_sym {p p' : Pool T} {a b : Nat} (hab : a ≠ b)
    (h : p.linkCells a b true = some p')
    (hsym : ∀ x y, y ∈ p.passagesOf x → x ∈ p.passagesOf y) :
    ∀ x y, y ∈ p'.passagesOf x → x ∈ p'.passagesOf y := by
  intro x y hxy
  rw [Pool.linkCells_true_passages_char hab h] at hxy
  rw [Pool.linkCells_true_passages_char hab h]
  rcases Finset.mem_union.mp hxy with hy | hy
  · exact Finset.mem_union_left _ (hsym x y hy)
  · refine Finset.mem_union_right _ ?_
    rcases Finset.mem_union.mp hy with hy2 | hy2
    · by_cases hxa : x = a
      · rw [if_pos hxa] at hy2
        have hyb : y = b := Finset.mem_singleton.mp hy2
        rw [hyb, hxa, if_neg (fun h2 : b = a => hab h2.symm), if_pos rfl]
        exact Finset.mem_union_right _ (Finset.mem_singleton.mpr rfl)
      · rw [if_neg hxa] at hy2
        exact absurd hy2 (Finset.not_mem_empty _)
    · by_cases hxb : x = b
      · rw [if_pos hxb] at hy2
        have hya : y = a := Finset.mem_singleton.mp hy2
        rw [hya, hxb, if_pos rfl, if_neg hab]
        exact Finset.mem_union_left _ (Finset.mem_singleton.mpr rfl)
      · rw [if_neg hxb] at hy2
        exact absurd hy2 (Finset.not_mem_empty _)

theorem grid_index_facts {w h i : Nat} (hw : 0 < w) (hi : i < w * h) :
    w * (i / w) + i % w = i ∧ i % w < w ∧ i / w < h := by
  refine ⟨Nat.div_add_mod i w, Nat.mod_lt i hw, ?_⟩
  refine Nat.lt_of_mul_lt_mul_left (a := w) ?_
  calc w * (i / w) ≤ w * (i / w) + i % w := Nat.le_add_right _ _
    _ = i := Nat.div_add_mod i w
    _ < w * h := hi

theorem north_index_facts {w h i : Nat} (hi : i < w * h) (hn : 0 < i / w) :
    0 < w ∧ w ≤ i ∧ (i - w) / w = i / w - 1 ∧ (i - w) % w = i % w ∧
      (i - w) + w = i ∧ i / w < h := by
  have hw : 0 < w := by
    by_contra hw0
    have hz : w = 0 := by omega
    subst hz
    rw [Nat.div_zero] at hn
    omega
  have hwle : w ≤ i := by
    by_contra hlt
    rw [Nat.div_eq_of_lt (by omega)] at hn
    omega
  obtain ⟨hdm, hr, hqh⟩ := grid_index_facts hw hi
  have hq1 : i / w - 1 + 1 = i / w := by omega
  have hmul : w * (i / w) = w * (i / w - 1) + w := by
    conv_lhs => rw [← hq1]
    rw [Nat.mul_succ]
  have hisub : i - w = w * (i / w - 1) + i % w := by omega
  refine ⟨hw, hwle, ?_, ?_, by omega, hqh⟩
  · rw [hisub, Nat.mul_add_div hw, Nat.div_eq_of_lt hr, Nat.add_zero]
  · rw [hisub, Nat.mul_add_mod, Nat.mod_eq_of_lt hr]

theorem east_index_facts {w h i : Nat} (hi : i < w * h) (he : i % w < w - 1) :
    0 < w ∧ (i + 1) / w = i / w ∧ (i + 1) % w = i % w + 1 ∧ i + 1 < w * h := by
  have hw : 0 < w := by
    by_contra hw0
    have hz : w = 0 := by omega
    subst hz
    rw [Nat.mod_zero] at he
    omega
  obtain ⟨hdm, hr, hqh⟩ := grid_index_facts hw hi
  have hrlt : i % w + 1 < w := by omega
  have hsum : i + 1 = w * (i / w) + (i % w + 1) := by omega
  have hsucc : w * (i / w + 1) = w * (i / w) + w := Nat.mul_succ w (i / w)
  have hmle : w * (i / w + 1) ≤ w * h := Nat.mul_le_mul_left w (by omega)
  refine ⟨hw, ?_, ?_, by omega⟩
  · rw [hsum, Nat.mul_add_div hw, Nat.div_eq_of_lt hrlt, Nat.add_zero]
  · rw [hsum, Nat.mul_add_mod, Nat.mod_eq_of_lt hrlt]

theorem FlatSquareGrid.nbhd_of_WF {g : FlatSquareGrid} (hwf : g.WF)
    {i : Nat} (hi : i < g.nodePool.nodes.length) :
    g.nodePool.neighborhoodOf i =
      ((if i / g.width > 0 then some (i - g.width) else none).toList ++
       (if i / g.width < g.height - 1 then some (i + g.width) else none).toList ++
       (if i % g.width < g.width - 1 then some (i + 1) else none).toList ++
       (if i % g.width > 0 then some (i - 1) else none).toList).toFinset := by
  obtain ⟨-, -, -, -, hn, hs, hw2, he, hadj⟩ := hwf.2.2 i hi
  unfold Pool.neighborhoodOf Pool.node?
  rw [List.getElem?_eq_getElem hi]
  show (g.nodePool.nodes.get ⟨i, hi⟩).adjacencies = _
  rw [hadj, hn, hs, he, hw2]

theorem FlatSquareGrid.north_adj {g : FlatSquareGrid} (hwf : g.WF) {i : Nat}
    (hi : i < g.nodePool.nodes.length) (hn : 0 < i / g.width) :
    (i - g.width) ∈ g.nodePool.neighborhoodOf i ∧
    i ∈ g.nodePool.neighborhoodOf (i - g.width) ∧
    i - g.width < g.nodePool.nodes.length ∧ i - g.width ≠ i := by
  have hlen : g.nodePool.nodes.length = g.width * g.height := hwf.1
  obtain ⟨hw, hwle, hdiv, hmod, hadd, hqh⟩ :=
    north_index_facts (hlen ▸ hi) hn
  have hisl : i - g.width < g.nodePool.nodes.length := by omega
  refine ⟨?_, ?_, hisl, by omega⟩
  · rw [FlatSquareGrid.nbhd_of_WF hwf hi, if_pos hn]
    simp only [List.mem_toFinset, List.mem_append, Option.toList_some,
      List.mem_singleton]
    left
    left
    left
    trivial
  · rw [FlatSquareGrid.nbhd_of_WF hwf hisl]
    simp only [List.mem_toFinset, List.mem_append]
    left
    left
    right
    rw [hdiv, if_pos (show i / g.width - 1 < g.height - 1 by omega)]
    rw [Option.toList_some, List.mem_singleton]
    omega

theorem FlatSquareGrid.east_adj {g : FlatSquareGrid} (hwf : g.WF) {i : Nat}
    (hi : i < g.nodePool.nodes.length) (he : i % g.width < g.width - 1) :
    (i + 1) ∈ g.nodePool.neighborhoodOf i ∧
    i ∈ g.nodePool.neighborhoodOf (i + 1) ∧
    i + 1 < g.nodePool.nodes.length := by
  have hlen : g.nodePool.nodes.length = g.width * g.height := hwf.1
  obtain ⟨hw, hdiv, hmod, hlt⟩ := east_index_facts (hlen ▸ hi) he
  have hisl : i + 1 < g.nodePool.nodes.length := by omega
  refine ⟨?_, ?_, hisl⟩
  · rw [FlatSquareGrid.nbhd_of_WF hwf hi]
    simp only [List.mem_toFinset, List.mem_append]
    left
    right
    rw [if_pos he, Option.toList_some, List.mem_singleton]
  · rw [FlatSquareGrid.nbhd_of_WF hwf hisl]
    simp only [List.mem_toFinset, List.mem_append]
    right
    rw [hmod, if_pos (show 0 < i % g.width + 1 by omega)]
    rw [Option.toList_some, List.mem_singleton]
    omega

theorem btFold_spec {g : FlatSquareGrid} (hwf : g.WF) (coins : Nat → Bool) :
    ∀ (ids : List Nat) (st : Pool FlatSquareCell × Nat),
      (∀ i ∈ ids, i < g.nodePool.nodes.length) →
      st.1.size = g.nodePool.size →
      (∀ j, st.1.neighborhoodOf j = g.nodePool.neighborhoodOf j) →
      (∀ j, (st.1.node? j).map (·.payload) =
        (g.nodePool.node? j).map (·.payload)) →
      (∀ x y, y ∈ st.1.passagesOf x → x ∈ st.1.passagesOf y) →
      ∃ st' : Pool FlatSquareCell × Nat,
        ids.foldlM (FlatSquareGrid.btCell coins) st = some st' ∧
        st'.1.size = g.nodePool.size ∧
        (∀ x y, y ∈ st'.1.passagesOf x → x ∈ st'.1.passagesOf y) ∧
        (∀ j, st.1.passagesOf j ⊆ st'.1.passagesOf j) ∧
        (∀ i ∈ ids, (0 < i / g.width ∨ i % g.width < g.width - 1) →
          ∃ j ∈ st'.1.passagesOf i,
            (0 < i / g.width ∧ j = i - g.width) ∨
            (i % g.width < g.width - 1 ∧ j = i + 1)) := by
  intro ids
  induction ids with
  | nil =>
    intro st _ hsize hnbd hpay hsym
    exact ⟨st, rfl, hsize, hsym, fun j => Finset.Subset.refl _,
      fun i hi => absurd hi (List.not_mem_nil i)⟩
  | cons i rest ih =>
    intro st hmem hsize hnbd hpay hsym
    have hi : i < g.nodePool.nodes.length := hmem i (List.mem_cons_self _ _)
    obtain ⟨-, -, -, -, hn9, -, -, he9, -⟩ := hwf.2.2 i hi
    have hpayg : (g.nodePool.node? i).map (·.payload) =
        some ((g.nodePool.nodes.get ⟨i, hi⟩).payload) := by
      unfold Pool.node?
      rw [List.getElem?_eq_getElem hi]
      rfl
    have hpayi := (hpay i).trans hpayg
    have tail : ∀ (p2 : Pool FlatSquareCell) (k2 t : Nat), i ≠ t →
        st.1.linkCells i t true = some p2 →
        FlatSquareGrid.btCell coins st i = some (p2, k2) →
        ((0 < i / g.width ∧ t = i - g.width) ∨
          (i % g.width < g.width - 1 ∧ t = i + 1)) →
        ∃ st' : Pool FlatSquareCell × Nat,
          (i :: rest).foldlM (FlatSquareGrid.btCell coins) st = some st' ∧
          st'.1.size = g.nodePool.size ∧
          (∀ x y, y ∈ st'.1.passagesOf x → x ∈ st'.1.passagesOf y) ∧
          (∀ j, st.1.passagesOf j ⊆ st'.1.passagesOf j) ∧
          (∀ i' ∈ i :: rest,
            (0 < i' / g.width ∨ i' % g.width < g.width - 1) →
            ∃ j ∈ st'.1.passagesOf i',
              (0 < i' / g.width ∧ j = i' - g.width) ∨
              (i' % g.width < g.width - 1 ∧ j = i' + 1)) := by
      intro p2 k2 t htne hp2 hbt hshape
      obtain ⟨-, -, -, -, hsz2, hnbd2, hpa2, -, -⟩ :=
        Pool.linkCells_true_char htne hp2
      have hsym2 := Pool.linkCells_preserves_sym htne hp2 hsym
      have hmono2 := Pool.linkCells_passages_mono htne hp2
      obtain ⟨st', hfold, hsize', hsym', hmono', hlinked'⟩ :=
        ih (p2, k2) (fun j hj => hmem j (List.mem_cons_of_mem _ hj))
          (hsz2.trans hsize)
          (fun j => (hnbd2 j).trans (hnbd j))
          (fun j => (Pool.payloads_linkCells hp2 j).trans (hpay j))
          hsym2
      refine ⟨st', ?_, hsize', hsym', ?_, ?_⟩
      · rw [List.foldlM_cons, hbt]
        exact hfold
      · intro j
        exact (hmono2 j).trans (hmono' j)
      · intro i' hi' hcand
        rcases List.mem_cons.mp hi' with rfl | hi'r
        · refine ⟨t, hmono' _ (by
            rw [hpa2]
            exact Finset.mem_insert_self _ _), hshape⟩
        · exact hlinked' i' hi'r hcand
    by_cases hcn : 0 < i / g.width
    · by_cases hce : i % g.width < g.width - 1
      · -- both candidates: the coin picks
        obtain ⟨hnm1, hnm2, hnlt2, hnne2⟩ := FlatSquareGrid.north_adj hwf hi hcn
        obtain ⟨hem1, hem2, helt2⟩ := FlatSquareGrid.east_adj hwf hi hce
        by_cases hcoin : coins st.2
        · have h1 : (i - g.width) ∈ st.1.neighborhoodOf i := by
            rw [hnbd]
            exact hnm1
          have h2 : i ∈ st.1.neighborhoodOf (i - g.width) := by
            rw [hnbd]
            exact hnm2
          obtain ⟨p2, hp2⟩ := Pool.linkCells_true_succeeds h1 h2
          have htne : i ≠ i - g.width := fun h => hnne2 h.symm
          refine tail p2 (st.2 + 1) (i - g.width) htne hp2 ?_ (Or.inl ⟨hcn, rfl⟩)
          unfold FlatSquareGrid.btCell
          rw [hpayi]
          dsimp only
          rw [hn9, he9, if_pos hcn, if_pos hce]
          simp only [Option.toList_some, List.singleton_append]
          rw [if_pos hcoin, hp2]
          rfl
        · have h1 : (i + 1) ∈ st.1.neighborhoodOf i := by
            rw [hnbd]
            exact hem1
          have h2 : i ∈ st.1.neighborhoodOf (i + 1) := by
            rw [hnbd]
            exact hem2
          obtain ⟨p2, hp2⟩ := Pool.linkCells_true_succeeds h1 h2
          have htne : i ≠ i + 1 := by omega
          refine tail p2 (st.2 + 1) (i + 1) htne hp2 ?_ (Or.inr ⟨hce, rfl⟩)
          unfold FlatSquareGrid.btCell
          rw [hpayi]
          dsimp only
          rw [hn9, he9, if_pos hcn, if_pos hce]
          simp only [Option.toList_some, List.singleton_append]
          rw [if_neg hcoin, hp2]
          rfl
      · -- north only
        obtain ⟨hnm1, hnm2, hnlt2, hnne2⟩ := FlatSquareGrid.north_adj hwf hi hcn
        have h1 : (i - g.width) ∈ st.1.neighborhoodOf i := by
          rw [hnbd]
          exact hnm1
        have h2 : i ∈ st.1.neighborhoodOf (i - g.width) := by
          rw [hnbd]
          exact hnm2
        obtain ⟨p2, hp2⟩ := Pool.linkCells_true_succeeds h1 h2
        have htne : i ≠ i - g.width := fun h => hnne2 h.symm
        refine tail p2 st.2 (i - g.width) htne hp2 ?_ (Or.inl ⟨hcn, rfl⟩)
        unfold FlatSquareGrid.btCell
        rw [hpayi]
        dsimp only
        rw [hn9, he9, if_pos hcn, if_neg hce]
        simp only [Option.toList_some, Option.toList_none, List.append_nil]
        rw [hp2]
        rfl
    · by_cases hce : i % g.width < g.width - 1
      · -- east only
        obtain ⟨hem1, hem2, helt2⟩ := FlatSquareGrid.east_adj hwf hi hce
        have h1 : (i + 1) ∈ st.1.neighborhoodOf i := by
          rw [hnbd]
          exact hem1
        have h2 : i ∈ st.1.neighborhoodOf (i + 1) := by
          rw [hnbd]
          exact hem2
        obtain ⟨p2, hp2⟩ := Pool.linkCells_true_succeeds h1 h2
        have htne : i ≠ i + 1 := by omega
        refine tail p2 st.2 (i + 1) htne hp2 ?_ (Or.inr ⟨hce, rfl⟩)
        unfold FlatSquareGrid.btCell
        rw [hpayi]
        dsimp only
        rw [hn9, he9, if_neg hcn, if_pos hce]
        simp only [Option.toList_some, Option.toList_none, List.nil_append]
        rw [hp2]
        rfl
      · -- no candidates: the cell is skipped
        have hbt : FlatSquareGrid.btCell coins st i = some st := by
          unfold FlatSquareGrid.btCell
          rw [hpayi]
          dsimp only
          rw [hn9, he9, if_neg hcn, if_neg hce]
          rfl
        obtain ⟨st', hfold, hsize', hsym', hmono', hlinked'⟩ :=
          ih st (fun j hj => hmem j (List.mem_cons_of_mem _ hj))
            hsize hnbd hpay hsym
        refine ⟨st', ?_, hsize', hsym', hmono', ?_⟩
        · rw [List.foldlM_cons, hbt]
          exact hfold
        · intro i' hi' hcand
          rcases List.mem_cons.mp hi' with rfl | hi'r
          · rcases hcand with h | h
            · exact absurd h hcn
            · exact absurd h hce
          · exact hlinked' i' hi'r hcand

theorem binaryTree_run {g : FlatSquareGrid} (hwf : g.WF) (coins : Nat → Bool)
    (hnolinks : ∀ i, g.nodePool.passagesOf i = ∅) :
    ∃ g', FlatSquareGrid.binaryTree g coins = some g' ∧
      g'.nodePool.size = g.nodePool.size ∧
      ∀ i, i < g.nodePool.size → ∀ j, j < g.nodePool.size →
        g'.nodePool.LinkReach i j := by
  obtain ⟨st', hfold, hsize', hsym', hmono', hlinked⟩ :=
    btFold_spec hwf coins (List.range g.nodePool.size) (g.nodePool, 0)
      (fun i hi => List.mem_range.mp hi) rfl (fun j => rfl) (fun j => rfl)
      (fun x y hxy => by
        rw [hnolinks x] at hxy
        exact absurd hxy (Finset.not_mem_empty y))
  refine ⟨{ g with nodePool := st'.1 }, ?_, hsize', ?_⟩
  · unfold FlatSquareGrid.binaryTree
    rw [hfold]
    rfl
  · intro i hi j hj
    dsimp only
    have hlen : g.nodePool.nodes.length = g.width * g.height := hwf.1
    have hsz : g.nodePool.size = g.width * g.height := hlen
    have hw : 0 < g.width := by
      by_contra hw0
      have hz : g.width = 0 := by omega
      rw [hz, Nat.zero_mul] at hsz
      omega
    have hreach_root : ∀ m i', i' < g.nodePool.size →
        i' / g.width + (g.width - 1 - i' % g.width) ≤ m →
        st'.1.LinkReach i' (g.width - 1) := by
      intro m
      induction m with
      | zero =>
        intro i' hi' hm
        obtain ⟨qd, hqd⟩ : ∃ q, i' / g.width = q := ⟨_, rfl⟩
        obtain ⟨rm, hrm⟩ : ∃ r, i' % g.width = r := ⟨_, rfl⟩
        rw [hqd, hrm] at hm
        have hmge : g.width - 1 ≤ rm := by omega
        have hlt : i' < g.width := by
          by_contra hge
          have h1 : 1 ≤ i' / g.width := (Nat.one_le_div_iff hw).mpr (by omega)
          rw [hqd] at h1
          omega
        have hmod : i' % g.width = i' := Nat.mod_eq_of_lt hlt
        rw [hrm] at hmod
        have heq : i' = g.width - 1 := by omega
        rw [heq]
        exact Relation.ReflTransGen.refl
      | succ m ihm =>
        intro i' hi' hm
        by_cases hroot : i' / g.width = 0 ∧ g.width - 1 ≤ i' % g.width
        · have hlt : i' < g.width := by
            by_contra hge
            have h1 : 1 ≤ i' / g.width := (Nat.one_le_div_iff hw).mpr (by omega)
            rw [hroot.1] at h1
            omega
          have hmod : i' % g.width = i' := Nat.mod_eq_of_lt hlt
          have hmge : g.width - 1 ≤ i' % g.width := hroot.2
          rw [hmod] at hmge
          have heq : i' = g.width - 1 := by omega
          rw [heq]
          exact Relation.ReflTransGen.refl
        · have hcand : 0 < i' / g.width ∨ i' % g.width < g.width - 1 := by
            by_contra hno
            push_neg at hno
            exact hroot ⟨Nat.le_zero.mp hno.1, hno.2⟩
          obtain ⟨j2, hj2mem, hj2shape⟩ :=
            hlinked i' (List.mem_range.mpr hi') hcand
          have hstep : Relation.ReflTransGen
              (fun a b => b ∈ st'.1.passagesOf a) i' j2 :=
            Relation.ReflTransGen.single hj2mem
          rcases hj2shape with ⟨hcn, rfl⟩ | ⟨hce, rfl⟩
          · obtain ⟨-, -, hdiv, hmod, -, -⟩ :=
              north_index_facts (w := g.width) (h := g.height)
                (by rw [← hsz]; exact hi') hcn
            refine hstep.trans (ihm (i' - g.width) (by omega) ?_)
            rw [hdiv, hmod]
            omega
          · obtain ⟨-, hdiv, hmod, hlt2⟩ :=
              east_index_facts (w := g.width) (h := g.height)
                (by rw [← hsz]; exact hi') hce
            refine hstep.trans (ihm (i' + 1) (by omega) ?_)
            rw [hdiv, hmod]
            omega
    have hri : st'.1.LinkReach i (g.width - 1) := hreach_root _ i hi le_rfl
    have hrj : st'.1.LinkReach j (g.width - 1) := hreach_root _ j hj le_rfl
    have hsymm : Symmetric (fun a b => b ∈ st'.1.passagesOf a) := by
      intro a b hab
      exact hsym' a b hab
    exact hri.trans (Relation.ReflTransGen.symmetric hsymm hrj)

theorem Pool.neighborhoodOf_of_ge {q : Pool U} {i : Nat} (h : q.size ≤ i) :
    q.neighborhoodOf i = ∅ := by
  unfold Pool.neighborhoodOf
  rw [Pool.node?_eq_none_of_ge h]
  rfl

end C1Lemmas

/-! # Claim C1: the six generation algorithms -/

/-- C1 counterexample: two of the six algorithms break the claim on
connected inputs.  `sidewinder` panics (its `link_cells_at` asserts
compare the row against the width) on the connected `1 × 2` grid built by
`FlatSquareGrid::new(1, 2)`, so it does not terminate with a connected
link graph there; and `aldous_broder` never terminates on the connected
three-node path pool when every draw picks neighbor index 0, so "for any
outcomes of the random source each algorithm terminates" is false. -/
theorem C1_counterexample :
    FlatSquareGrid.sidewinder exampleGrid12 (fun _ => 0) = none ∧
    exampleGrid12.nodePool.isAdjacentlyConnected = true ∧
    (∀ fuel, abRun examplePoolPath3 (fun _ => 0) fuel = .fuelOut) ∧
    examplePoolPath3.isAdjacentlyConnected = true := by
  refine ⟨?_, by decide, abRun_path3_const0, by decide⟩
  unfold FlatSquareGrid.sidewinder
  rw [if_neg (show ¬ exampleGrid12.width = 0 by decide)]
  have hsw : FlatSquareGrid.swHallways exampleGrid12.width (fun _ => 0) 1
      exampleGrid12 0 0 = some (exampleGrid12, 0, 0) := by
    unfold FlatSquareGrid.swHallways
    rfl
  rw [show List.range' 1 (exampleGrid12.height - 1) = [1] from rfl,
    List.foldlM_cons]
  dsimp only
  rw [hsw]
  rfl

/-- C1 (amended): on every pool whose declared adjacencies are
well-formed, symmetric, irreflexive and adjacently connected and whose
link sets start empty, `hunt_and_kill` and `recursive_backtracker`
terminate for every outcome sequence with a link graph that is a spanning
tree of the node set (connected, acyclic, `|V| - 1` links), and
`aldous_broder` and `wilson` produce such a spanning tree whenever they
terminate; `binary_tree` succeeds on every well-formed link-free grid and
makes every node link-reachable from every other.  (`sidewinder` is
excluded: see `C1_counterexample`, as is the universal termination of
`aldous_broder`.) -/
theorem C1_generation {T : Type _} (p : Pool T) (draws : Nat → Nat)
    (coins : Nat → Bool) (g : FlatSquareGrid)
    (hwf : p.WF)
    (hsym : ∀ i, i < p.size → ∀ j, j < p.size →
      j ∈ p.neighborhoodOf i → i ∈ p.neighborhoodOf j)
    (hnoself : ∀ i, i < p.size → i ∉ p.neighborhoodOf i)
    (hnolinks : ∀ i, i < p.size → p.passagesOf i = ∅)
    (hconn : p.isAdjacentlyConnected = true)
    (hgwf : g.WF)
    (hgnolinks : ∀ i, i < g.nodePool.size → g.nodePool.passagesOf i = ∅) :
    (∃ p', hkRun p draws = .done p' ∧
      SpanningTreeOn p' (Finset.range p.size)) ∧
    (∃ p', rbRun p draws = .done p' ∧
      SpanningTreeOn p' (Finset.range p.size)) ∧
    (∀ fuel p', abRun p draws fuel = .done p' →
      SpanningTreeOn p' (Finset.range p.size)) ∧
    (∀ fuel p', wilsonRun p draws fuel = .done p' →
      SpanningTreeOn p' (Finset.range p.size)) ∧
    (∃ g', FlatSquareGrid.binaryTree g coins = some g' ∧
      g'.nodePool.size = g.nodePool.size ∧
      ∀ i, i < g.nodePool.size → ∀ j, j < g.nodePool.size →
        g'.nodePool.LinkReach i j) := by
  have hsym' : p.AdjSym := by
    intro i j hj
    by_cases hi : i < p.size
    · exact hsym i hi j (Pool.adj_lt_of_WF hwf hj) hj
    · rw [Pool.neighborhoodOf_of_ge (le_of_not_lt hi)] at hj
      exact absurd hj (Finset.not_mem_empty _)
  have hnoself' : p.NoSelfAdj := by
    intro i
    by_cases hi : i < p.size
    · exact hnoself i hi
    · rw [Pool.neighborhoodOf_of_ge (le_of_not_lt hi)]
      exact Finset.not_mem_empty _
  have hnolinks' : ∀ i, p.passagesOf i = ∅ := by
    intro i
    by_cases hi : i < p.size
    · exact hnolinks i hi
    · exact Pool.passagesOf_of_ge (le_of_not_lt hi)
  have hgnolinks' : ∀ i, g.nodePool.passagesOf i = ∅ := by
    intro i
    by_cases hi : i < g.nodePool.size
    · exact hgnolinks i hi
    · exact Pool.passagesOf_of_ge (le_of_not_lt hi)
  exact ⟨hkRun_spanningTree draws hwf hsym' hnolinks' hconn,
    rbRun_spanningTree draws hwf hsym' hnolinks' hconn,
    fun fuel p' hrun =>
      abRun_done_spanningTree hwf hsym' hnoself' hnolinks' hrun,
    fun fuel p' hrun => wilsonRun_done_spanningTree
      (fun i a ha => Pool.adj_lt_of_WF hwf ha) hnolinks'
      (Pool.isAdjacentlyConnected_reach hconn).1 hrun,
    binaryTree_run hgwf coins hgnolinks'⟩

/-- C1 witness: the amended statement instantiated at the connected
two-node pool and the `2 × 2` grid, with every hypothesis decided. -/
theorem C1_generation_witness :
    (∃ p', hkRun examplePool2 (fun _ => 0) = .done p' ∧
      SpanningTreeOn p' (Finset.range examplePool2.size)) ∧
    (∃ p', rbRun examplePool2 (fun _ => 0) = .done p' ∧
      SpanningTreeOn p' (Finset.range examplePool2.size)) ∧
    (∀ fuel p', abRun examplePool2 (fun _ => 0) fuel = .done p' →
      SpanningTreeOn p' (Finset.range examplePool2.size)) ∧
    (∀ fuel p', wilsonRun examplePool2 (fun _ => 0) fuel = .done p' →
      SpanningTreeOn p' (Finset.range examplePool2.size)) ∧
    (∃ g', FlatSquareGrid.binaryTree exampleGrid22 (fun _ => false) =
        some g' ∧
      g'.nodePool.size = exampleGrid22.nodePool.size ∧
      ∀ i, i < exampleGrid22.nodePool.size →
        ∀ j, j < exampleGrid22.nodePool.size →
          g'.nodePool.LinkReach i j) :=
  C1_generation examplePool2 (fun _ => 0) (fun _ => false) exampleGrid22
    (by unfold Pool.WF; decide) (by decide) (by decide) (by decide)
    (by decide) (by unfold FlatSquareGrid.WF; decide) (by decide)

end Mazeworld
